import Mathlib

/-!
# flecs: poly objects (`src/poly.c`) and the table cache (`src/table_cache.c`)

A shallow embedding of the two C files and theorems about it.

Conventions of the embedding

* A nullable C pointer is an `Option Nat`: `none` is `NULL`, `some a` is the
  address `a`.
* Memory is typed: a function from addresses to the objects stored there.
* An `ecs_assert` that fails ends the call: the embedded function returns
  `none` (table cache) or `Except.error Fault.assertion` (poly).
* `int32_t` counters are `Int`; the partition counts stay far below `2^31`
  (one count per linked header), so no wrap-around is modelled.
-/

namespace Flecs

/-! ## Definitions: poly objects -/

/-- Modelled from the spec: the closed enumeration of mixin kinds
(`ecs_mixin_kind_t` is declared in a header that is not part of the sources);
the order is the one of `mixin_kind_str` in `poly.c`. -/
inductive ecs_mixin_kind_t where
  | EcsMixinBase
  | EcsMixinWorld
  | EcsMixinEntity
  | EcsMixinObservable
  | EcsMixinIterable
  | EcsMixinDtor
  | EcsMixinMax
  deriving DecidableEq, Repr

open ecs_mixin_kind_t

/-- Modelled from the spec: the mixin descriptor `ecs_mixins_t`, a diagnostic
type name and one byte offset per mixin kind (`0` means not present). -/
structure ecs_mixins_t where
  type_name : String
  elems : ecs_mixin_kind_t → Int

/-- Modelled from the spec: the object header `ecs_header_t` (magic, type tag,
reference to the descriptor of the variant; descriptors are immutable statics,
so the reference is modelled by the descriptor itself). -/
structure ecs_header_t where
  magic : Int
  type : Int
  mixins : Option ecs_mixins_t

/-- Modelled from the spec: the sentinel value of `magic` of an initialised
poly object (the macro `ECS_OBJECT_MAGIC` is defined outside the sources). -/
def ECS_OBJECT_MAGIC : Int := 0x6563736f

/-- Memory as seen by `poly.c`: the header stored at an address, the pointer
stored at an address (for the `Base` field of an instance, or the world
reference of the `World` mixin), and the content of a byte that belongs to
neither a header nor a pointer. -/
structure PolyMem where
  hdr : Nat → ecs_header_t
  ptr : Nat → Option Nat
  byte : Nat → Nat := fun _ => 0

/-- The ways a call of `poly.c` can fail to return: a failed `ecs_assert` (or
`assert`), the recursion budget of the embedding used up, a call of
`ecs_os_abort`, or a step whose behaviour C leaves undefined (a read through
`NULL`, a negative size given to `memset`). -/
inductive Fault where
  | assertion
  | fuel
  | abort
  | undefined
  deriving DecidableEq, Repr

/-- The macro `ECS_OFFSET(ptr, offset)`: address arithmetic. -/
def ECS_OFFSET (p : Nat) (offset : Int) : Nat := ((p : Int) + offset).toNat

/-- The descriptor `ecs_world_t_mixins`; the three `offsetof` values depend on
the layout of `ecs_world_t` and are parameters. -/
def ecs_world_t_mixins (off_self off_observable off_iterable : Int) : ecs_mixins_t :=
  { type_name := "ecs_world_t"
    elems := fun k =>
      match k with
      | EcsMixinWorld => off_self
      | EcsMixinObservable => off_observable
      | EcsMixinIterable => off_iterable
      | _ => 0 }

/-- The descriptor `ecs_stage_t_mixins`: `Base` and `World` are both the
offset of the field `world` of `ecs_stage_t`. -/
def ecs_stage_t_mixins (off_world : Int) : ecs_mixins_t :=
  { type_name := "ecs_stage_t"
    elems := fun k =>
      match k with
      | EcsMixinBase => off_world
      | EcsMixinWorld => off_world
      | _ => 0 }

/-- The descriptor `ecs_filter_t_mixins`: only `Iterable`. -/
def ecs_filter_t_mixins (off_iterable : Int) : ecs_mixins_t :=
  { type_name := "ecs_filter_t"
    elems := fun k =>
      match k with
      | EcsMixinIterable => off_iterable
      | _ => 0 }

/-- The function `get_mixin` of `poly.c`, statement by statement. The first
argument bounds the depth of the recursive call. The label `find_in_base` is
reached only from the branch `offset == 0`, and tests the same variable
`offset` again. -/
def get_mixin (m : PolyMem) : Nat → Option Nat → ecs_mixin_kind_t → Except Fault (Option Nat)
  | 0, _, _ => .error .fuel
  | fuel + 1, poly, kind =>
    match poly with
    | none => .error .assertion
    | some p =>
      if kind = EcsMixinMax then .error .assertion
      else
        let hdr := m.hdr p
        if hdr.magic ≠ ECS_OBJECT_MAGIC then .error .assertion
        else
          match hdr.mixins with
          | none => .ok none
          | some mixins =>
            let offset := mixins.elems kind
            if offset = 0 then
              -- find_in_base:
              if offset ≠ 0 then
                match m.ptr (ECS_OFFSET p offset) with
                | some base => get_mixin m fuel (some base) kind
                | none => .ok none
              else .ok none
            else .ok (some (ECS_OFFSET p offset))

/-- A memory with a stage at address 1000 (its field `world` at offset 24)
whose world is the world instance at address 2000 (observable at offset 40). -/
def stageWorldMem : PolyMem :=
  { hdr := fun a =>
      if a = 1000 then
        { magic := ECS_OBJECT_MAGIC, type := 2, mixins := some (ecs_stage_t_mixins 24) }
      else if a = 2000 then
        { magic := ECS_OBJECT_MAGIC, type := 1, mixins := some (ecs_world_t_mixins 16 40 56) }
      else { magic := 0, type := 0, mixins := none }
    ptr := fun a => if a = 1024 then some 2000 else none }

/-! ### Lifecycle and typed accessors -/

/-- The header of zeroed memory. -/
def zeroHeader : ecs_header_t := { magic := 0, type := 0, mixins := none }

/-- Modelled from the spec: `ecs_os_memset(ptr, 0, size)`, the zero fill of the
`size` bytes at `p` (the OS API is outside the sources): every header, pointer
and byte stored at an address of the block reads as zero afterwards. -/
def ecs_os_memset (m : PolyMem) (p : Nat) (size : Nat) : PolyMem :=
  { hdr := fun a => if p ≤ a ∧ a < p + size then zeroHeader else m.hdr a
    ptr := fun a => if p ≤ a ∧ a < p + size then none else m.ptr a
    byte := fun a => if p ≤ a ∧ a < p + size then 0 else m.byte a }

/-- The function `_ecs_poly_init`: the memory after the call and the returned
pointer. -/
def _ecs_poly_init (m : PolyMem) (poly : Option Nat) (type : Int) (size : Int)
    (mixins : Option ecs_mixins_t) : Except Fault (PolyMem × Option Nat) :=
  match poly with
  | none => .error .assertion
  | some p =>
    if size < 0 then .error .undefined
    else
      let m1 := ecs_os_memset m p size.toNat
      let m2 : PolyMem :=
        { m1 with
          hdr := fun a =>
            if a = p then { magic := ECS_OBJECT_MAGIC, type := type, mixins := mixins }
            else m1.hdr a }
      .ok (m2, some p)

/-- The function `_ecs_poly_fini`: the memory after the call. -/
def _ecs_poly_fini (m : PolyMem) (poly : Option Nat) (type : Int) : Except Fault PolyMem :=
  match poly with
  | none => .error .assertion
  | some p =>
    if (m.hdr p).magic ≠ ECS_OBJECT_MAGIC then .error .assertion
    else if (m.hdr p).type ≠ type then .error .assertion
    else .ok { m with hdr := fun a => if a = p then { m.hdr p with magic := 0 } else m.hdr a }

/-- The function `_ecs_poly_is`. -/
def _ecs_poly_is (m : PolyMem) (poly : Option Nat) (type : Int) : Except Fault Bool :=
  match poly with
  | none => .error .assertion
  | some p =>
    if (m.hdr p).magic ≠ ECS_OBJECT_MAGIC then .error .assertion
    else .ok (decide ((m.hdr p).type = type))

/-- The function `_ecs_poly_assert` (the arguments `file` and `line` only go
into the diagnostic). The name of the type is read through `hdr->mixins` before
the magic and the type are checked. -/
def _ecs_poly_assert (m : PolyMem) (poly : Option Nat) (type : Int) :
    Except Fault (Option Nat) :=
  match poly with
  | none => .error .assertion
  | some p =>
    match (m.hdr p).mixins with
    | none => .error .undefined
    | some _ =>
      if (m.hdr p).magic ≠ ECS_OBJECT_MAGIC then .error .assertion
      else if (m.hdr p).type ≠ type then .error .assertion
      else .ok (some p)

/-- The function `assert_mixin`: `ecs_os_abort` is called when `get_mixin`
returns `NULL`. -/
def assert_mixin (m : PolyMem) (fuel : Nat) (poly : Option Nat) (kind : ecs_mixin_kind_t) :
    Except Fault (Option Nat) :=
  match get_mixin m fuel poly kind with
  | .error f => .error f
  | .ok none => .error .abort
  | .ok (some ptr) => .ok (some ptr)

/-- The function `ecs_get_iterable`. -/
def ecs_get_iterable (m : PolyMem) (fuel : Nat) (poly : Option Nat) : Except Fault (Option Nat) :=
  assert_mixin m fuel poly EcsMixinIterable

/-- The function `ecs_get_observable`. -/
def ecs_get_observable (m : PolyMem) (fuel : Nat) (poly : Option Nat) :
    Except Fault (Option Nat) :=
  assert_mixin m fuel poly EcsMixinObservable

/-- The function `ecs_get_world`: the pointer stored at the address that
`assert_mixin` returns. -/
def ecs_get_world (m : PolyMem) (fuel : Nat) (poly : Option Nat) : Except Fault (Option Nat) :=
  match assert_mixin m fuel poly EcsMixinWorld with
  | .error f => .error f
  | .ok none => .error .undefined
  | .ok (some a) => .ok (m.ptr a)

/-- The function `ecs_get_dtor`. -/
def ecs_get_dtor (m : PolyMem) (fuel : Nat) (poly : Option Nat) : Except Fault (Option Nat) :=
  assert_mixin m fuel poly EcsMixinDtor

/-- Memory that is all zero. -/
def zeroMem : PolyMem := { hdr := fun _ => zeroHeader, ptr := fun _ => none }

/-- A memory with a filter instance at address 3000 (its iterable at offset
32). -/
def filterMem : PolyMem :=
  { hdr := fun a =>
      if a = 3000 then
        { magic := ECS_OBJECT_MAGIC, type := 6, mixins := some (ecs_filter_t_mixins 32) }
      else zeroHeader
    ptr := fun _ => none }

/-! ## Definitions: table cache -/

/-- Modelled from the spec: the cache entry header `ecs_table_cache_hdr_t`
(links `next`/`prev`, back-reference `cache`, associated `table` or `NULL`
for the "no table" value, and the partition flag `empty`); the struct is
declared in a header that is not part of the sources. -/
structure ecs_table_cache_hdr_t where
  cache : Option Nat
  table : Option Nat
  prev : Option Nat
  next : Option Nat
  empty : Bool

/-- Modelled from the spec: one partition `ecs_table_cache_list_t`, a doubly
linked list given by head, tail and count. -/
structure ecs_table_cache_list_t where
  first : Option Nat
  last : Option Nat
  count : Int

/-- Modelled from the spec: the index map consumed by the cache (`ecs_map_t`
is implemented outside the sources): a finite map from table id to entry
address, kept as a list of key/value pairs, with the flag that
`ecs_map_is_initialized` reads. -/
structure ecs_map_t where
  initialized : Bool
  elems : List (Nat × Nat)

/-- Modelled from the spec: `create(initial_capacity)`, an empty initialised map. -/
def ecs_map_init : ecs_map_t := { initialized := true, elems := [] }

/-- Modelled from the spec: `is_initialized(map)`. -/
def ecs_map_is_initialized (m : ecs_map_t) : Bool := m.initialized

/-- Modelled from the spec: `size(map)`, the number of keys. -/
def ecs_map_count (m : ecs_map_t) : Int := (m.elems.length : Int)

/-- Modelled from the spec: `get(map, key)`, the value stored for the key, or
`NULL` when the key is absent. -/
def ecs_map_get_ptr (m : ecs_map_t) (key : Nat) : Option Nat := m.elems.lookup key

/-- Modelled from the spec: `remove(map, key)`. -/
def ecs_map_remove (m : ecs_map_t) (key : Nat) : ecs_map_t :=
  { m with elems := m.elems.filter (fun p => !decide (p.1 = key)) }

/-- Modelled from the spec: `set(map, key, value)`, insert or overwrite. -/
def ecs_map_set_ptr (m : ecs_map_t) (key : Nat) (value : Nat) : ecs_map_t :=
  { m with elems := (key, value) :: m.elems.filter (fun p => !decide (p.1 = key)) }

/-- Modelled from the spec: the cache object `ecs_table_cache_t`: the index
and the two partitions. -/
structure ecs_table_cache_t where
  index : ecs_map_t
  tables : ecs_table_cache_list_t
  empty_tables : ecs_table_cache_list_t

/-- The memory `table_cache.c` works on: one cache object, the address `self`
it lives at (what a header's `cache` field is compared with), and the entry
headers by address. The cache object exists, so `cache != NULL` holds in every
call. -/
structure State where
  self : Nat
  cache : ecs_table_cache_t
  hdr : Nat → ecs_table_cache_hdr_t

/-- A store to the header at address `a`. -/
def setHdr (h : Nat → ecs_table_cache_hdr_t) (a : Nat) (v : ecs_table_cache_hdr_t) :
    Nat → ecs_table_cache_hdr_t :=
  fun x => if x = a then v else h x

/-- Lines 8 to 16 of `table_cache_list_remove`: the two neighbours of `elem`
are linked to each other. -/
def unlink_hdr (h : Nat → ecs_table_cache_hdr_t) (elem : Nat) : Nat → ecs_table_cache_hdr_t :=
  let next := (h elem).next
  let prev := (h elem).prev
  let h1 := match next with
    | some n => setHdr h n { h n with prev := prev }
    | none => h
  match prev with
  | some p => setHdr h1 p { h1 p with next := next }
  | none => h1

/-- The function `table_cache_list_remove`. -/
def table_cache_list_remove (s : State) (elem : Nat) : State :=
  let next := (s.hdr elem).next
  let prev := (s.hdr elem).prev
  let h2 := unlink_hdr s.hdr elem
  let emp := (h2 elem).empty
  let et0 : ecs_table_cache_list_t :=
    { s.cache.empty_tables with count := s.cache.empty_tables.count - (if emp then 1 else 0) }
  let t0 : ecs_table_cache_list_t :=
    { s.cache.tables with count := s.cache.tables.count - (if emp then 0 else 1) }
  let et1 := if et0.first = some elem then { et0 with first := next } else et0
  let t1 :=
    if et0.first = some elem then t0
    else if t0.first = some elem then { t0 with first := next } else t0
  let et2 := if et1.last = some elem then { et1 with last := prev } else et1
  let t2 := if t1.last = some elem then { t1 with last := prev } else t1
  { s with hdr := h2, cache := { s.cache with empty_tables := et2, tables := t2 } }

/-- Lines 54 to 59 of `table_cache_list_insert`: `elem` is linked behind the
old tail `last`. -/
def link_hdr (h : Nat → ecs_table_cache_hdr_t) (elem : Nat) (last : Option Nat) :
    Nat → ecs_table_cache_hdr_t :=
  let h1 := setHdr h elem { h elem with next := none, prev := last }
  match last with
  | some l => setHdr h1 l { h1 l with next := some elem }
  | none => h1

/-- Lines 41 to 45 (and 47 to 51) of `table_cache_list_insert`: the tail, the
count and, when the count becomes 1, the head of one partition. -/
def list_push (l : ecs_table_cache_list_t) (elem : Nat) : ecs_table_cache_list_t :=
  let l1 : ecs_table_cache_list_t := { l with last := some elem, count := l.count + 1 }
  if l1.count = 1 then { l1 with first := some elem } else l1

/-- The function `table_cache_list_insert`. -/
def table_cache_list_insert (s : State) (elem : Nat) : State :=
  if (s.hdr elem).empty then
    let last := s.cache.empty_tables.last
    { s with
      cache := { s.cache with empty_tables := list_push s.cache.empty_tables elem }
      hdr := link_hdr s.hdr elem last }
  else
    let last := s.cache.tables.last
    { s with
      cache := { s.cache with tables := list_push s.cache.tables elem }
      hdr := link_hdr s.hdr elem last }

/-- The function `ecs_table_cache_init`: only the index is initialised. -/
def ecs_table_cache_init (s : State) : State :=
  { s with cache := { s.cache with index := ecs_map_init } }

/-- A zeroed cache object at address `self`, initialised: the state the
caller has after `ecs_table_cache_init` ("lists start empty"). -/
def fresh (self : Nat) (hdr : Nat → ecs_table_cache_hdr_t) : State :=
  ecs_table_cache_init
    { self := self
      cache :=
        { index := { initialized := false, elems := [] }
          tables := { first := none, last := none, count := 0 }
          empty_tables := { first := none, last := none, count := 0 } }
      hdr := hdr }

/-- The function `ecs_table_cache_is_empty`. -/
def ecs_table_cache_is_empty (s : State) : Bool :=
  decide (ecs_map_count s.cache.index = 0)

/-- The function `ecs_table_cache_get`; `tid` is the field `id` of the table
at an address. The outer `none` is the failed assertion on the head of
`tables` in the "no table" branch. -/
def ecs_table_cache_get (tid : Nat → Nat) (s : State) (table : Option Nat) :
    Option (Option Nat) :=
  match table with
  | some t => some (ecs_map_get_ptr s.cache.index (tid t))
  | none =>
    match s.cache.tables.first with
    | none => some none
    | some elem => if (s.hdr elem).table = none then some (some elem) else none

/-- Lines 92 to 97 of `ecs_table_cache_insert`: a "no table" reference is
never empty, a real table is empty when `ecs_table_count` is 0; `rows` is what
`ecs_table_count` returns for the table at an address at the time of the
call. -/
def classify (rows : Nat → Int) (table : Option Nat) : Bool :=
  match table with
  | none => false
  | some t => decide (rows t = 0)

/-- Lines 99 to 101 of `ecs_table_cache_insert`: the three stores to the
header `result`. -/
def insert_stamp (s : State) (table : Option Nat) (r : Nat) (empty : Bool) : State :=
  { s with
    hdr := setHdr s.hdr r { s.hdr r with cache := some s.self, table := table, empty := empty } }

/-- Lines 105 to 107 of `ecs_table_cache_insert`: a real table is added to the
index under its id. -/
def insert_index (tid : Nat → Nat) (s : State) (table : Option Nat) (r : Nat) : State :=
  match table with
  | some t => { s with cache := { s.cache with index := ecs_map_set_ptr s.cache.index (tid t) r } }
  | none => s

/-- The function `ecs_table_cache_insert`. -/
def ecs_table_cache_insert (tid : Nat → Nat) (rows : Nat → Int) (s : State)
    (table : Option Nat) (result : Option Nat) : Option State :=
  match ecs_table_cache_get tid s table with
  | some none =>
    match result with
    | none => none
    | some r =>
      let empty := classify rows table
      let s1 := table_cache_list_insert (insert_stamp s table r empty) r
      let s2 := insert_index tid s1 table r
      if (empty || s2.cache.tables.first.isSome) &&
          (!empty || s2.cache.empty_tables.first.isSome) then some s2
      else none
  | _ => none

/-- The function `ecs_table_cache_replace`. Reading `table->id` or writing
`elem->prev` through `NULL` ends the call like a failed assertion. -/
def ecs_table_cache_replace (tid : Nat → Nat) (s : State) (table : Option Nat)
    (elem : Option Nat) : Option State :=
  match table, elem with
  | some t, some e =>
    match ecs_map_get_ptr s.cache.index (tid t) with
    | none => none
    | some old =>
      let prev := (s.hdr old).prev
      let next := (s.hdr old).next
      let r1 : Option (Nat → ecs_table_cache_hdr_t) :=
        match prev with
        | some p =>
          if (s.hdr p).next = some old then some (setHdr s.hdr p { s.hdr p with next := some e })
          else none
        | none => some s.hdr
      match r1 with
      | none => none
      | some h1 =>
        let r2 : Option (Nat → ecs_table_cache_hdr_t) :=
          match next with
          | some n =>
            if (h1 n).prev = some old then some (setHdr h1 n { h1 n with prev := some e })
            else none
          | none => some h1
        match r2 with
        | none => none
        | some h2 =>
          let et := s.cache.empty_tables
          let et1 := if et.first = some old then { et with first := some e } else et
          let et2 := if et1.last = some old then { et1 with last := some e } else et1
          let t0 := s.cache.tables
          let t1 := if t0.first = some old then { t0 with first := some e } else t0
          let t2 := if t1.last = some old then { t1 with last := some e } else t1
          let index := ecs_map_set_ptr s.cache.index (tid t) e
          some
            { s with
              cache := { index := index, tables := t2, empty_tables := et2 }
              hdr := setHdr h2 e { h2 e with prev := prev, next := next } }
  | _, _ => none

/-- Line 195 of `ecs_table_cache_remove`: the id of the table is removed from
the index. -/
def remove_index (tid : Nat → Nat) (s : State) (t : Nat) : State :=
  { s with cache := { s.cache with index := ecs_map_remove s.cache.index (tid t) } }

/-- The function `ecs_table_cache_remove`: the new state and the returned
pointer. -/
def ecs_table_cache_remove (tid : Nat → Nat) (s : State) (table : Option Nat)
    (elem : Option Nat) : Option (State × Option Nat) :=
  match table with
  | none => none
  | some t =>
    if !ecs_map_is_initialized s.cache.index then some (s, none)
    else
      let elem1 : Option Nat :=
        match elem with
        | some e => some e
        | none => ecs_map_get_ptr s.cache.index (tid t)
      match elem1 with
      | none => some (s, none)
      | some e =>
        if (s.hdr e).cache = some s.self ∧ (s.hdr e).table = some t then
          some (remove_index tid (table_cache_list_remove s e) t, some e)
        else none

/-- Line 219 of `ecs_table_cache_set_empty`: the store `elem->empty = empty`. -/
def set_flag (s : State) (e : Nat) (empty : Bool) : State :=
  { s with hdr := setHdr s.hdr e { s.hdr e with empty := empty } }

/-- The function `ecs_table_cache_set_empty`: the new state and the returned
boolean. -/
def ecs_table_cache_set_empty (tid : Nat → Nat) (s : State) (table : Option Nat)
    (empty : Bool) : Option (State × Bool) :=
  match table with
  | none => none
  | some t =>
    match ecs_map_get_ptr s.cache.index (tid t) with
    | none => some (s, false)
    | some e =>
      if (s.hdr e).empty = empty then some (s, false)
      else
        let s1 := table_cache_list_remove s e
        let s2 := set_flag s1 e empty
        some (table_cache_list_insert s2 e, true)

/-- Modelled from the spec: the cursor `ecs_table_cache_iter_t` (`current` and
`next`; the struct is declared in a header that is not part of the sources). -/
structure ecs_table_cache_iter_t where
  cur : Option Nat
  next : Option Nat

/-- The function `flecs_table_cache_iter`: the cursor written to `out` and the
returned boolean. -/
def flecs_table_cache_iter (s : State) : ecs_table_cache_iter_t × Bool :=
  let out : ecs_table_cache_iter_t := { next := s.cache.tables.first, cur := none }
  (out, out.next.isSome)

/-- The function `flecs_table_cache_empty_iter`. -/
def flecs_table_cache_empty_iter (s : State) : ecs_table_cache_iter_t × Bool :=
  let out : ecs_table_cache_iter_t := { next := s.cache.empty_tables.first, cur := none }
  (out, out.next.isSome)

/-- The function `_flecs_table_cache_next`: the returned pointer and the
cursor after the call. -/
def _flecs_table_cache_next (s : State) (it : ecs_table_cache_iter_t) :
    Option Nat × ecs_table_cache_iter_t :=
  match it.next with
  | none => (none, it)
  | some next => (some next, { cur := some next, next := (s.hdr next).next })

/-! ### The abstract view of a cache state -/

/-- The first address of `xs`, or `d` when `xs` is empty. -/
def headOr (xs : List Nat) (d : Option Nat) : Option Nat :=
  match xs with
  | [] => d
  | y :: _ => some y

/-- The last address of `xs`, or `d` when `xs` is empty. -/
def lastOr (xs : List Nat) (d : Option Nat) : Option Nat :=
  match xs.getLast? with
  | some x => some x
  | none => d

/-- A doubly linked segment: the headers at the addresses `xs`, in this order,
are chained by `next` and `prev`; `p` is the `prev` of the first one and `n`
the `next` of the last one. -/
def Seg (h : Nat → ecs_table_cache_hdr_t) : Option Nat → List Nat → Option Nat → Prop
  | _, [], _ => True
  | p, x :: xs, n => (h x).prev = p ∧ (h x).next = headOr xs n ∧ Seg h (some x) xs n

/-- The partition `l` holds exactly the entries `xs`, in list order: a
well-formed doubly linked list from `first` to `last` whose length is
`count`. -/
def IsPart (h : Nat → ecs_table_cache_hdr_t) (l : ecs_table_cache_list_t) (xs : List Nat) : Prop :=
  l.first = xs.head? ∧ l.last = xs.getLast? ∧ l.count = (xs.length : Int) ∧ Seg h none xs none

/-- The two partitions of the cache hold the entries `ts` and `es`: both are
well-formed lists, no entry is linked twice, and the `empty` flag of an entry
names the partition that holds it. -/
structure Parts (s : State) (ts es : List Nat) : Prop where
  nodup : (ts ++ es).Nodup
  tables : IsPart s.hdr s.cache.tables ts
  empties : IsPart s.hdr s.cache.empty_tables es
  flag_t : ∀ x ∈ ts, (s.hdr x).empty = false
  flag_e : ∀ x ∈ es, (s.hdr x).empty = true

/-- A well-formed cache whose `tables` partition holds the entries `ts` and
whose `empty_tables` partition holds the entries `es` (in list order): the
invariant of the data model. -/
structure WF (tid : Nat → Nat) (s : State) (ts es : List Nat) extends Parts s ts es : Prop where
  init : s.cache.index.initialized = true
  keys : (s.cache.index.elems.map Prod.fst).Nodup
  owner : ∀ x ∈ ts ++ es, (s.hdr x).cache = some s.self
  idx_sound : ∀ k v, ecs_map_get_ptr s.cache.index k = some v →
    v ∈ ts ++ es ∧ ∃ t, (s.hdr v).table = some t ∧ tid t = k
  idx_complete : ∀ x ∈ ts ++ es, ∀ t, (s.hdr x).table = some t →
    ecs_map_get_ptr s.cache.index (tid t) = some x
  sentinel : ∀ x ∈ ts ++ es, (s.hdr x).table = none → ts.head? = some x

/-! ### What a replace does when its assertions hold -/

/-- The header stores of `ecs_table_cache_replace` (lines 127 to 135, 151 and
152) without the assertions: the neighbours of `old` are pointed at `e`, and
`e` gets the links of `old`. -/
def replace_hdr (h : Nat → ecs_table_cache_hdr_t) (old e : Nat) : Nat → ecs_table_cache_hdr_t :=
  let prev := (h old).prev
  let next := (h old).next
  let h1 := match prev with
    | some p => setHdr h p { h p with next := some e }
    | none => h
  let h2 := match next with
    | some n => setHdr h1 n { h1 n with prev := some e }
    | none => h1
  setHdr h2 e { h2 e with prev := prev, next := next }

/-- The stores of `ecs_table_cache_replace` to one partition (lines 137 to
148): `first` and `last` are redirected from `old` to `e`. -/
def replace_list (l : ecs_table_cache_list_t) (old e : Nat) : ecs_table_cache_list_t :=
  let l1 := if l.first = some old then { l with first := some e } else l
  if l1.last = some old then { l1 with last := some e } else l1

/-- The sequence `xs` with `e` in the place of `old`. -/
def swap_in (old e : Nat) (xs : List Nat) : List Nat :=
  xs.map (fun x => if x = old then e else x)

/-- The state `ecs_table_cache_replace` returns when its assertions hold:
`e` takes the index slot of the table and the place of `old` in its list. -/
def replace_state (tid : Nat → Nat) (s : State) (t old e : Nat) : State :=
  { s with
    cache :=
      { index := ecs_map_set_ptr s.cache.index (tid t) e
        tables := replace_list s.cache.tables old e
        empty_tables := replace_list s.cache.empty_tables old e }
    hdr := replace_hdr s.hdr old e }

/-! ### Sequences of calls -/

/-- One call of the three mutating operations (the cache argument is the cache
of the state). An insert carries the row counts `ecs_table_count` reports at
the time of the call. -/
inductive Op where
  | insert (rows : Nat → Int) (table : Option Nat) (result : Nat)
  | remove (table : Option Nat) (elem : Option Nat)
  | set_empty (table : Option Nat) (empty : Bool)

/-- One call on a state paired with the headers inserted and not yet removed
(the tracked entries). The result is `none` when the precondition of the call
is not met: an assertion of the code fails, an insert is given a header that
is still tracked, or a remove is given a header that is not tracked. -/
def step (tid : Nat → Nat) (st : State × List Nat) (op : Op) : Option (State × List Nat) :=
  match op with
  | Op.insert rows table result =>
    if result ∈ st.2 then none
    else
      match ecs_table_cache_insert tid rows st.1 table (some result) with
      | none => none
      | some s => some (s, result :: st.2)
  | Op.remove table elem =>
    if (match elem with | some e => decide (e ∈ st.2) | none => true) then
      match ecs_table_cache_remove tid st.1 table elem with
      | none => none
      | some (s, none) => some (s, st.2)
      | some (s, some e) => some (s, st.2.erase e)
    else none
  | Op.set_empty table empty =>
    match ecs_table_cache_set_empty tid st.1 table empty with
    | none => none
    | some (s, _) => some (s, st.2)

/-- A sequence of calls, from left to right. -/
def run (tid : Nat → Nat) : State × List Nat → List Op → Option (State × List Nat)
  | st, [] => some st
  | st, op :: ops =>
    match step tid st op with
    | none => none
    | some st2 => run tid st2 ops

/-- The number of tracked entries whose table is the "no table" value. -/
def noTableCount (s : State) (tr : List Nat) : Nat :=
  (tr.filter (fun x => (s.hdr x).table.isNone)).length

/-- The key under which an entry with a real table is indexed. -/
def keyOf (tid : Nat → Nat) (s : State) (x : Nat) : Nat :=
  match (s.hdr x).table with
  | some t => tid t
  | none => 0

/-- Headers that are all zero: what the callers of the examples start from. -/
def zeroHdr : Nat → ecs_table_cache_hdr_t :=
  fun _ => { cache := none, table := none, prev := none, next := none, empty := false }

/-! ### Traversals -/

/-- A traversal with the cursor `it`: `_flecs_table_cache_next` is called until
it returns `NULL`; after each yield of an entry `e` the caller calls
`ecs_table_cache_remove(cache, e->table, e)` when `del e` holds, and does
nothing else to the cache. The result is the sequence of yielded entries, the
final state and the final cursor; `none` when a call fails an assertion or the
budget of calls (first argument) is used up. -/
def traverse_removing (tid : Nat → Nat) (del : Nat → Bool) :
    Nat → State → ecs_table_cache_iter_t → Option (List Nat × State × ecs_table_cache_iter_t)
  | 0, _, _ => none
  | fuel + 1, s, it =>
    match _flecs_table_cache_next s it with
    | (none, it2) => some ([], s, it2)
    | (some e, it2) =>
      if del e then
        match ecs_table_cache_remove tid s (s.hdr e).table (some e) with
        | none => none
        | some (s2, _) =>
          (traverse_removing tid del fuel s2 it2).map (fun r => (e :: r.1, r.2))
      else (traverse_removing tid del fuel s it2).map (fun r => (e :: r.1, r.2))

/-- The results of `n` successive calls of `_flecs_table_cache_next` on a
cache that is not changed in between, and the cursor after them. -/
def take_next (s : State) : Nat → ecs_table_cache_iter_t →
    List (Option Nat) × ecs_table_cache_iter_t
  | 0, it => ([], it)
  | n + 1, it =>
    let r := _flecs_table_cache_next s it
    let rest := take_next s n r.2
    (r.1 :: rest.1, rest.2)

/-- A traversal with the cursor `it` in which, after each yield of an entry
`e`, the caller calls `ecs_table_cache_set_empty(cache, e->table, !e->empty)`
when `tog e` holds (the entry moves to the other partition), and does nothing
else to the cache. The result is the sequence of yielded entries, the final
state and the final cursor; `none` when a call fails an assertion or the budget
of calls (first argument) is used up. -/
def traverse_toggling (tid : Nat → Nat) (tog : Nat → Bool) :
    Nat → State → ecs_table_cache_iter_t → Option (List Nat × State × ecs_table_cache_iter_t)
  | 0, _, _ => none
  | fuel + 1, s, it =>
    match _flecs_table_cache_next s it with
    | (none, it2) => some ([], s, it2)
    | (some e, it2) =>
      if tog e then
        match ecs_table_cache_set_empty tid s (s.hdr e).table (!(s.hdr e).empty) with
        | none => none
        | some (s2, _) =>
          (traverse_toggling tid tog fuel s2 it2).map (fun r => (e :: r.1, r.2))
      else (traverse_toggling tid tog fuel s it2).map (fun r => (e :: r.1, r.2))

/-! ### The scenario of the specification -/

/-- Row counts of the scenario: table A (address 1) has 5 rows, every other
table has none. -/
def scenarioRows : Nat → Int := fun t => if t = 1 then 5 else 0

/-- The scenario: insert A (header 10), insert B (address 2, header 20),
`set_empty(A, true)`, remove B. -/
def scenarioOps : List Op :=
  [Op.insert scenarioRows (some 1) 10, Op.insert scenarioRows (some 2) 20,
    Op.set_empty (some 1) true, Op.remove (some 2) none]

/-- A second sequence: insert A (header 10), B (header 20) and C (address 3,
header 30); B and C have no rows, so `empty_tables` holds two entries. -/
def threeOps : List Op :=
  [Op.insert scenarioRows (some 1) 10, Op.insert scenarioRows (some 2) 20,
    Op.insert scenarioRows (some 3) 30]

/-- A third sequence: a "no table" entry (header 10) is inserted first, then A
(header 11) and B (header 20). -/
def sentinelOps : List Op :=
  [Op.insert scenarioRows none 10, Op.insert scenarioRows (some 1) 11,
    Op.insert scenarioRows (some 2) 20]

/-- The state and the tracked entries after the first `n` calls of a sequence,
started on a fresh cache at address 1 with table ids equal to addresses. -/
def after (ops : List Op) (n : Nat) : State × List Nat :=
  (run id (fresh 1 zeroHdr, []) (ops.take n)).getD (fresh 1 zeroHdr, [])

/-- The two partition counts of a state. -/
def counts (s : State) : Int × Int := (s.cache.tables.count, s.cache.empty_tables.count)

/-- The cache after `threeOps` where the caller has copied the header of B
(address 20) to a new record at address 50, as when a record is relocated. -/
def threeCopy : State :=
  { (after threeOps 3).1 with
    hdr := setHdr (after threeOps 3).1.hdr 50 ((after threeOps 3).1.hdr 20) }

/-- The cache with only A (header 10, in `tables`) where the new record at
address 50 names the cache and the table A but holds the flag `empty = true`. -/
def staleFlag : State := insert_stamp (after scenarioOps 1).1 (some 1) 50 true

/-! ## Theorems: poly objects -/

/-- A valid instance whose descriptor has offset 0 for the requested kind gets
`NULL` from `get_mixin`, whatever its `Base` offset and base instance are: the
test at `find_in_base` reads the variable that is known to be 0. -/
theorem get_mixin_zero_offset (m : PolyMem) (fuel p : Nat) (kind : ecs_mixin_kind_t)
    (mixins : ecs_mixins_t) (hk : kind ≠ EcsMixinMax)
    (hmagic : (m.hdr p).magic = ECS_OBJECT_MAGIC)
    (hmix : (m.hdr p).mixins = some mixins) (hoff : mixins.elems kind = 0) :
    get_mixin m (fuel + 1) (some p) kind = .ok none := by
  simp [get_mixin, hk, hmagic, hmix, hoff]

/-- C1 (evaluation of the code at the failing input): the stage at 1000 has no
local `Observable` offset, a non-zero `Base` offset, and its base pointer holds
the world at 2000, whose `Observable` resolves to address 2040; yet
`get_mixin(stage, Observable)` returns `NULL`, not the world's resolution. -/
theorem C1_get_mixin_stage_observable_is_null :
    (ecs_stage_t_mixins 24).elems EcsMixinObservable = 0 ∧
    (ecs_stage_t_mixins 24).elems EcsMixinBase ≠ 0 ∧
    stageWorldMem.ptr (ECS_OFFSET 1000 ((ecs_stage_t_mixins 24).elems EcsMixinBase)) = some 2000 ∧
    get_mixin stageWorldMem 3 (some 2000) EcsMixinObservable = .ok (some 2040) ∧
    get_mixin stageWorldMem 3 (some 1000) EcsMixinObservable = .ok none := by
  refine ⟨rfl, by decide, by decide, rfl, rfl⟩

/-! ## Theorems: table cache -/

/-! ### Stores to headers -/

@[simp] theorem setHdr_same (h : Nat → ecs_table_cache_hdr_t) (a : Nat)
    (v : ecs_table_cache_hdr_t) : setHdr h a v a = v := by
  simp [setHdr]

theorem setHdr_ne (h : Nat → ecs_table_cache_hdr_t) {a x : Nat}
    (v : ecs_table_cache_hdr_t) (hx : x ≠ a) : setHdr h a v x = h x := by
  simp [setHdr, hx]

/-! ### The index map -/

theorem lookup_filter_ne (l : List (Nat × Nat)) (k k2 : Nat) :
    (l.filter (fun p => !decide (p.1 = k))).lookup k2 = if k2 = k then none else l.lookup k2 := by
  induction l with
  | nil => simp
  | cons p l ih =>
    obtain ⟨a, b⟩ := p
    by_cases ha : a = k
    · subst ha
      by_cases hk : k2 = a
      · subst hk
        simp [List.filter_cons, ih]
      · have hk2 : (k2 == a) = false := by simpa using hk
        simp [List.filter_cons, ih, hk, List.lookup_cons, hk2]
    · by_cases hk : k2 = a
      · subst hk
        simp [List.filter_cons, ha, List.lookup_cons]
      · have hk2 : (k2 == a) = false := by simpa using hk
        simp [List.filter_cons, ha, List.lookup_cons, hk2, ih]

theorem map_get_set (m : ecs_map_t) (k v k2 : Nat) :
    ecs_map_get_ptr (ecs_map_set_ptr m k v) k2 =
      if k2 = k then some v else ecs_map_get_ptr m k2 := by
  unfold ecs_map_get_ptr ecs_map_set_ptr
  by_cases hk : k2 = k
  · subst hk
    simp [List.lookup_cons]
  · have hk2 : (k2 == k) = false := by simpa using hk
    simp [List.lookup_cons, hk2, lookup_filter_ne, hk]

theorem map_get_remove (m : ecs_map_t) (k k2 : Nat) :
    ecs_map_get_ptr (ecs_map_remove m k) k2 =
      if k2 = k then none else ecs_map_get_ptr m k2 := by
  unfold ecs_map_get_ptr ecs_map_remove
  simp [lookup_filter_ne]

theorem keys_filter_nodup (l : List (Nat × Nat)) (k : Nat)
    (h : (l.map Prod.fst).Nodup) :
    ((l.filter (fun p => !decide (p.1 = k))).map Prod.fst).Nodup := by
  have hsub : List.Sublist ((l.filter (fun p => !decide (p.1 = k))).map Prod.fst)
      (l.map Prod.fst) := List.Sublist.map _ (List.filter_sublist l)
  exact hsub.nodup h

theorem keys_remove_nodup (m : ecs_map_t) (k : Nat) (h : (m.elems.map Prod.fst).Nodup) :
    ((ecs_map_remove m k).elems.map Prod.fst).Nodup :=
  keys_filter_nodup m.elems k h

theorem keys_set_nodup (m : ecs_map_t) (k v : Nat) (h : (m.elems.map Prod.fst).Nodup) :
    ((ecs_map_set_ptr m k v).elems.map Prod.fst).Nodup := by
  unfold ecs_map_set_ptr
  simp only [List.map_cons, List.nodup_cons]
  refine ⟨?_, keys_filter_nodup m.elems k h⟩
  simp [List.mem_map, List.mem_filter]

/-! ### Doubly linked segments -/

theorem headOr_append (l r : List Nat) (n : Option Nat) :
    headOr (l ++ r) n = headOr l (headOr r n) := by
  cases l <;> simp [headOr]

theorem lastOr_cons (x : Nat) (l : List Nat) (p : Option Nat) :
    lastOr (x :: l) p = lastOr l (some x) := by
  cases l with
  | nil => simp [lastOr]
  | cons y l =>
    have h : (y :: l).getLast? = some ((y :: l).getLast (by simp)) := List.getLast?_eq_getLast _ _
    simp [lastOr, List.getLast?_cons_cons, h]

theorem headOr_none (xs : List Nat) : headOr xs none = xs.head? := by
  cases xs <;> simp [headOr]

theorem lastOr_none (xs : List Nat) : lastOr xs none = xs.getLast? := by
  unfold lastOr
  cases xs.getLast? <;> rfl

theorem seg_congr {h h2 : Nat → ecs_table_cache_hdr_t} :
    ∀ (xs : List Nat) (p n : Option Nat),
      (∀ x ∈ xs, (h2 x).prev = (h x).prev ∧ (h2 x).next = (h x).next) →
      Seg h p xs n → Seg h2 p xs n
  | [], _, _, _, _ => trivial
  | x :: xs, p, n, hx, hs => by
    obtain ⟨h1, h3, h4⟩ := hs
    have hxx := hx x (by simp)
    refine ⟨by rw [hxx.1, h1], by rw [hxx.2, h3], ?_⟩
    exact seg_congr xs (some x) n (fun y hy => hx y (by simp [hy])) h4

theorem seg_append (h : Nat → ecs_table_cache_hdr_t) :
    ∀ (l r : List Nat) (p n : Option Nat),
      Seg h p (l ++ r) n ↔ Seg h p l (headOr r n) ∧ Seg h (lastOr l p) r n
  | [], r, p, n => by simp [Seg, lastOr]
  | x :: l, r, p, n => by
    have ih := seg_append h l r (some x) n
    show ((h x).prev = p ∧ (h x).next = headOr (l ++ r) n ∧ Seg h (some x) (l ++ r) n) ↔
      ((h x).prev = p ∧ (h x).next = headOr l (headOr r n) ∧ Seg h (some x) l (headOr r n)) ∧
        Seg h (lastOr (x :: l) p) r n
    rw [ih, headOr_append, lastOr_cons]
    tauto

theorem seg_head_prev {h : Nat → ecs_table_cache_hdr_t} {p n : Option Nat} {xs : List Nat}
    {x : Nat} (hs : Seg h p xs n) (hx : xs.head? = some x) : (h x).prev = p := by
  cases xs with
  | nil => simp at hx
  | cons y ys =>
    simp only [List.head?_cons, Option.some.injEq] at hx
    subst hx
    exact hs.1

theorem seg_last_next {h : Nat → ecs_table_cache_hdr_t} :
    ∀ (xs : List Nat) (p n : Option Nat) (x : Nat),
      Seg h p xs n → xs.getLast? = some x → (h x).next = n
  | [], _, _, _, _, hx => by simp at hx
  | [y], _, _, x, hs, hx => by
    simp only [List.getLast?_singleton, Option.some.injEq] at hx
    subst hx
    exact hs.2.1
  | y :: z :: zs, _, n, x, hs, hx => by
    rw [List.getLast?_cons_cons] at hx
    exact seg_last_next (z :: zs) (some y) n x hs.2.2 hx

/-- The workhorse for stores into a segment: a memory that changes, inside the
segment, only the `prev` of its first header and the `next` of its last one
holds the same segment with the new end links. -/
theorem seg_retarget {h h2 : Nat → ecs_table_cache_hdr_t} :
    ∀ (xs : List Nat) (p n p2 n2 : Option Nat), xs.Nodup → Seg h p xs n →
      (∀ x ∈ xs, xs.head? ≠ some x → (h2 x).prev = (h x).prev) →
      (∀ x, xs.head? = some x → (h2 x).prev = p2) →
      (∀ x ∈ xs, xs.getLast? ≠ some x → (h2 x).next = (h x).next) →
      (∀ x, xs.getLast? = some x → (h2 x).next = n2) →
      Seg h2 p2 xs n2
  | [], _, _, _, _, _, _, _, _, _, _ => trivial
  | [y], p, n, p2, n2, _, _, _, hp2, _, hn2 =>
    ⟨hp2 y rfl, hn2 y rfl, trivial⟩
  | y :: z :: zs, p, n, p2, n2, hnd, hs, hp1, hp2, hn1, hn2 => by
    have hyz : y ≠ z := by
      intro hyz
      subst hyz
      simp at hnd
    have hy : y ∉ z :: zs := (List.nodup_cons.1 hnd).1
    refine ⟨hp2 y rfl, ?_, ?_⟩
    · have hlast : (y :: z :: zs).getLast? ≠ some y := by
        rw [List.getLast?_cons_cons]
        intro hl
        exact hy (List.mem_of_getLast?_eq_some hl)
      rw [hn1 y (by simp) hlast]
      exact hs.2.1
    · refine seg_retarget (z :: zs) (some y) n (some y) n2 (List.nodup_cons.1 hnd).2 hs.2.2
        ?_ ?_ ?_ ?_
      · intro x hx hhead
        refine hp1 x (List.mem_cons_of_mem _ hx) ?_
        intro hh
        simp only [List.head?_cons, Option.some.injEq] at hh
        exact hy (hh ▸ hx)
      · intro x hx
        simp only [List.head?_cons, Option.some.injEq] at hx
        subst hx
        rw [hp1 z (by simp) (by simpa using hyz)]
        exact hs.2.2.1
      · intro x hx hlast
        exact hn1 x (List.mem_cons_of_mem _ hx) (by rwa [List.getLast?_cons_cons])
      · intro x hx
        exact hn2 x (by rwa [List.getLast?_cons_cons])

/-! ### `unlink_hdr` and `link_hdr`, field by field -/

theorem unlink_hdr_next (h : Nat → ecs_table_cache_hdr_t) (e x : Nat) :
    (unlink_hdr h e x).next = if (h e).prev = some x then (h e).next else (h x).next := by
  unfold unlink_hdr
  cases hn : (h e).next <;> cases hp : (h e).prev <;> simp only [setHdr, Option.some.injEq] <;>
    (try split_ifs) <;>
    first | rfl | contradiction | (exfalso; omega) | (subst_vars; rfl)

theorem unlink_hdr_prev (h : Nat → ecs_table_cache_hdr_t) (e x : Nat) :
    (unlink_hdr h e x).prev = if (h e).next = some x then (h e).prev else (h x).prev := by
  unfold unlink_hdr
  cases hn : (h e).next <;> cases hp : (h e).prev <;> simp only [setHdr, Option.some.injEq] <;>
    (try split_ifs) <;>
    first | rfl | contradiction | (exfalso; omega) | (subst_vars; rfl)

theorem unlink_hdr_fields (h : Nat → ecs_table_cache_hdr_t) (e x : Nat) :
    (unlink_hdr h e x).cache = (h x).cache ∧ (unlink_hdr h e x).table = (h x).table ∧
      (unlink_hdr h e x).empty = (h x).empty := by
  unfold unlink_hdr
  cases hn : (h e).next <;> cases hp : (h e).prev <;> simp only [setHdr, Option.some.injEq] <;>
    (try split_ifs) <;>
    first | rfl | contradiction | (exfalso; omega) | (subst_vars; simp)

theorem link_hdr_next (h : Nat → ecs_table_cache_hdr_t) (e : Nat) (last : Option Nat) (x : Nat) :
    (link_hdr h e last x).next =
      if last = some x then some e else if x = e then none else (h x).next := by
  unfold link_hdr
  cases last <;> simp only [setHdr, Option.some.injEq] <;>
    (try split_ifs) <;>
    first | rfl | contradiction | (exfalso; omega)

theorem link_hdr_prev (h : Nat → ecs_table_cache_hdr_t) (e : Nat) (last : Option Nat) (x : Nat) :
    (link_hdr h e last x).prev = if x = e then last else (h x).prev := by
  unfold link_hdr
  cases last <;> simp only [setHdr, Option.some.injEq] <;>
    (try split_ifs) <;>
    first | rfl | contradiction | (exfalso; omega) | (subst_vars; rfl)

theorem link_hdr_fields (h : Nat → ecs_table_cache_hdr_t) (e : Nat) (last : Option Nat) (x : Nat) :
    (link_hdr h e last x).cache = (h x).cache ∧ (link_hdr h e last x).table = (h x).table ∧
      (link_hdr h e last x).empty = (h x).empty := by
  unfold link_hdr
  cases last <;> simp only [setHdr, Option.some.injEq] <;>
    (try split_ifs) <;>
    first | rfl | contradiction | (exfalso; omega) | (subst_vars; simp)

/-! ### Unlinking from and appending to a segment -/

theorem mem_of_head? {xs : List Nat} {x : Nat} (hx : xs.head? = some x) : x ∈ xs := by
  cases xs with
  | nil => simp at hx
  | cons y ys =>
    simp only [List.head?_cons, Option.some.injEq] at hx
    simp [hx]

theorem head_split (l r : List Nat) (e : Nat) (he : e ∉ l) :
    (if (l ++ e :: r).head? = some e then r.head? else (l ++ e :: r).head?) = (l ++ r).head? := by
  cases l with
  | nil => simp
  | cons a l =>
    have hae : a ≠ e := fun hh => he (by simp [hh])
    simp [hae]

theorem last_split (l r : List Nat) (e : Nat) (he : e ∉ r) :
    (if (l ++ e :: r).getLast? = some e then l.getLast? else (l ++ e :: r).getLast?) =
      (l ++ r).getLast? := by
  cases r with
  | nil => simp
  | cons a r =>
    obtain ⟨z, hz⟩ : ∃ z, (a :: r).getLast? = some z :=
      ⟨(a :: r).getLast (by simp), List.getLast?_eq_getLast _ _⟩
    have hze : z ≠ e := fun hh => he (hh ▸ List.mem_of_getLast?_eq_some hz)
    simp [List.getLast?_append, List.getLast?_cons_cons, hz, hze]

theorem seg_unlink (h : Nat → ecs_table_cache_hdr_t) (l r : List Nat) (e : Nat)
    (hnd : (l ++ e :: r).Nodup) (hs : Seg h none (l ++ e :: r) none) :
    (h e).prev = l.getLast? ∧ (h e).next = r.head? ∧
      Seg (unlink_hdr h e) none (l ++ r) none := by
  obtain ⟨hl, hp, hn, hr⟩ := (seg_append h l (e :: r) none none).1 hs
  rw [lastOr_none] at hp
  rw [headOr_none] at hn
  obtain ⟨hlnd, hernd, hdisj⟩ := List.nodup_append.1 hnd
  obtain ⟨her, hrnd⟩ := List.nodup_cons.1 hernd
  have hlr : ∀ x, x ∈ l → x ∈ r → False := fun x hx hx2 =>
    hdisj hx (List.mem_cons_of_mem _ hx2)
  refine ⟨hp, hn, (seg_append _ l r none none).2 ⟨?_, ?_⟩⟩
  · refine seg_retarget l none (some e) none (headOr r none) hlnd hl ?_ ?_ ?_ ?_
    · intro x hx _
      rw [unlink_hdr_prev, if_neg]
      rw [hn]
      exact fun hh => hlr x hx (mem_of_head? hh)
    · intro x hx
      rw [unlink_hdr_prev, if_neg]
      · exact seg_head_prev hl hx
      · rw [hn]
        exact fun hh => hlr x (mem_of_head? hx) (mem_of_head? hh)
    · intro x _ hlast
      rw [unlink_hdr_next, if_neg]
      rw [hp]
      exact hlast
    · intro x hx
      rw [unlink_hdr_next, if_pos (hp.trans hx), hn, headOr_none]
  · refine seg_retarget r (some e) none (lastOr l none) none hrnd hr ?_ ?_ ?_ ?_
    · intro x _ hhead
      rw [unlink_hdr_prev, if_neg]
      rw [hn]
      exact hhead
    · intro x hx
      rw [unlink_hdr_prev, if_pos (hn.trans hx), hp, lastOr_none]
    · intro x hx _
      rw [unlink_hdr_next, if_neg]
      rw [hp]
      exact fun hh => hlr x (List.mem_of_getLast?_eq_some hh) hx
    · intro x hx
      rw [unlink_hdr_next, if_neg]
      · exact seg_last_next r _ _ x hr hx
      · rw [hp]
        exact fun hh => hlr x (List.mem_of_getLast?_eq_some hh)
          (List.mem_of_getLast?_eq_some hx)

theorem seg_link (h : Nat → ecs_table_cache_hdr_t) (xs : List Nat) (e : Nat)
    (hnd : xs.Nodup) (he : e ∉ xs) (hs : Seg h none xs none) :
    Seg (link_hdr h e xs.getLast?) none (xs ++ [e]) none := by
  have hne : ∀ x, x ∈ xs → x ≠ e := fun x hx hh => he (hh ▸ hx)
  have hlast : xs.getLast? ≠ some e := fun hh => he (List.mem_of_getLast?_eq_some hh)
  refine (seg_append _ xs [e] none none).2 ⟨?_, ?_, ?_, trivial⟩
  · refine seg_retarget xs none none none (some e) hnd hs ?_ ?_ ?_ ?_
    · intro x hx _
      rw [link_hdr_prev, if_neg (hne x hx)]
    · intro x hx
      rw [link_hdr_prev, if_neg (hne x (mem_of_head? hx))]
      exact seg_head_prev hs hx
    · intro x hx hl
      rw [link_hdr_next, if_neg hl, if_neg (hne x hx)]
    · intro x hx
      rw [link_hdr_next, if_pos hx]
  · rw [link_hdr_prev, if_pos rfl, lastOr_none]
  · rw [link_hdr_next, if_neg hlast, if_pos rfl]
    rfl

/-- Unlinking `e` leaves a segment that does not hold `e` or a neighbour of
`e` as it was. -/
theorem seg_unlink_other (h : Nat → ecs_table_cache_hdr_t) (ys : List Nat) (e : Nat)
    (p n : Option Nat)
    (hy : ∀ x ∈ ys, (h e).next ≠ some x ∧ (h e).prev ≠ some x) (hs : Seg h p ys n) :
    Seg (unlink_hdr h e) p ys n := by
  refine seg_congr ys p n ?_ hs
  intro x hx
  rw [unlink_hdr_prev, unlink_hdr_next, if_neg (hy x hx).1, if_neg (hy x hx).2]
  exact ⟨rfl, rfl⟩

theorem seg_link_other (h : Nat → ecs_table_cache_hdr_t) (ys : List Nat) (e : Nat)
    (last p n : Option Nat)
    (hy : ∀ x ∈ ys, x ≠ e ∧ last ≠ some x) (hs : Seg h p ys n) :
    Seg (link_hdr h e last) p ys n := by
  refine seg_congr ys p n ?_ hs
  intro x hx
  rw [link_hdr_prev, link_hdr_next, if_neg (hy x hx).1, if_neg (hy x hx).2, if_neg (hy x hx).1]
  exact ⟨rfl, rfl⟩

/-! ### `table_cache_list_remove` and `table_cache_list_insert` on one partition -/

theorem list_remove_hdr (s : State) (e : Nat) :
    (table_cache_list_remove s e).hdr = unlink_hdr s.hdr e := rfl

theorem list_remove_self (s : State) (e : Nat) :
    (table_cache_list_remove s e).self = s.self := rfl

theorem list_remove_index (s : State) (e : Nat) :
    (table_cache_list_remove s e).cache.index = s.cache.index := rfl

theorem list_remove_tables (s : State) (e : Nat) :
    (table_cache_list_remove s e).cache.tables =
      { first :=
          if s.cache.empty_tables.first = some e then s.cache.tables.first
          else if s.cache.tables.first = some e then (s.hdr e).next else s.cache.tables.first
        last := if s.cache.tables.last = some e then (s.hdr e).prev else s.cache.tables.last
        count := s.cache.tables.count - (if (s.hdr e).empty then 0 else 1) } := by
  simp only [table_cache_list_remove, (unlink_hdr_fields s.hdr e e).2.2]
  split_ifs <;> rfl

theorem list_remove_empty_tables (s : State) (e : Nat) :
    (table_cache_list_remove s e).cache.empty_tables =
      { first :=
          if s.cache.empty_tables.first = some e then (s.hdr e).next
          else s.cache.empty_tables.first
        last :=
          if s.cache.empty_tables.last = some e then (s.hdr e).prev
          else s.cache.empty_tables.last
        count := s.cache.empty_tables.count - (if (s.hdr e).empty then 1 else 0) } := by
  simp only [table_cache_list_remove, (unlink_hdr_fields s.hdr e e).2.2]
  split_ifs <;> rfl

theorem isPart_unlink_mem (h : Nat → ecs_table_cache_hdr_t) (L L2 : ecs_table_cache_list_t)
    (l r : List Nat) (e : Nat) (hnd : (l ++ e :: r).Nodup) (hp : IsPart h L (l ++ e :: r))
    (hf : L2.first = if L.first = some e then (h e).next else L.first)
    (hl : L2.last = if L.last = some e then (h e).prev else L.last)
    (hc : L2.count = L.count - 1) :
    IsPart (unlink_hdr h e) L2 (l ++ r) := by
  obtain ⟨h1, h2, h3, h4⟩ := hp
  obtain ⟨hpv, hnx, hseg⟩ := seg_unlink h l r e hnd h4
  obtain ⟨_, hernd, _⟩ := List.nodup_append.1 hnd
  have hel : e ∉ l := fun hh => (List.nodup_append.1 hnd).2.2 hh (by simp)
  have her : e ∉ r := (List.nodup_cons.1 hernd).1
  refine ⟨?_, ?_, ?_, hseg⟩
  · rw [hf, h1, hnx]
    exact head_split l r e hel
  · rw [hl, h2, hpv]
    exact last_split l r e her
  · rw [hc, h3]
    simp only [List.length_append, List.length_cons]
    push_cast
    ring

theorem isPart_unlink_other (h : Nat → ecs_table_cache_hdr_t) (L : ecs_table_cache_list_t)
    (ys : List Nat) (e : Nat) (he : e ∉ ys)
    (hy : ∀ x ∈ ys, (h e).next ≠ some x ∧ (h e).prev ≠ some x) (hp : IsPart h L ys) :
    IsPart (unlink_hdr h e) L ys ∧ L.first ≠ some e ∧ L.last ≠ some e := by
  obtain ⟨h1, h2, h3, h4⟩ := hp
  refine ⟨⟨h1, h2, h3, seg_unlink_other h ys e none none hy h4⟩, ?_, ?_⟩
  · rw [h1]
    exact fun hh => he (mem_of_head? hh)
  · rw [h2]
    exact fun hh => he (List.mem_of_getLast?_eq_some hh)

theorem list_insert_hdr (s : State) (e : Nat) :
    (table_cache_list_insert s e).hdr =
      link_hdr s.hdr e
        (if (s.hdr e).empty then s.cache.empty_tables.last else s.cache.tables.last) := by
  unfold table_cache_list_insert
  split_ifs <;> rfl

theorem list_insert_self (s : State) (e : Nat) :
    (table_cache_list_insert s e).self = s.self := by
  unfold table_cache_list_insert
  split_ifs <;> rfl

theorem list_insert_index (s : State) (e : Nat) :
    (table_cache_list_insert s e).cache.index = s.cache.index := by
  unfold table_cache_list_insert
  split_ifs <;> rfl

theorem list_insert_tables (s : State) (e : Nat) :
    (table_cache_list_insert s e).cache.tables =
      if (s.hdr e).empty then s.cache.tables else list_push s.cache.tables e := by
  unfold table_cache_list_insert
  split_ifs <;> rfl

theorem list_insert_empty_tables (s : State) (e : Nat) :
    (table_cache_list_insert s e).cache.empty_tables =
      if (s.hdr e).empty then list_push s.cache.empty_tables e else s.cache.empty_tables := by
  unfold table_cache_list_insert
  split_ifs <;> rfl

theorem isPart_push (h : Nat → ecs_table_cache_hdr_t) (L : ecs_table_cache_list_t)
    (xs : List Nat) (e : Nat) (hnd : xs.Nodup) (he : e ∉ xs) (hp : IsPart h L xs) :
    IsPart (link_hdr h e L.last) (list_push L e) (xs ++ [e]) := by
  obtain ⟨h1, h2, h3, h4⟩ := hp
  refine ⟨?_, ?_, ?_, ?_⟩
  · unfold list_push
    cases xs with
    | nil => simp [h3]
    | cons a xs =>
      have hne : L.count + 1 ≠ 1 := by
        rw [h3]
        simp only [List.length_cons]
        push_cast
        omega
      simp [hne, h1]
  · simp only [list_push]
    split_ifs <;> simp [List.getLast?_concat]
  · simp only [list_push]
    split_ifs <;> simp [h3]
  · rw [h2]
    exact seg_link h xs e hnd he h4

theorem isPart_link_other (h : Nat → ecs_table_cache_hdr_t) (L : ecs_table_cache_list_t)
    (ys : List Nat) (e : Nat) (last : Option Nat)
    (hy : ∀ x ∈ ys, x ≠ e ∧ last ≠ some x) (hp : IsPart h L ys) :
    IsPart (link_hdr h e last) L ys :=
  ⟨hp.1, hp.2.1, hp.2.2.1, seg_link_other h ys e last none none hy hp.2.2.2⟩

/-! ### The two list functions on the whole cache -/

theorem list_remove_fields (s : State) (e x : Nat) :
    ((table_cache_list_remove s e).hdr x).cache = (s.hdr x).cache ∧
      ((table_cache_list_remove s e).hdr x).table = (s.hdr x).table ∧
      ((table_cache_list_remove s e).hdr x).empty = (s.hdr x).empty :=
  unlink_hdr_fields s.hdr e x

theorem list_insert_fields (s : State) (e x : Nat) :
    ((table_cache_list_insert s e).hdr x).cache = (s.hdr x).cache ∧
      ((table_cache_list_insert s e).hdr x).table = (s.hdr x).table ∧
      ((table_cache_list_insert s e).hdr x).empty = (s.hdr x).empty := by
  rw [list_insert_hdr]
  exact link_hdr_fields s.hdr e _ x

/-- Unlinking a linked entry: each partition loses `e` (one of the two erasures
is the identity) and keeps the order of its other entries. -/
theorem list_remove_parts (s : State) (ts es : List Nat) (e : Nat)
    (hP : Parts s ts es) (he : e ∈ ts ++ es) :
    Parts (table_cache_list_remove s e) (ts.erase e) (es.erase e) := by
  obtain ⟨hnd, ht, hem, hft, hfe⟩ := hP
  obtain ⟨htnd, hend, hdisj⟩ := List.nodup_append.1 hnd
  have hnd2 : (ts.erase e ++ es.erase e).Nodup :=
    ((List.erase_sublist e ts).append (List.erase_sublist e es)).nodup hnd
  have hft2 : ∀ x ∈ ts.erase e, ((table_cache_list_remove s e).hdr x).empty = false :=
    fun x hx => by
      rw [(list_remove_fields s e x).2.2]
      exact hft x (List.mem_of_mem_erase hx)
  have hfe2 : ∀ x ∈ es.erase e, ((table_cache_list_remove s e).hdr x).empty = true :=
    fun x hx => by
      rw [(list_remove_fields s e x).2.2]
      exact hfe x (List.mem_of_mem_erase hx)
  refine ⟨hnd2, ?_, ?_, hft2, hfe2⟩
  · rcases List.mem_append.1 he with h1 | h1
    · obtain ⟨l, r, rfl⟩ := List.append_of_mem h1
      have hel : e ∉ l := fun hh => (List.nodup_append.1 htnd).2.2 hh (by simp)
      have hee : e ∉ es := fun hh => hdisj h1 hh
      have hemp : (s.hdr e).empty = false := hft e h1
      obtain ⟨hpv, hnx, _⟩ := seg_unlink s.hdr l r e htnd ht.2.2.2
      have hef : s.cache.empty_tables.first ≠ some e := by
        rw [hem.1]
        exact fun hh => hee (mem_of_head? hh)
      rw [List.erase_append_right _ hel, List.erase_cons_head, list_remove_hdr]
      refine isPart_unlink_mem s.hdr s.cache.tables _ l r e htnd ht ?_ ?_ ?_ <;>
        rw [list_remove_tables] <;> simp [hef, hemp]
    · have het : e ∉ ts := fun hh => hdisj hh h1
      obtain ⟨l, r, rfl⟩ := List.append_of_mem h1
      have hemp : (s.hdr e).empty = true := hfe e h1
      obtain ⟨hpv, hnx, _⟩ := seg_unlink s.hdr l r e hend hem.2.2.2
      have hy : ∀ x ∈ ts, (s.hdr e).next ≠ some x ∧ (s.hdr e).prev ≠ some x := by
        intro x hx
        rw [hnx, hpv]
        refine ⟨fun hh => hdisj hx ?_, fun hh => hdisj hx ?_⟩
        · exact List.mem_append_right _ (List.mem_cons_of_mem _ (mem_of_head? hh))
        · exact List.mem_append_left _ (List.mem_of_getLast?_eq_some hh)
      obtain ⟨hts, htf, htl⟩ := isPart_unlink_other s.hdr _ ts e het hy ht
      rw [List.erase_of_not_mem het, list_remove_hdr]
      refine ⟨?_, ?_, ?_, hts.2.2.2⟩
      · rw [list_remove_tables]
        simp only [if_neg htf, ite_self]
        exact hts.1
      · rw [list_remove_tables]
        simp only [if_neg htl]
        exact hts.2.1
      · rw [list_remove_tables]
        simp only [hemp, if_true, sub_zero]
        exact hts.2.2.1
  · rcases List.mem_append.1 he with h1 | h1
    · have hee : e ∉ es := fun hh => hdisj h1 hh
      obtain ⟨l, r, rfl⟩ := List.append_of_mem h1
      have hemp : (s.hdr e).empty = false := hft e h1
      obtain ⟨hpv, hnx, _⟩ := seg_unlink s.hdr l r e htnd ht.2.2.2
      have hy : ∀ x ∈ es, (s.hdr e).next ≠ some x ∧ (s.hdr e).prev ≠ some x := by
        intro x hx
        rw [hnx, hpv]
        refine ⟨fun hh => hdisj ?_ hx, fun hh => hdisj ?_ hx⟩
        · exact List.mem_append_right _ (List.mem_cons_of_mem _ (mem_of_head? hh))
        · exact List.mem_append_left _ (List.mem_of_getLast?_eq_some hh)
      obtain ⟨hes, hef, hel⟩ := isPart_unlink_other s.hdr _ es e hee hy hem
      rw [List.erase_of_not_mem hee, list_remove_hdr]
      refine ⟨?_, ?_, ?_, hes.2.2.2⟩
      · rw [list_remove_empty_tables]
        simp only [if_neg hef]
        exact hes.1
      · rw [list_remove_empty_tables]
        simp only [if_neg hel]
        exact hes.2.1
      · rw [list_remove_empty_tables]
        simp only [hemp, Bool.false_eq_true, if_false, sub_zero]
        exact hes.2.2.1
    · obtain ⟨l, r, rfl⟩ := List.append_of_mem h1
      have hel : e ∉ l := fun hh => (List.nodup_append.1 hend).2.2 hh (by simp)
      have hemp : (s.hdr e).empty = true := hfe e h1
      rw [List.erase_append_right _ hel, List.erase_cons_head, list_remove_hdr]
      refine isPart_unlink_mem s.hdr s.cache.empty_tables _ l r e hend hem ?_ ?_ ?_
      · rw [list_remove_empty_tables]
      · rw [list_remove_empty_tables]
      · rw [list_remove_empty_tables]
        simp [hemp]

theorem list_insert_parts_false (s : State) (ts es : List Nat) (e : Nat)
    (hP : Parts s ts es) (he : e ∉ ts ++ es) (hemp : (s.hdr e).empty = false) :
    Parts (table_cache_list_insert s e) (ts ++ [e]) es := by
  obtain ⟨hnd, ht, hem, hft, hfe⟩ := hP
  obtain ⟨htnd, hend, hdisj⟩ := List.nodup_append.1 hnd
  have het : e ∉ ts := fun hh => he (List.mem_append_left _ hh)
  have hee : e ∉ es := fun hh => he (List.mem_append_right _ hh)
  refine ⟨?_, ?_, ?_, ?_, ?_⟩
  · rw [List.append_assoc]
    refine List.nodup_append.2 ⟨htnd, ?_, ?_⟩
    · simpa using ⟨hee, hend⟩
    · intro x hx hx2
      rcases List.mem_append.1 hx2 with h3 | h3
      · exact het ((List.mem_singleton.1 h3) ▸ hx)
      · exact hdisj hx h3
  · rw [list_insert_hdr, list_insert_tables]
    simp only [hemp, Bool.false_eq_true, if_false]
    exact isPart_push s.hdr _ ts e htnd het ht
  · rw [list_insert_hdr, list_insert_empty_tables]
    simp only [hemp, Bool.false_eq_true, if_false]
    refine isPart_link_other s.hdr _ es e _ ?_ hem
    intro x hx
    refine ⟨fun hh => hee (hh ▸ hx), ?_⟩
    rw [ht.2.1]
    exact fun hh => hdisj (List.mem_of_getLast?_eq_some hh) hx
  · intro x hx
    rw [(list_insert_fields s e x).2.2]
    rcases List.mem_append.1 hx with h3 | h3
    · exact hft x h3
    · rw [List.mem_singleton.1 h3]
      exact hemp
  · intro x hx
    rw [(list_insert_fields s e x).2.2]
    exact hfe x hx

theorem list_insert_parts_true (s : State) (ts es : List Nat) (e : Nat)
    (hP : Parts s ts es) (he : e ∉ ts ++ es) (hemp : (s.hdr e).empty = true) :
    Parts (table_cache_list_insert s e) ts (es ++ [e]) := by
  obtain ⟨hnd, ht, hem, hft, hfe⟩ := hP
  obtain ⟨htnd, hend, hdisj⟩ := List.nodup_append.1 hnd
  have het : e ∉ ts := fun hh => he (List.mem_append_left _ hh)
  have hee : e ∉ es := fun hh => he (List.mem_append_right _ hh)
  refine ⟨?_, ?_, ?_, ?_, ?_⟩
  · rw [← List.append_assoc]
    refine List.nodup_append.2 ⟨hnd, List.nodup_singleton e, ?_⟩
    intro x hx hx2
    exact he ((List.mem_singleton.1 hx2) ▸ hx)
  · rw [list_insert_hdr, list_insert_tables]
    simp only [hemp, if_true]
    refine isPart_link_other s.hdr _ ts e _ ?_ ht
    intro x hx
    refine ⟨fun hh => het (hh ▸ hx), ?_⟩
    rw [hem.2.1]
    exact fun hh => hdisj hx (List.mem_of_getLast?_eq_some hh)
  · rw [list_insert_hdr, list_insert_empty_tables]
    simp only [hemp, if_true]
    exact isPart_push s.hdr _ es e hend hee hem
  · intro x hx
    rw [(list_insert_fields s e x).2.2]
    exact hft x hx
  · intro x hx
    rw [(list_insert_fields s e x).2.2]
    rcases List.mem_append.1 hx with h3 | h3
    · exact hfe x h3
    · rw [List.mem_singleton.1 h3]
      exact hemp

/-! ### Well-formedness -/

theorem parts_congr {s s2 : State} {ts es : List Nat} (hP : Parts s ts es)
    (ht : s2.cache.tables = s.cache.tables)
    (he : s2.cache.empty_tables = s.cache.empty_tables)
    (hh : ∀ x ∈ ts ++ es, s2.hdr x = s.hdr x) : Parts s2 ts es := by
  obtain ⟨hnd, h1, h2, hft, hfe⟩ := hP
  have hl : ∀ x ∈ ts, s2.hdr x = s.hdr x := fun x hx => hh x (List.mem_append_left _ hx)
  have hr : ∀ x ∈ es, s2.hdr x = s.hdr x := fun x hx => hh x (List.mem_append_right _ hx)
  refine ⟨hnd, ?_, ?_, ?_, ?_⟩
  · rw [ht]
    exact ⟨h1.1, h1.2.1, h1.2.2.1,
      seg_congr ts none none (fun x hx => by rw [hl x hx]; exact ⟨rfl, rfl⟩) h1.2.2.2⟩
  · rw [he]
    exact ⟨h2.1, h2.2.1, h2.2.2.1,
      seg_congr es none none (fun x hx => by rw [hr x hx]; exact ⟨rfl, rfl⟩) h2.2.2.2⟩
  · intro x hx
    rw [hl x hx]
    exact hft x hx
  · intro x hx
    rw [hr x hx]
    exact hfe x hx

theorem wf_fresh (tid : Nat → Nat) (self : Nat) (hdr : Nat → ecs_table_cache_hdr_t) :
    WF tid (fresh self hdr) [] [] := by
  refine ⟨⟨by simp, ?_, ?_, by simp, by simp⟩, rfl, by simp [fresh, ecs_table_cache_init, ecs_map_init],
    by simp, ?_, by simp, by simp⟩
  · exact ⟨rfl, rfl, rfl, trivial⟩
  · exact ⟨rfl, rfl, rfl, trivial⟩
  · intro k v hkv
    simp [fresh, ecs_table_cache_init, ecs_map_init, ecs_map_get_ptr] at hkv

theorem insert_some {tid : Nat → Nat} {rows : Nat → Int} {s s2 : State} {t : Option Nat}
    {e : Nat} (h : ecs_table_cache_insert tid rows s t (some e) = some s2) :
    ecs_table_cache_get tid s t = some none ∧
      s2 = insert_index tid
        (table_cache_list_insert (insert_stamp s t e (classify rows t)) e) t e := by
  unfold ecs_table_cache_insert at h
  split at h
  · simp only [] at h
    split_ifs at h
    simp only [Option.some.injEq] at h
    exact ⟨by assumption, h.symm⟩
  · exact absurd h (by simp)

theorem insert_index_hdr (tid : Nat → Nat) (s : State) (t : Option Nat) (e : Nat) :
    (insert_index tid s t e).hdr = s.hdr ∧ (insert_index tid s t e).self = s.self ∧
      (insert_index tid s t e).cache.tables = s.cache.tables ∧
      (insert_index tid s t e).cache.empty_tables = s.cache.empty_tables := by
  cases t <;> exact ⟨rfl, rfl, rfl, rfl⟩

theorem insert_index_get (tid : Nat → Nat) (s : State) (t : Option Nat) (e k : Nat) :
    ecs_map_get_ptr (insert_index tid s t e).cache.index k =
      match t with
      | some a => if k = tid a then some e else ecs_map_get_ptr s.cache.index k
      | none => ecs_map_get_ptr s.cache.index k := by
  cases t with
  | none => rfl
  | some a => exact map_get_set s.cache.index (tid a) e k

/-- The header fields that the list functions do not touch, after the stores
and the linking done by an insert. -/
theorem insert_fields (s : State) (t : Option Nat) (e : Nat) (c : Bool) (x : Nat) :
    ((table_cache_list_insert (insert_stamp s t e c) e).hdr x).cache =
        (if x = e then some s.self else (s.hdr x).cache) ∧
      ((table_cache_list_insert (insert_stamp s t e c) e).hdr x).table =
        (if x = e then t else (s.hdr x).table) ∧
      ((table_cache_list_insert (insert_stamp s t e c) e).hdr x).empty =
        (if x = e then c else (s.hdr x).empty) := by
  obtain ⟨h1, h2, h3⟩ := list_insert_fields (insert_stamp s t e c) e x
  rw [h1, h2, h3]
  by_cases hx : x = e
  · subst hx
    simp [insert_stamp]
  · simp [insert_stamp, setHdr, hx]

theorem insert_parts (s : State) (ts es : List Nat) (t : Option Nat) (e : Nat) (c : Bool)
    (hP : Parts s ts es) (he : e ∉ ts ++ es) :
    Parts (table_cache_list_insert (insert_stamp s t e c) e)
      (if c then ts else ts ++ [e]) (if c then es ++ [e] else es) := by
  have hP0 : Parts (insert_stamp s t e c) ts es :=
    parts_congr hP rfl rfl (fun x hx => setHdr_ne s.hdr _ (fun hh => he (hh ▸ hx)))
  have hc : ((insert_stamp s t e c).hdr e).empty = c := by simp [insert_stamp]
  cases c with
  | false => simpa using list_insert_parts_false _ ts es e hP0 he hc
  | true => simpa using list_insert_parts_true _ ts es e hP0 he hc

theorem get_none_iff (tid : Nat → Nat) (s : State) :
    ecs_table_cache_get tid s none = some none ↔ s.cache.tables.first = none := by
  unfold ecs_table_cache_get
  cases s.cache.tables.first with
  | none => simp
  | some x => simp only [reduceCtorEq, iff_false]; split_ifs <;> simp

theorem get_none_some {tid : Nat → Nat} {s : State} {x : Nat}
    (h : ecs_table_cache_get tid s none = some (some x)) :
    s.cache.tables.first = some x ∧ (s.hdr x).table = none := by
  unfold ecs_table_cache_get at h
  simp only [] at h
  cases hf : s.cache.tables.first with
  | none =>
    rw [hf] at h
    exact absurd h (by simp)
  | some y =>
    rw [hf] at h
    simp only [] at h
    split_ifs at h with hy
    simp only [Option.some.injEq] at h
    subst h
    exact ⟨rfl, hy⟩

/-- An insert whose precondition holds, with a header that is not linked yet,
leaves a well-formed cache: the header is appended to the partition picked by
`classify`. -/
theorem insert_wf (tid : Nat → Nat) (rows : Nat → Int) (s : State) (ts es : List Nat)
    (t : Option Nat) (e : Nat) (hW : WF tid s ts es)
    (hget : ecs_table_cache_get tid s t = some none) (he : e ∉ ts ++ es) :
    WF tid (insert_index tid
        (table_cache_list_insert (insert_stamp s t e (classify rows t)) e) t e)
      (if classify rows t then ts else ts ++ [e])
      (if classify rows t then es ++ [e] else es) := by
  have hP1 := insert_parts s ts es t e (classify rows t) hW.toParts he
  obtain ⟨hh, hself, htab, hemp⟩ := insert_index_hdr tid
    (table_cache_list_insert (insert_stamp s t e (classify rows t)) e) t e
  have hmem : ∀ x, x ∈ (if classify rows t then ts else ts ++ [e]) ++
      (if classify rows t then es ++ [e] else es) ↔ x ∈ ts ++ es ∨ x = e := by
    intro x
    cases classify rows t <;> simp [or_assoc, or_comm, or_left_comm]
  have hf := insert_fields s t e (classify rows t)
  have hidx : (table_cache_list_insert (insert_stamp s t e (classify rows t)) e).cache.index =
      s.cache.index := list_insert_index _ e
  refine ⟨parts_congr hP1 htab hemp (fun x _ => by rw [hh]), ?_, ?_, ?_, ?_, ?_, ?_⟩
  · cases t with
    | none => exact hidx ▸ hW.init
    | some a =>
      show (ecs_map_set_ptr _ (tid a) e).initialized = true
      rw [hidx]
      exact hW.init
  · cases t with
    | none => exact hidx ▸ hW.keys
    | some a =>
      show ((ecs_map_set_ptr _ (tid a) e).elems.map Prod.fst).Nodup
      rw [hidx]
      exact keys_set_nodup _ _ _ hW.keys
  · intro x hx
    rw [hh, (hf x).1, hself, list_insert_self]
    by_cases hxe : x = e
    · simp [hxe, insert_stamp]
    · rw [if_neg hxe]
      rcases (hmem x).1 hx with h1 | h1
      · exact hW.owner x h1
      · exact absurd h1 hxe
  · intro k v hkv
    rw [insert_index_get, hidx] at hkv
    rw [hmem, hh, (hf v).2.1]
    cases t with
    | none =>
      obtain ⟨h1, a, h2, h3⟩ := hW.idx_sound k v hkv
      have hve : v ≠ e := fun hh2 => he (hh2 ▸ h1)
      exact ⟨Or.inl h1, a, by rw [if_neg hve]; exact h2, h3⟩
    | some a =>
      simp only [] at hkv
      by_cases hk : k = tid a
      · rw [if_pos hk] at hkv
        have hve : v = e := (Option.some.inj hkv).symm
        exact ⟨Or.inr hve, a, by rw [if_pos hve], hk.symm⟩
      · rw [if_neg hk] at hkv
        obtain ⟨h1, b, h2, h3⟩ := hW.idx_sound k v hkv
        have hve : v ≠ e := fun hh2 => he (hh2 ▸ h1)
        exact ⟨Or.inl h1, b, by rw [if_neg hve]; exact h2, h3⟩
  · intro x hx b hb
    rw [hh, (hf x).2.1] at hb
    rw [insert_index_get, hidx]
    by_cases hxe : x = e
    · rw [if_pos hxe] at hb
      subst hb
      simp [hxe]
    · rw [if_neg hxe] at hb
      have hx2 : x ∈ ts ++ es := by
        rcases (hmem x).1 hx with h1 | h1
        · exact h1
        · exact absurd h1 hxe
      have hold := hW.idx_complete x hx2 b hb
      cases t with
      | none => exact hold
      | some a =>
        simp only []
        have hk : tid b ≠ tid a := by
          intro hk
          rw [hk] at hold
          simp only [ecs_table_cache_get, Option.some.injEq] at hget
          rw [hget] at hold
          exact absurd hold (by simp)
        rw [if_neg hk]
        exact hold
  · intro x hx hb
    rw [hh, (hf x).2.1] at hb
    by_cases hxe : x = e
    · rw [if_pos hxe] at hb
      subst hb
      have hfirst := (get_none_iff tid s).1 hget
      rw [hW.tables.1] at hfirst
      have hts : ts = [] := List.head?_eq_none_iff.1 hfirst
      simp [classify, hts, hxe]
    · rw [if_neg hxe] at hb
      have hx2 : x ∈ ts ++ es := by
        rcases (hmem x).1 hx with h1 | h1
        · exact h1
        · exact absurd h1 hxe
      have hold := hW.sentinel x hx2 hb
      cases classify rows t
      · obtain ⟨ys, hys⟩ := List.head?_eq_some_iff.1 hold
        simp [hys]
      · simpa using hold

theorem insert_ok (tid : Nat → Nat) (rows : Nat → Int) (s : State) (ts es : List Nat)
    (t : Option Nat) (e : Nat) (hW : WF tid s ts es)
    (hget : ecs_table_cache_get tid s t = some none) (he : e ∉ ts ++ es) :
    ecs_table_cache_insert tid rows s t (some e) =
      some (insert_index tid
        (table_cache_list_insert (insert_stamp s t e (classify rows t)) e) t e) := by
  have hW2 := insert_wf tid rows s ts es t e hW hget he
  have h1 := hW2.tables.1
  have h2 := hW2.empties.1
  unfold ecs_table_cache_insert
  rw [hget]
  simp only []
  rw [h1, h2]
  cases classify rows t <;> simp

/-! ### Remove -/

theorem remove_eq (tid : Nat → Nat) (s : State) (a : Nat) (elem : Option Nat) (e : Nat)
    (hinit : s.cache.index.initialized = true)
    (he : elem = some e ∨ (elem = none ∧ ecs_map_get_ptr s.cache.index (tid a) = some e))
    (hc : (s.hdr e).cache = some s.self) (ht : (s.hdr e).table = some a) :
    ecs_table_cache_remove tid s (some a) elem =
      some (remove_index tid (table_cache_list_remove s e) a, some e) := by
  unfold ecs_table_cache_remove
  rcases he with h1 | ⟨h1, h2⟩
  · subst h1
    simp [ecs_map_is_initialized, hinit, hc, ht]
  · subst h1
    simp [ecs_map_is_initialized, hinit, h2, hc, ht]

theorem remove_absent (tid : Nat → Nat) (s : State) (a : Nat)
    (hget : ecs_map_get_ptr s.cache.index (tid a) = none) :
    ecs_table_cache_remove tid s (some a) none = some (s, none) := by
  unfold ecs_table_cache_remove
  simp only [hget]
  split_ifs <;> rfl

theorem mem_erase_parts {ts es : List Nat} (hnd : (ts ++ es).Nodup) (e x : Nat) :
    x ∈ ts.erase e ++ es.erase e ↔ x ≠ e ∧ x ∈ ts ++ es := by
  obtain ⟨h1, h2, _⟩ := List.nodup_append.1 hnd
  simp only [List.mem_append, h1.mem_erase_iff, h2.mem_erase_iff]
  tauto

theorem head_erase_ne {ts : List Nat} {x e : Nat} (hx : ts.head? = some x) (hxe : x ≠ e) :
    (ts.erase e).head? = some x := by
  obtain ⟨ys, rfl⟩ := List.head?_eq_some_iff.1 hx
  have hb : (x == e) = false := by simpa using hxe
  simp [List.erase_cons, hb]

/-- Removing a linked entry with a real table leaves a well-formed cache in
which the entry is erased from its partition. -/
theorem remove_wf (tid : Nat → Nat) (s : State) (ts es : List Nat) (a e : Nat)
    (hW : WF tid s ts es) (he : e ∈ ts ++ es) (ht : (s.hdr e).table = some a) :
    WF tid (remove_index tid (table_cache_list_remove s e) a) (ts.erase e) (es.erase e) := by
  have hP := list_remove_parts s ts es e hW.toParts he
  have hmem := mem_erase_parts hW.nodup e
  have hf := list_remove_fields s e
  have hidx : ∀ k, ecs_map_get_ptr
      (remove_index tid (table_cache_list_remove s e) a).cache.index k =
      if k = tid a then none else ecs_map_get_ptr s.cache.index k :=
    fun k => map_get_remove s.cache.index (tid a) k
  refine ⟨parts_congr hP rfl rfl (fun _ _ => rfl), hW.init, keys_remove_nodup _ _ hW.keys,
    ?_, ?_, ?_, ?_⟩
  · intro x hx
    show ((table_cache_list_remove s e).hdr x).cache = some s.self
    rw [(hf x).1]
    exact hW.owner x ((hmem x).1 hx).2
  · intro k v hkv
    rw [hidx] at hkv
    by_cases hk : k = tid a
    · rw [if_pos hk] at hkv
      exact absurd hkv (by simp)
    · rw [if_neg hk] at hkv
      obtain ⟨h1, b, h2, h3⟩ := hW.idx_sound k v hkv
      have hve : v ≠ e := by
        intro hve
        rw [hve, ht] at h2
        exact hk (by rw [← h3, ← Option.some.inj h2])
      refine ⟨(hmem v).2 ⟨hve, h1⟩, b, ?_, h3⟩
      show ((table_cache_list_remove s e).hdr v).table = some b
      rw [(hf v).2.1]
      exact h2
  · intro x hx b hb
    obtain ⟨hxe, hx2⟩ := (hmem x).1 hx
    have hb2 : (s.hdr x).table = some b := by
      rw [← (hf x).2.1]
      exact hb
    have hold := hW.idx_complete x hx2 b hb2
    rw [hidx]
    have hk : tid b ≠ tid a := by
      intro hk
      rw [hk, hW.idx_complete e he a ht] at hold
      exact hxe (Option.some.inj hold).symm
    rw [if_neg hk]
    exact hold
  · intro x hx hb
    obtain ⟨hxe, hx2⟩ := (hmem x).1 hx
    have hb2 : (s.hdr x).table = none := by
      rw [← (hf x).2.1]
      exact hb
    exact head_erase_ne (hW.sentinel x hx2 hb2) hxe

/-! ### Set empty -/

theorem set_empty_noop (tid : Nat → Nat) (s : State) (a : Nat) (b : Bool)
    (h : ecs_map_get_ptr s.cache.index (tid a) = none ∨
      ∃ e, ecs_map_get_ptr s.cache.index (tid a) = some e ∧ (s.hdr e).empty = b) :
    ecs_table_cache_set_empty tid s (some a) b = some (s, false) := by
  unfold ecs_table_cache_set_empty
  rcases h with h | ⟨e, h1, h2⟩
  · simp [h]
  · simp [h1, h2]

theorem set_empty_eq (tid : Nat → Nat) (s : State) (a e : Nat) (b : Bool)
    (h1 : ecs_map_get_ptr s.cache.index (tid a) = some e) (h2 : (s.hdr e).empty ≠ b) :
    ecs_table_cache_set_empty tid s (some a) b =
      some (table_cache_list_insert (set_flag (table_cache_list_remove s e) e b) e, true) := by
  unfold ecs_table_cache_set_empty
  simp [h1, h2]

theorem set_empty_fields (s : State) (e : Nat) (b : Bool) (x : Nat) :
    ((table_cache_list_insert (set_flag (table_cache_list_remove s e) e b) e).hdr x).cache =
        (s.hdr x).cache ∧
      ((table_cache_list_insert (set_flag (table_cache_list_remove s e) e b) e).hdr x).table =
        (s.hdr x).table ∧
      ((table_cache_list_insert (set_flag (table_cache_list_remove s e) e b) e).hdr x).empty =
        (if x = e then b else (s.hdr x).empty) := by
  obtain ⟨h1, h2, h3⟩ := list_insert_fields (set_flag (table_cache_list_remove s e) e b) e x
  obtain ⟨h4, h5, h6⟩ := list_remove_fields s e x
  rw [h1, h2, h3]
  by_cases hx : x = e
  · subst hx
    simp only [set_flag, setHdr_same, if_true]
    exact ⟨h4, h5, trivial⟩
  · simp only [set_flag, setHdr_ne _ _ hx, if_neg hx]
    exact ⟨h4, h5, h6⟩

theorem set_empty_parts (s : State) (ts es : List Nat) (e : Nat) (b : Bool)
    (hP : Parts s ts es) (he : e ∈ ts ++ es) :
    Parts (table_cache_list_insert (set_flag (table_cache_list_remove s e) e b) e)
      (if b then ts.erase e else ts.erase e ++ [e])
      (if b then es.erase e ++ [e] else es.erase e) := by
  have hP1 := list_remove_parts s ts es e hP he
  have hne : e ∉ ts.erase e ++ es.erase e := fun hh =>
    ((mem_erase_parts hP.nodup e e).1 hh).1 rfl
  have hP2 : Parts (set_flag (table_cache_list_remove s e) e b) (ts.erase e) (es.erase e) :=
    parts_congr hP1 rfl rfl (fun x hx => setHdr_ne _ _ (fun hh => hne (hh ▸ hx)))
  have hc : ((set_flag (table_cache_list_remove s e) e b).hdr e).empty = b := by
    simp [set_flag]
  cases b with
  | false => simpa using list_insert_parts_false _ _ _ e hP2 hne hc
  | true => simpa using list_insert_parts_true _ _ _ e hP2 hne hc

/-- Moving a tracked entry to the other partition leaves a well-formed cache:
the entry is erased from its partition and appended to the partition named by
the new flag. -/
theorem set_empty_wf (tid : Nat → Nat) (s : State) (ts es : List Nat) (a e : Nat) (b : Bool)
    (hW : WF tid s ts es) (h1 : ecs_map_get_ptr s.cache.index (tid a) = some e) :
    WF tid (table_cache_list_insert (set_flag (table_cache_list_remove s e) e b) e)
      (if b then ts.erase e else ts.erase e ++ [e])
      (if b then es.erase e ++ [e] else es.erase e) := by
  obtain ⟨he, a2, hta, _⟩ := hW.idx_sound _ _ h1
  have hP := set_empty_parts s ts es e b hW.toParts he
  have hf := set_empty_fields s e b
  have hmem : ∀ x, x ∈ (if b then ts.erase e else ts.erase e ++ [e]) ++
      (if b then es.erase e ++ [e] else es.erase e) ↔ x ∈ ts ++ es := by
    intro x
    have h3 := mem_erase_parts hW.nodup e x
    have h4 : x ∈ (if b then ts.erase e else ts.erase e ++ [e]) ++
        (if b then es.erase e ++ [e] else es.erase e) ↔
        x ∈ ts.erase e ++ es.erase e ∨ x = e := by
      cases b <;> simp [or_assoc, or_comm, or_left_comm]
    rw [h4, h3]
    constructor
    · rintro (⟨_, h5⟩ | h5)
      · exact h5
      · exact h5 ▸ he
    · intro h5
      by_cases hx : x = e
      · exact Or.inr hx
      · exact Or.inl ⟨hx, h5⟩
  have hidx : (table_cache_list_insert (set_flag (table_cache_list_remove s e) e b) e).cache.index
      = s.cache.index := by
    rw [list_insert_index]
    rfl
  have hself : (table_cache_list_insert (set_flag (table_cache_list_remove s e) e b) e).self
      = s.self := by
    rw [list_insert_self]
    rfl
  refine ⟨hP, hidx ▸ hW.init, hidx ▸ hW.keys, ?_, ?_, ?_, ?_⟩
  · intro x hx
    rw [(hf x).1, hself]
    exact hW.owner x ((hmem x).1 hx)
  · intro k v hkv
    rw [hidx] at hkv
    obtain ⟨h3, t, h4, h5⟩ := hW.idx_sound k v hkv
    exact ⟨(hmem v).2 h3, t, by rw [(hf v).2.1]; exact h4, h5⟩
  · intro x hx t ht
    rw [(hf x).2.1] at ht
    rw [hidx]
    exact hW.idx_complete x ((hmem x).1 hx) t ht
  · intro x hx ht
    rw [(hf x).2.1] at ht
    have hxe : x ≠ e := by
      intro hxe
      rw [hxe, hta] at ht
      exact absurd ht (by simp)
    have hhead := head_erase_ne (hW.sentinel x ((hmem x).1 hx) ht) hxe
    cases b
    · obtain ⟨ys, hys⟩ := List.head?_eq_some_iff.1 hhead
      simp [hys]
    · simpa using hhead

/-! ### Counting the index -/

theorem lookup_isSome_iff (l : List (Nat × Nat)) (k : Nat) :
    (∃ v, l.lookup k = some v) ↔ k ∈ l.map Prod.fst := by
  induction l with
  | nil => simp
  | cons p l ih =>
    obtain ⟨a, b⟩ := p
    by_cases hk : k = a
    · subst hk
      simp [List.lookup_cons]
    · have hk2 : (k == a) = false := by simpa using hk
      simp only [List.lookup_cons, hk2, List.map_cons, List.mem_cons, hk, false_or]
      exact ih

theorem nodup_length_le_one (F : List Nat) (x0 : Nat) (hnd : F.Nodup)
    (hall : ∀ x ∈ F, x = x0) : F.length ≤ 1 := by
  have hsub : F ⊆ [x0] := fun x hx => by simp [hall x hx]
  have := (List.subperm_of_subset hnd hsub).length_le
  simpa using this

/-- In a well-formed cache the index has one key per linked entry with a real
table, and at most one linked entry has no table. -/
theorem wf_index_count (tid : Nat → Nat) (s : State) (ts es : List Nat)
    (hW : WF tid s ts es) :
    s.cache.index.elems.length + noTableCount s (ts ++ es) = (ts ++ es).length ∧
      noTableCount s (ts ++ es) ≤ 1 := by
  have hnd := hW.nodup
  have hRnd : ((ts ++ es).filter (fun x => (s.hdr x).table.isSome)).Nodup := hnd.filter _
  have hperm : List.Perm
      (((ts ++ es).filter (fun x => (s.hdr x).table.isSome)).map (keyOf tid s))
      (s.cache.index.elems.map Prod.fst) := by
    refine (List.perm_ext_iff_of_nodup ?_ hW.keys).2 ?_
    · refine List.Nodup.map_on ?_ hRnd
      intro x hx y hy hxy
      obtain ⟨hx1, hx2⟩ := List.mem_filter.1 hx
      obtain ⟨hy1, hy2⟩ := List.mem_filter.1 hy
      obtain ⟨a, ha⟩ := Option.isSome_iff_exists.1 hx2
      obtain ⟨b, hb⟩ := Option.isSome_iff_exists.1 hy2
      have h1 := hW.idx_complete x hx1 a ha
      have h2 := hW.idx_complete y hy1 b hb
      simp only [keyOf, ha, hb] at hxy
      rw [hxy, h2] at h1
      exact (Option.some.inj h1).symm
    · intro k
      rw [← lookup_isSome_iff]
      constructor
      · intro hk
        obtain ⟨x, hx, hxk⟩ := List.mem_map.1 hk
        obtain ⟨hx1, hx2⟩ := List.mem_filter.1 hx
        obtain ⟨a, ha⟩ := Option.isSome_iff_exists.1 hx2
        have h1 := hW.idx_complete x hx1 a ha
        simp only [keyOf, ha] at hxk
        exact ⟨x, hxk ▸ h1⟩
      · rintro ⟨v, hv⟩
        obtain ⟨h1, a, h2, h3⟩ := hW.idx_sound k v hv
        refine List.mem_map.2 ⟨v, List.mem_filter.2 ⟨h1, by simp [h2]⟩, ?_⟩
        simp [keyOf, h2, h3]
  have hlen : s.cache.index.elems.length =
      ((ts ++ es).filter (fun x => (s.hdr x).table.isSome)).length := by
    have := hperm.length_eq
    simpa using this.symm
  have hsplit : (ts ++ es).length =
      ((ts ++ es).filter (fun x => (s.hdr x).table.isSome)).length +
        ((ts ++ es).filter (fun x => (s.hdr x).table.isNone)).length := by
    induction (ts ++ es) with
    | nil => simp
    | cons x xs ih =>
      cases hx : (s.hdr x).table <;> simp [List.filter_cons, hx, ih] <;> omega
  refine ⟨by rw [hlen, hsplit]; rfl, ?_⟩
  unfold noTableCount
  cases hts : ts.head? with
  | none =>
    have hnil : (ts ++ es).filter (fun x => (s.hdr x).table.isNone) = [] := by
      refine List.filter_eq_nil_iff.2 ?_
      intro x hx hn
      have := hW.sentinel x hx (Option.isNone_iff_eq_none.1 hn)
      rw [hts] at this
      exact absurd this (by simp)
    simp [hnil]
  | some x0 =>
    refine nodup_length_le_one _ x0 (hnd.filter _) ?_
    intro x hx
    obtain ⟨hx1, hx2⟩ := List.mem_filter.1 hx
    have := hW.sentinel x hx1 (Option.isNone_iff_eq_none.1 hx2)
    rw [hts] at this
    exact (Option.some.inj this).symm

/-! ### Sequences of calls keep the cache well formed -/

theorem mem_insert_lists (c : Bool) (ts es : List Nat) (e x : Nat) :
    x ∈ (if c then ts else ts ++ [e]) ++ (if c then es ++ [e] else es) ↔
      x ∈ ts ++ es ∨ x = e := by
  cases c <;> simp [or_assoc, or_comm, or_left_comm]

theorem mem_move_lists (b : Bool) (ts es : List Nat) (e x : Nat) (hnd : (ts ++ es).Nodup)
    (he : e ∈ ts ++ es) :
    x ∈ (if b then ts.erase e else ts.erase e ++ [e]) ++
        (if b then es.erase e ++ [e] else es.erase e) ↔ x ∈ ts ++ es := by
  have h3 := mem_erase_parts hnd e x
  have h4 : x ∈ (if b then ts.erase e else ts.erase e ++ [e]) ++
      (if b then es.erase e ++ [e] else es.erase e) ↔
      x ∈ ts.erase e ++ es.erase e ∨ x = e := by
    cases b <;> simp [or_assoc, or_comm, or_left_comm]
  rw [h4, h3]
  constructor
  · rintro (⟨_, h5⟩ | h5)
    · exact h5
    · exact h5 ▸ he
  · intro h5
    by_cases hx : x = e
    · exact Or.inr hx
    · exact Or.inl ⟨hx, h5⟩

theorem remove_cases {tid : Nat → Nat} {s s2 : State} {a : Nat} {elem r : Option Nat}
    (hinit : s.cache.index.initialized = true)
    (h : ecs_table_cache_remove tid s (some a) elem = some (s2, r)) :
    (r = none ∧ s2 = s ∧ elem = none ∧ ecs_map_get_ptr s.cache.index (tid a) = none) ∨
      ∃ e, r = some e ∧
        (elem = some e ∨ (elem = none ∧ ecs_map_get_ptr s.cache.index (tid a) = some e)) ∧
        (s.hdr e).cache = some s.self ∧ (s.hdr e).table = some a ∧
        s2 = remove_index tid (table_cache_list_remove s e) a := by
  unfold ecs_table_cache_remove at h
  simp only [ecs_map_is_initialized, hinit, Bool.not_true, Bool.false_eq_true, if_false] at h
  cases elem with
  | some e =>
    simp only [] at h
    split_ifs at h with hc
    simp only [Option.some.injEq, Prod.mk.injEq] at h
    exact Or.inr ⟨e, h.2.symm, Or.inl rfl, hc.1, hc.2, h.1.symm⟩
  | none =>
    simp only [] at h
    cases hg : ecs_map_get_ptr s.cache.index (tid a) with
    | none =>
      rw [hg] at h
      simp only [Option.some.injEq, Prod.mk.injEq] at h
      exact Or.inl ⟨h.2.symm, h.1.symm, rfl, rfl⟩
    | some e =>
      rw [hg] at h
      simp only [] at h
      split_ifs at h with hc
      simp only [Option.some.injEq, Prod.mk.injEq] at h
      exact Or.inr ⟨e, h.2.symm, Or.inr ⟨rfl, rfl⟩, hc.1, hc.2, h.1.symm⟩

theorem set_empty_cases {tid : Nat → Nat} {s s2 : State} {a : Nat} {b r : Bool}
    (h : ecs_table_cache_set_empty tid s (some a) b = some (s2, r)) :
    (r = false ∧ s2 = s) ∨
      ∃ e, r = true ∧ ecs_map_get_ptr s.cache.index (tid a) = some e ∧ (s.hdr e).empty ≠ b ∧
        s2 = table_cache_list_insert (set_flag (table_cache_list_remove s e) e b) e := by
  unfold ecs_table_cache_set_empty at h
  simp only [] at h
  cases hg : ecs_map_get_ptr s.cache.index (tid a) with
  | none =>
    rw [hg] at h
    simp only [Option.some.injEq, Prod.mk.injEq] at h
    exact Or.inl ⟨h.2.symm, h.1.symm⟩
  | some e =>
    rw [hg] at h
    simp only [] at h
    split_ifs at h with hc
    · simp only [Option.some.injEq, Prod.mk.injEq] at h
      exact Or.inl ⟨h.2.symm, h.1.symm⟩
    · simp only [Option.some.injEq, Prod.mk.injEq] at h
      exact Or.inr ⟨e, h.2.symm, rfl, hc, h.1.symm⟩

/-- One call with its precondition met keeps the cache well formed, and the
linked entries are exactly the tracked ones. -/
theorem step_inv (tid : Nat → Nat) (s s2 : State) (tr tr2 : List Nat) (op : Op)
    (hI : ∃ ts es, WF tid s ts es ∧ tr.Nodup ∧ ∀ x, x ∈ tr ↔ x ∈ ts ++ es)
    (h : step tid (s, tr) op = some (s2, tr2)) :
    ∃ ts es, WF tid s2 ts es ∧ tr2.Nodup ∧ ∀ x, x ∈ tr2 ↔ x ∈ ts ++ es := by
  obtain ⟨ts, es, hW, hnd, hmem⟩ := hI
  cases op with
  | insert rows t e =>
    simp only [step] at h
    split_ifs at h with he
    cases hi : ecs_table_cache_insert tid rows s t (some e) with
    | none =>
      rw [hi] at h
      exact absurd h (by simp)
    | some s3 =>
      rw [hi] at h
      simp only [Option.some.injEq, Prod.mk.injEq] at h
      obtain ⟨hget, hs3⟩ := insert_some hi
      have he2 : e ∉ ts ++ es := fun hh => he ((hmem e).2 hh)
      refine ⟨if classify rows t then ts else ts ++ [e],
        if classify rows t then es ++ [e] else es, ?_, ?_, ?_⟩
      · rw [← h.1, hs3]
        exact insert_wf tid rows s ts es t e hW hget he2
      · rw [← h.2]
        exact List.nodup_cons.2 ⟨he, hnd⟩
      · intro x
        rw [← h.2, mem_insert_lists, List.mem_cons, hmem]
        tauto
  | remove t elem =>
    simp only [step] at h
    split_ifs at h with hg
    cases t with
    | none => simp [ecs_table_cache_remove] at h
    | some a =>
      cases hr : ecs_table_cache_remove tid s (some a) elem with
      | none =>
        rw [hr] at h
        exact absurd h (by simp)
      | some res =>
        obtain ⟨s3, r⟩ := res
        rw [hr] at h
        rcases remove_cases hW.init hr with ⟨h1, h2, _, _⟩ | ⟨e, h1, h2, _, h4, h5⟩
        · subst h1
          simp only [Option.some.injEq, Prod.mk.injEq] at h
          exact ⟨ts, es, by rw [← h.1, h2]; exact hW, by rw [← h.2]; exact hnd,
            by rw [← h.2]; exact hmem⟩
        · subst h1
          simp only [Option.some.injEq, Prod.mk.injEq] at h
          have he : e ∈ ts ++ es := by
            rcases h2 with h2 | ⟨_, h2⟩
            · subst h2
              exact (hmem e).1 (by simpa using hg)
            · exact (hW.idx_sound _ _ h2).1
          refine ⟨ts.erase e, es.erase e, ?_, ?_, ?_⟩
          · rw [← h.1, h5]
            exact remove_wf tid s ts es a e hW he h4
          · rw [← h.2]
            exact hnd.erase e
          · intro x
            rw [← h.2, hnd.mem_erase_iff, mem_erase_parts hW.nodup, hmem]
  | set_empty t b =>
    simp only [step] at h
    cases t with
    | none => simp [ecs_table_cache_set_empty] at h
    | some a =>
      cases hr : ecs_table_cache_set_empty tid s (some a) b with
      | none =>
        rw [hr] at h
        exact absurd h (by simp)
      | some res =>
        obtain ⟨s3, r⟩ := res
        rw [hr] at h
        simp only [Option.some.injEq, Prod.mk.injEq] at h
        rcases set_empty_cases hr with ⟨_, h2⟩ | ⟨e, _, h2, _, h4⟩
        · exact ⟨ts, es, by rw [← h.1, h2]; exact hW, by rw [← h.2]; exact hnd,
            by rw [← h.2]; exact hmem⟩
        · refine ⟨if b then ts.erase e else ts.erase e ++ [e],
            if b then es.erase e ++ [e] else es.erase e, ?_, ?_, ?_⟩
          · rw [← h.1, h4]
            exact set_empty_wf tid s ts es a e b hW h2
          · rw [← h.2]
            exact hnd
          · intro x
            rw [← h.2, mem_move_lists b ts es e x hW.nodup (hW.idx_sound _ _ h2).1]
            exact hmem x

theorem run_inv (tid : Nat → Nat) :
    ∀ (ops : List Op) (s s2 : State) (tr tr2 : List Nat),
      (∃ ts es, WF tid s ts es ∧ tr.Nodup ∧ ∀ x, x ∈ tr ↔ x ∈ ts ++ es) →
      run tid (s, tr) ops = some (s2, tr2) →
      ∃ ts es, WF tid s2 ts es ∧ tr2.Nodup ∧ ∀ x, x ∈ tr2 ↔ x ∈ ts ++ es
  | [], s, s2, tr, tr2, hI, h => by
    simp only [run, Option.some.injEq, Prod.mk.injEq] at h
    rw [← h.1, ← h.2]
    exact hI
  | op :: ops, s, s2, tr, tr2, hI, h => by
    simp only [run] at h
    cases hs : step tid (s, tr) op with
    | none =>
      rw [hs] at h
      exact absurd h (by simp)
    | some st =>
      obtain ⟨s3, tr3⟩ := st
      rw [hs] at h
      exact run_inv tid ops s3 s2 tr3 tr2 (step_inv tid s s3 tr tr3 op hI hs) h

theorem run_fresh_inv (tid : Nat → Nat) (self : Nat) (hdr : Nat → ecs_table_cache_hdr_t)
    (ops : List Op) (s : State) (tr : List Nat)
    (h : run tid (fresh self hdr, []) ops = some (s, tr)) :
    ∃ ts es, WF tid s ts es ∧ tr.Nodup ∧ ∀ x, x ∈ tr ↔ x ∈ ts ++ es :=
  run_inv tid ops _ s [] tr ⟨[], [], wf_fresh tid self hdr, List.nodup_nil, by simp⟩ h

/-! ### Facts used by several claims -/

theorem list_push_first_isSome (h : Nat → ecs_table_cache_hdr_t) (L : ecs_table_cache_list_t)
    (xs : List Nat) (e : Nat) (hp : IsPart h L xs) : (list_push L e).first.isSome = true := by
  simp only [list_push]
  split_ifs with hc
  · rfl
  · cases xs with
    | nil => exact absurd (by rw [hp.2.2.1]; rfl) hc
    | cons a xs =>
      show L.first.isSome = true
      rw [hp.1]
      rfl

/-- An insert whose assertion on `ecs_table_cache_get` holds returns, whatever
header it is given. -/
theorem insert_succeeds (tid : Nat → Nat) (rows : Nat → Int) (s : State) (ts es : List Nat)
    (t : Option Nat) (e : Nat) (hW : WF tid s ts es)
    (hget : ecs_table_cache_get tid s t = some none) :
    ecs_table_cache_insert tid rows s t (some e) =
      some (insert_index tid
        (table_cache_list_insert (insert_stamp s t e (classify rows t)) e) t e) := by
  obtain ⟨_, _, htab, hemp⟩ := insert_index_hdr tid
    (table_cache_list_insert (insert_stamp s t e (classify rows t)) e) t e
  have hc : ((insert_stamp s t e (classify rows t)).hdr e).empty = classify rows t := by
    simp [insert_stamp]
  unfold ecs_table_cache_insert
  rw [hget]
  simp only []
  rw [htab, hemp, list_insert_tables, list_insert_empty_tables, hc]
  cases hcl : classify rows t
  · have := list_push_first_isSome s.hdr s.cache.tables ts e hW.tables
    simp [insert_stamp, this]
  · have := list_push_first_isSome s.hdr s.cache.empty_tables es e hW.empties
    simp [insert_stamp, this]

theorem seg_next_prev {h : Nat → ecs_table_cache_hdr_t} :
    ∀ (xs : List Nat) (p : Option Nat), Seg h p xs none →
      ∀ x ∈ xs, ∀ y, (h x).next = some y → y ∈ xs ∧ (h y).prev = some x
  | [], _, _, x, hx, _, _ => by simp at hx
  | [x0], _, hs, x, hx, y, hy => by
    simp only [List.mem_singleton] at hx
    subst hx
    rw [hs.2.1] at hy
    exact absurd hy (by simp [headOr])
  | x0 :: y0 :: rest, _, hs, x, hx, y, hy => by
    rcases List.mem_cons.1 hx with h1 | h1
    · subst h1
      rw [hs.2.1] at hy
      simp only [headOr, Option.some.injEq] at hy
      subst hy
      exact ⟨by simp, hs.2.2.1⟩
    · obtain ⟨h2, h3⟩ := seg_next_prev (y0 :: rest) (some x0) hs.2.2 x h1 y hy
      exact ⟨List.mem_cons_of_mem _ h2, h3⟩

theorem isPart_null_iff (h : Nat → ecs_table_cache_hdr_t) (L : ecs_table_cache_list_t)
    (xs : List Nat) (hp : IsPart h L xs) :
    (L.first = none ↔ L.count = 0) ∧ (L.last = none ↔ L.count = 0) := by
  obtain ⟨h1, h2, h3, _⟩ := hp
  rw [h1, h2, h3]
  cases xs with
  | nil => simp
  | cons a xs =>
    have hl : (a :: xs).getLast? ≠ none := by
      rw [List.getLast?_eq_getLast _ (by simp)]
      simp
    simp only [List.head?_cons, reduceCtorEq, List.length_cons, false_iff, hl]
    constructor <;> (push_cast; omega)

theorem remove_index_table (tid : Nat → Nat) (s : State) (e a x : Nat) :
    ((remove_index tid (table_cache_list_remove s e) a).hdr x).table = (s.hdr x).table :=
  (list_remove_fields s e x).2.1

theorem wf_after1 : WF id (after scenarioOps 1).1 [10] [] :=
  insert_wf id scenarioRows (fresh 1 zeroHdr) [] [] (some 1) 10 (wf_fresh id 1 zeroHdr) rfl
    (by simp)

theorem wf_after2 : WF id (after scenarioOps 2).1 [10] [20] :=
  insert_wf id scenarioRows (after scenarioOps 1).1 [10] [] (some 2) 20 wf_after1 rfl
    (by simp)

theorem wf_three : WF id (after threeOps 3).1 [10] [20, 30] :=
  insert_wf id scenarioRows (after scenarioOps 2).1 [10] [20] (some 3) 30 wf_after2 rfl
    (by simp)

/-! ### C2: counts and `ecs_table_cache_is_empty` -/

/-- C2 (counterexample): after the single call `insert(no table, header 10)`
on a fresh cache one entry is tracked and `tables.count + empty_tables.count`
is 1, yet `ecs_table_cache_is_empty` returns true. -/
theorem C2_is_empty_with_no_table_entry :
    (run id (fresh 1 zeroHdr, []) [Op.insert scenarioRows none 10]).map
        (fun p => (p.1.cache.tables.count + p.1.cache.empty_tables.count, p.2.length,
          ecs_table_cache_is_empty p.1)) = some (1, 1, true) := by
  decide

/-- C2 (amended): after every sequence of insert / remove / set_empty calls on
a fresh cache with each precondition met, `tables.count + empty_tables.count`
is the number of tracked entries (inserted and not yet removed), at most one
tracked entry is a "no table" entry, and `ecs_table_cache_is_empty` returns
true iff the number of tracked entries minus the "no table" entries is zero,
that is, iff no real table is tracked. -/
theorem C2_count_invariant (tid : Nat → Nat) (self : Nat) (hdr : Nat → ecs_table_cache_hdr_t)
    (ops : List Op) (s : State) (tr : List Nat)
    (h : run tid (fresh self hdr, []) ops = some (s, tr)) :
    s.cache.tables.count + s.cache.empty_tables.count = (tr.length : Int) ∧
      noTableCount s tr ≤ 1 ∧
      (ecs_table_cache_is_empty s = true ↔
        (tr.length : Int) - (noTableCount s tr : Int) = 0) := by
  obtain ⟨ts, es, hW, hnd, hmem⟩ := run_fresh_inv tid self hdr ops s tr h
  have hperm : List.Perm tr (ts ++ es) := (List.perm_ext_iff_of_nodup hnd hW.nodup).2 hmem
  have hlen : tr.length = (ts ++ es).length := hperm.length_eq
  have hnt : noTableCount s tr = noTableCount s (ts ++ es) := (hperm.filter _).length_eq
  obtain ⟨h1, h2⟩ := wf_index_count tid s ts es hW
  refine ⟨?_, hnt ▸ h2, ?_⟩
  · rw [hW.tables.2.2.1, hW.empties.2.2.1, hlen, List.length_append]
    push_cast
    rfl
  · rw [hnt, hlen]
    unfold ecs_table_cache_is_empty ecs_map_count
    simp only [decide_eq_true_eq]
    omega

/-- C2 (witness): the scenario of the specification. The counts after the
four calls are (1,0), (1,1), (0,2), (0,1). -/
theorem C2_count_invariant_witness :
    run id (fresh 1 zeroHdr, []) scenarioOps = some (after scenarioOps 4) ∧
      [counts (after scenarioOps 1).1, counts (after scenarioOps 2).1,
        counts (after scenarioOps 3).1, counts (after scenarioOps 4).1] =
        [(1, 0), (1, 1), (0, 2), (0, 1)] ∧
      ((after scenarioOps 4).1.cache.tables.count +
          (after scenarioOps 4).1.cache.empty_tables.count =
          ((after scenarioOps 4).2.length : Int) ∧
        noTableCount (after scenarioOps 4).1 (after scenarioOps 4).2 ≤ 1 ∧
        (ecs_table_cache_is_empty (after scenarioOps 4).1 = true ↔
          ((after scenarioOps 4).2.length : Int) -
            (noTableCount (after scenarioOps 4).1 (after scenarioOps 4).2 : Int) = 0)) :=
  ⟨rfl, by decide,
    C2_count_invariant id 1 zeroHdr scenarioOps (after scenarioOps 4).1 (after scenarioOps 4).2 rfl⟩

/-! ### C3: insert/get and remove/get -/

/-- C3: in a well-formed cache, (1) for a real table `a` with no entry indexed
and any header `r`, `ecs_table_cache_insert(cache, a, r)` returns and
`ecs_table_cache_get(cache, a)` then returns `r`; (2) for a tracked table `a`
with entry `e`, `ecs_table_cache_remove(cache, a, NULL)` returns `e`,
`ecs_table_cache_get(cache, a)` then returns `NULL`, for every other tracked
table `u` with entry `x` the get result is `x` before and after, and a "no
table" entry that get returns for `NULL` is still returned. -/
theorem C3_insert_get_remove_get (tid : Nat → Nat) (rows : Nat → Int) (s : State)
    (ts es : List Nat) (a : Nat) (hW : WF tid s ts es) :
    (ecs_table_cache_get tid s (some a) = some none →
        ∀ r, ∃ s2, ecs_table_cache_insert tid rows s (some a) (some r) = some s2 ∧
          ecs_table_cache_get tid s2 (some a) = some (some r)) ∧
      (∀ e, e ∈ ts ++ es → (s.hdr e).table = some a →
        ∃ s2, ecs_table_cache_remove tid s (some a) none = some (s2, some e) ∧
          ecs_table_cache_get tid s2 (some a) = some none ∧
          (∀ x u, x ∈ ts ++ es → (s.hdr x).table = some u → u ≠ a →
            ecs_table_cache_get tid s (some u) = some (some x) ∧
              ecs_table_cache_get tid s2 (some u) = some (some x)) ∧
          ∀ x, ecs_table_cache_get tid s none = some (some x) →
            ecs_table_cache_get tid s2 none = some (some x)) := by
  constructor
  · intro hget r
    refine ⟨_, insert_succeeds tid rows s ts es (some a) r hW hget, ?_⟩
    simp only [ecs_table_cache_get, insert_index_get, if_true]
  · intro e he ht
    have hidx := hW.idx_complete e he a ht
    refine ⟨_, remove_eq tid s a none e hW.init (Or.inr ⟨rfl, hidx⟩) (hW.owner e he) ht, ?_, ?_,
      ?_⟩
    · simp only [ecs_table_cache_get, remove_index, list_remove_index, map_get_remove, if_true]
    · intro x u hx hu hne
      have hxu := hW.idx_complete x hx u hu
      have hk : tid u ≠ tid a := by
        intro hk
        rw [hk, hidx] at hxu
        have hex : e = x := Option.some.inj hxu
        rw [hex, hu] at ht
        exact hne (Option.some.inj ht)
      simp only [ecs_table_cache_get, remove_index, list_remove_index, map_get_remove,
        if_neg hk, hxu, and_self]
    · intro x hx
      obtain ⟨hfx, htx⟩ := get_none_some hx
      have hxe : x ≠ e := by
        intro hh
        rw [hh, ht] at htx
        exact absurd htx (by simp)
      have hhead : ts.head? = some x := by
        rw [← hW.tables.1]
        exact hfx
      have hf2 := (remove_wf tid s ts es a e hW he ht).tables.1
      rw [head_erase_ne hhead hxe] at hf2
      have ht2 := remove_index_table tid s e a x
      rw [htx] at ht2
      simp only [ecs_table_cache_get, hf2, ht2, if_true]

/-- C3 (witness): the cache of the scenario after the two inserts (A at header
10, B at header 20), asked about table 3 (not tracked) and table A. -/
theorem C3_insert_get_remove_get_witness :
    WF id (after scenarioOps 2).1 [10] [20] ∧
      (∃ s2,
        ecs_table_cache_insert id scenarioRows (after scenarioOps 2).1 (some 3) (some 30) =
          some s2 ∧
        ecs_table_cache_get id s2 (some 3) = some (some 30)) ∧
      (∃ s2, ecs_table_cache_remove id (after scenarioOps 2).1 (some 1) none =
          some (s2, some 10) ∧
        ecs_table_cache_get id s2 (some 1) = some none ∧
        ecs_table_cache_get id (after scenarioOps 2).1 (some 2) = some (some 20) ∧
        ecs_table_cache_get id s2 (some 2) = some (some 20)) :=
  ⟨wf_after2,
    (C3_insert_get_remove_get id scenarioRows (after scenarioOps 2).1 [10] [20] 3
      wf_after2).1 rfl 30,
    match (C3_insert_get_remove_get id scenarioRows (after scenarioOps 2).1 [10] [20] 1
      wf_after2).2 10 (by simp) rfl with
    | ⟨s2, h1, h2, h3, _⟩ => ⟨s2, h1, h2, h3 20 2 (by simp) rfl (by decide)⟩⟩

/-! ### C4: the structural invariant -/

/-- The four parts of the structural invariant, from well-formedness. -/
theorem wf_struct (tid : Nat → Nat) (s : State) (ts es : List Nat) (hW : WF tid s ts es) :
    (IsPart s.hdr s.cache.tables ts ∧ IsPart s.hdr s.cache.empty_tables es ∧
        (∀ x ∈ ts ++ es, ∀ y, (s.hdr x).next = some y → (s.hdr y).prev = some x)) ∧
      (∀ k v, ecs_map_get_ptr s.cache.index k = some v →
        (v ∈ ts ∨ v ∈ es) ∧ ¬(v ∈ ts ∧ v ∈ es) ∧ (v ∈ es ↔ (s.hdr v).empty = true)) ∧
      (s.cache.tables.count + s.cache.empty_tables.count =
          ecs_map_count s.cache.index + (noTableCount s (ts ++ es) : Int) ∧
        noTableCount s (ts ++ es) ≤ 1) ∧
      ((s.cache.tables.first = none ↔ s.cache.tables.count = 0) ∧
        (s.cache.tables.last = none ↔ s.cache.tables.count = 0) ∧
        (s.cache.empty_tables.first = none ↔ s.cache.empty_tables.count = 0) ∧
        (s.cache.empty_tables.last = none ↔ s.cache.empty_tables.count = 0)) := by
  obtain ⟨_, _, hdisj⟩ := List.nodup_append.1 hW.nodup
  refine ⟨⟨hW.tables, hW.empties, ?_⟩, ?_, ?_, ?_⟩
  · intro x hx y hy
    rcases List.mem_append.1 hx with h1 | h1
    · exact (seg_next_prev ts none hW.tables.2.2.2 x h1 y hy).2
    · exact (seg_next_prev es none hW.empties.2.2.2 x h1 y hy).2
  · intro k v hkv
    have hv := List.mem_append.1 (hW.idx_sound k v hkv).1
    refine ⟨hv, fun hh => hdisj hh.1 hh.2, ⟨fun h1 => hW.flag_e v h1, fun h1 => ?_⟩⟩
    rcases hv with h2 | h2
    · rw [hW.flag_t v h2] at h1
      exact absurd h1 (by simp)
    · exact h2
  · obtain ⟨h1, h2⟩ := wf_index_count tid s ts es hW
    refine ⟨?_, h2⟩
    rw [hW.tables.2.2.1, hW.empties.2.2.1]
    unfold ecs_map_count
    rw [List.length_append] at h1
    omega
  · obtain ⟨h1, h2⟩ := isPart_null_iff _ _ _ hW.tables
    obtain ⟨h3, h4⟩ := isPart_null_iff _ _ _ hW.empties
    exact ⟨h1, h2, h3, h4⟩

/-- C4: in every state reached from an initialised cache by insert, remove and
set_empty calls with their preconditions met there are the two sequences `ts`
and `es` of the partitions such that (1) each partition is a well-formed
doubly linked list from `first` to `last` of length `count` (with
`x.next.prev = x`), (2) every indexed entry is on exactly one of the two lists,
and on `empty_tables` iff its `empty` flag is set, (3) `tables.count +
empty_tables.count` is the index size plus the number (at most one) of linked
"no table" entries, (4) `first` and `last` of a partition are null iff its
count is zero. The linked entries are exactly the tracked ones. -/
theorem C4_structural_invariant (tid : Nat → Nat) (self : Nat)
    (hdr : Nat → ecs_table_cache_hdr_t) (ops : List Op) (s : State) (tr : List Nat)
    (h : run tid (fresh self hdr, []) ops = some (s, tr)) :
    ∃ ts es, (∀ x, x ∈ tr ↔ x ∈ ts ++ es) ∧
      (IsPart s.hdr s.cache.tables ts ∧ IsPart s.hdr s.cache.empty_tables es ∧
        (∀ x ∈ ts ++ es, ∀ y, (s.hdr x).next = some y → (s.hdr y).prev = some x)) ∧
      (∀ k v, ecs_map_get_ptr s.cache.index k = some v →
        (v ∈ ts ∨ v ∈ es) ∧ ¬(v ∈ ts ∧ v ∈ es) ∧ (v ∈ es ↔ (s.hdr v).empty = true)) ∧
      (s.cache.tables.count + s.cache.empty_tables.count =
          ecs_map_count s.cache.index + (noTableCount s (ts ++ es) : Int) ∧
        noTableCount s (ts ++ es) ≤ 1) ∧
      ((s.cache.tables.first = none ↔ s.cache.tables.count = 0) ∧
        (s.cache.tables.last = none ↔ s.cache.tables.count = 0) ∧
        (s.cache.empty_tables.first = none ↔ s.cache.empty_tables.count = 0) ∧
        (s.cache.empty_tables.last = none ↔ s.cache.empty_tables.count = 0)) := by
  obtain ⟨ts, es, hW, _, hmem⟩ := run_fresh_inv tid self hdr ops s tr h
  exact ⟨ts, es, hmem, wf_struct tid s ts es hW⟩

/-- C4 (witness): the scenario of the specification. -/
theorem C4_structural_invariant_witness :
    run id (fresh 1 zeroHdr, []) scenarioOps = some (after scenarioOps 4) ∧
      ∃ ts es, (∀ x, x ∈ (after scenarioOps 4).2 ↔ x ∈ ts ++ es) ∧
        (IsPart (after scenarioOps 4).1.hdr (after scenarioOps 4).1.cache.tables ts ∧
          IsPart (after scenarioOps 4).1.hdr (after scenarioOps 4).1.cache.empty_tables es ∧
          (∀ x ∈ ts ++ es, ∀ y, ((after scenarioOps 4).1.hdr x).next = some y →
            ((after scenarioOps 4).1.hdr y).prev = some x)) ∧
        (∀ k v, ecs_map_get_ptr (after scenarioOps 4).1.cache.index k = some v →
          (v ∈ ts ∨ v ∈ es) ∧ ¬(v ∈ ts ∧ v ∈ es) ∧
            (v ∈ es ↔ ((after scenarioOps 4).1.hdr v).empty = true)) ∧
        ((after scenarioOps 4).1.cache.tables.count +
            (after scenarioOps 4).1.cache.empty_tables.count =
            ecs_map_count (after scenarioOps 4).1.cache.index +
              (noTableCount (after scenarioOps 4).1 (ts ++ es) : Int) ∧
          noTableCount (after scenarioOps 4).1 (ts ++ es) ≤ 1) ∧
        (((after scenarioOps 4).1.cache.tables.first = none ↔
            (after scenarioOps 4).1.cache.tables.count = 0) ∧
          ((after scenarioOps 4).1.cache.tables.last = none ↔
            (after scenarioOps 4).1.cache.tables.count = 0) ∧
          ((after scenarioOps 4).1.cache.empty_tables.first = none ↔
            (after scenarioOps 4).1.cache.empty_tables.count = 0) ∧
          ((after scenarioOps 4).1.cache.empty_tables.last = none ↔
            (after scenarioOps 4).1.cache.empty_tables.count = 0)) :=
  ⟨rfl, C4_structural_invariant id 1 zeroHdr scenarioOps (after scenarioOps 4).1
    (after scenarioOps 4).2 rfl⟩

/-! ### C5: traversal with removal of the yielded entry -/

/-- Traversal of the rest `rem` of the `tables` partition, the entries `kept`
before the cursor having been yielded and kept. -/
theorem traverse_tables (tid : Nat → Nat) (del : Nat → Bool) (es : List Nat) :
    ∀ (rem kept : List Nat) (s : State) (it : ecs_table_cache_iter_t) (fuel : Nat),
      WF tid s (kept ++ rem) es → it.next = rem.head? →
      (∀ x ∈ rem, del x = true → (s.hdr x).table ≠ none) → rem.length < fuel →
      ∃ s2 it2, traverse_removing tid del fuel s it = some (rem, s2, it2) ∧
        it2.next = none ∧ WF tid s2 (kept ++ rem.filter (fun x => !del x)) es
  | [], kept, s, it, fuel, hW, hit, _, hfuel => by
    obtain ⟨n, rfl⟩ : ∃ n, fuel = n + 1 := ⟨fuel - 1, by omega⟩
    refine ⟨s, it, ?_, hit, by simpa using hW⟩
    simp only [List.head?_nil] at hit
    simp [traverse_removing, _flecs_table_cache_next, hit]
  | x :: rem, kept, s, it, fuel, hW, hit, hdel, hfuel => by
    obtain ⟨n, rfl⟩ : ∃ n, fuel = n + 1 := ⟨fuel - 1, by omega⟩
    have hn : rem.length < n := by
      simp only [List.length_cons] at hfuel
      omega
    obtain ⟨htnd, hend, hdisj⟩ := List.nodup_append.1 hW.nodup
    obtain ⟨_, hnx, _⟩ := seg_unlink s.hdr kept rem x htnd hW.tables.2.2.2
    have hx : x ∈ (kept ++ x :: rem) ++ es := by simp
    have hxk : x ∉ kept := fun hh => (List.nodup_append.1 htnd).2.2 hh (by simp)
    have hxe : x ∉ es := fun hh => hdisj (by simp) hh
    simp only [List.head?_cons] at hit
    by_cases hd : del x = true
    · obtain ⟨a, ha⟩ := Option.ne_none_iff_exists.1 (hdel x (by simp) hd)
      have hrem := remove_eq tid s a (some x) x hW.init (Or.inl rfl) (hW.owner x hx) ha.symm
      have hW2 := remove_wf tid s (kept ++ x :: rem) es a x hW hx ha.symm
      rw [List.erase_append_right _ hxk, List.erase_cons_head, List.erase_of_not_mem hxe] at hW2
      obtain ⟨s2, it2, h1, h2, h3⟩ := traverse_tables tid del es rem kept
        (remove_index tid (table_cache_list_remove s x) a) { cur := some x, next := (s.hdr x).next }
        n hW2 hnx
        (fun y hy hdy => by
          rw [remove_index_table]
          exact hdel y (List.mem_cons_of_mem _ hy) hdy) hn
      refine ⟨s2, it2, ?_, h2, by simpa [List.filter_cons, hd] using h3⟩
      simp [traverse_removing, _flecs_table_cache_next, hit, hd, ← ha, hrem, h1]
    · have hW2 : WF tid s ((kept ++ [x]) ++ rem) es := by simpa using hW
      obtain ⟨s2, it2, h1, h2, h3⟩ := traverse_tables tid del es rem (kept ++ [x]) s
        { cur := some x, next := (s.hdr x).next } n hW2 hnx
        (fun y hy hdy => hdel y (List.mem_cons_of_mem _ hy) hdy) hn
      refine ⟨s2, it2, ?_, h2, by simpa [List.filter_cons, hd] using h3⟩
      simp [traverse_removing, _flecs_table_cache_next, hit, hd, h1]

/-- Traversal of the rest `rem` of the `empty_tables` partition. -/
theorem traverse_empty_tables (tid : Nat → Nat) (del : Nat → Bool) (ts : List Nat) :
    ∀ (rem kept : List Nat) (s : State) (it : ecs_table_cache_iter_t) (fuel : Nat),
      WF tid s ts (kept ++ rem) → it.next = rem.head? →
      (∀ x ∈ rem, del x = true → (s.hdr x).table ≠ none) → rem.length < fuel →
      ∃ s2 it2, traverse_removing tid del fuel s it = some (rem, s2, it2) ∧
        it2.next = none ∧ WF tid s2 ts (kept ++ rem.filter (fun x => !del x))
  | [], kept, s, it, fuel, hW, hit, _, hfuel => by
    obtain ⟨n, rfl⟩ : ∃ n, fuel = n + 1 := ⟨fuel - 1, by omega⟩
    refine ⟨s, it, ?_, hit, by simpa using hW⟩
    simp only [List.head?_nil] at hit
    simp [traverse_removing, _flecs_table_cache_next, hit]
  | x :: rem, kept, s, it, fuel, hW, hit, hdel, hfuel => by
    obtain ⟨n, rfl⟩ : ∃ n, fuel = n + 1 := ⟨fuel - 1, by omega⟩
    have hn : rem.length < n := by
      simp only [List.length_cons] at hfuel
      omega
    obtain ⟨htnd, hend, hdisj⟩ := List.nodup_append.1 hW.nodup
    obtain ⟨_, hnx, _⟩ := seg_unlink s.hdr kept rem x hend hW.empties.2.2.2
    have hx : x ∈ ts ++ (kept ++ x :: rem) := by simp
    have hxk : x ∉ kept := fun hh => (List.nodup_append.1 hend).2.2 hh (by simp)
    have hxt : x ∉ ts := fun hh => hdisj hh (by simp)
    simp only [List.head?_cons] at hit
    by_cases hd : del x = true
    · obtain ⟨a, ha⟩ := Option.ne_none_iff_exists.1 (hdel x (by simp) hd)
      have hrem := remove_eq tid s a (some x) x hW.init (Or.inl rfl) (hW.owner x hx) ha.symm
      have hW2 := remove_wf tid s ts (kept ++ x :: rem) a x hW hx ha.symm
      rw [List.erase_append_right _ hxk, List.erase_cons_head, List.erase_of_not_mem hxt] at hW2
      obtain ⟨s2, it2, h1, h2, h3⟩ := traverse_empty_tables tid del ts rem kept
        (remove_index tid (table_cache_list_remove s x) a) { cur := some x, next := (s.hdr x).next }
        n hW2 hnx
        (fun y hy hdy => by
          rw [remove_index_table]
          exact hdel y (List.mem_cons_of_mem _ hy) hdy) hn
      refine ⟨s2, it2, ?_, h2, by simpa [List.filter_cons, hd] using h3⟩
      simp [traverse_removing, _flecs_table_cache_next, hit, hd, ← ha, hrem, h1]
    · have hW2 : WF tid s ts ((kept ++ [x]) ++ rem) := by simpa using hW
      obtain ⟨s2, it2, h1, h2, h3⟩ := traverse_empty_tables tid del ts rem (kept ++ [x]) s
        { cur := some x, next := (s.hdr x).next } n hW2 hnx
        (fun y hy hdy => hdel y (List.mem_cons_of_mem _ hy) hdy) hn
      refine ⟨s2, it2, ?_, h2, by simpa [List.filter_cons, hd] using h3⟩
      simp [traverse_removing, _flecs_table_cache_next, hit, hd, h1]

/-- C5: in a well-formed cache whose `tables` partition holds `ts` and whose
`empty_tables` partition holds `es`, a traversal started with
`flecs_table_cache_iter` (resp. `flecs_table_cache_empty_iter`) in which the
caller removes any of the just-yielded entries (those chosen by `del`; a "no
table" entry cannot be passed to `ecs_table_cache_remove`) yields exactly `ts`
(resp. `es`) in list order, each entry once, and then
`_flecs_table_cache_next` reports exhaustion; the cache is left well formed
with the removed entries gone. `fuel` only has to exceed the number of
entries. -/
theorem C5_removal_safe_iteration (tid : Nat → Nat) (del : Nat → Bool) (s : State)
    (ts es : List Nat) (fuel : Nat) (hW : WF tid s ts es)
    (hdel : ∀ x ∈ ts ++ es, del x = true → (s.hdr x).table ≠ none) :
    (ts.length < fuel →
        ∃ s2 it2, (flecs_table_cache_iter s).1.cur = none ∧
          traverse_removing tid del fuel s (flecs_table_cache_iter s).1 = some (ts, s2, it2) ∧
          (_flecs_table_cache_next s2 it2).1 = none ∧
          WF tid s2 (ts.filter (fun x => !del x)) es) ∧
      (es.length < fuel →
        ∃ s2 it2, (flecs_table_cache_empty_iter s).1.cur = none ∧
          traverse_removing tid del fuel s (flecs_table_cache_empty_iter s).1 =
            some (es, s2, it2) ∧
          (_flecs_table_cache_next s2 it2).1 = none ∧
          WF tid s2 ts (es.filter (fun x => !del x))) := by
  constructor
  · intro hfuel
    obtain ⟨s2, it2, h1, h2, h3⟩ := traverse_tables tid del es ts [] s
      (flecs_table_cache_iter s).1 fuel (by simpa using hW) hW.tables.1
      (fun x hx => hdel x (List.mem_append_left _ hx)) hfuel
    exact ⟨s2, it2, rfl, h1, by simp [_flecs_table_cache_next, h2], by simpa using h3⟩
  · intro hfuel
    obtain ⟨s2, it2, h1, h2, h3⟩ := traverse_empty_tables tid del ts es [] s
      (flecs_table_cache_empty_iter s).1 fuel (by simpa using hW) hW.empties.1
      (fun x hx => hdel x (List.mem_append_right _ hx)) hfuel
    exact ⟨s2, it2, rfl, h1, by simp [_flecs_table_cache_next, h2], by simpa using h3⟩

/-- C5 (witness): the cache with A in `tables` and B, C in `empty_tables`;
the caller removes every entry it is given. -/
theorem C5_removal_safe_iteration_witness :
    WF id (after threeOps 3).1 [10] [20, 30] ∧
      (∀ x ∈ [10] ++ [20, 30], (fun _ : Nat => true) x = true →
        ((after threeOps 3).1.hdr x).table ≠ none) ∧
      ((∃ s2 it2, (flecs_table_cache_iter (after threeOps 3).1).1.cur = none ∧
          traverse_removing id (fun _ => true) 5 (after threeOps 3).1
            (flecs_table_cache_iter (after threeOps 3).1).1 = some ([10], s2, it2) ∧
          (_flecs_table_cache_next s2 it2).1 = none ∧
          WF id s2 ([10].filter (fun x => !(fun _ : Nat => true) x)) [20, 30]) ∧
        (∃ s2 it2, (flecs_table_cache_empty_iter (after threeOps 3).1).1.cur = none ∧
          traverse_removing id (fun _ => true) 5 (after threeOps 3).1
            (flecs_table_cache_empty_iter (after threeOps 3).1).1 = some ([20, 30], s2, it2) ∧
          (_flecs_table_cache_next s2 it2).1 = none ∧
          WF id s2 [10] ([20, 30].filter (fun x => !(fun _ : Nat => true) x)))) :=
  ⟨wf_three, by decide,
    (C5_removal_safe_iteration id (fun _ => true) (after threeOps 3).1 [10] [20, 30] 5
      wf_three (by decide)).1 (by decide),
    (C5_removal_safe_iteration id (fun _ => true) (after threeOps 3).1 [10] [20, 30] 5
      wf_three (by decide)).2 (by decide)⟩

/-! ### Replace -/

theorem replace_hdr_next (h : Nat → ecs_table_cache_hdr_t) (old e x : Nat) :
    (replace_hdr h old e x).next =
      if x = e then (h old).next else if (h old).prev = some x then some e else (h x).next := by
  unfold replace_hdr
  cases hn : (h old).next <;> cases hp : (h old).prev <;>
    simp only [setHdr, Option.some.injEq] <;> (try split_ifs) <;>
    first | rfl | contradiction | (exfalso; omega) | (subst_vars; rfl)

theorem replace_hdr_prev (h : Nat → ecs_table_cache_hdr_t) (old e x : Nat) :
    (replace_hdr h old e x).prev =
      if x = e then (h old).prev else if (h old).next = some x then some e else (h x).prev := by
  unfold replace_hdr
  cases hn : (h old).next <;> cases hp : (h old).prev <;>
    simp only [setHdr, Option.some.injEq] <;> (try split_ifs) <;>
    first | rfl | contradiction | (exfalso; omega) | (subst_vars; rfl)

theorem replace_hdr_fields (h : Nat → ecs_table_cache_hdr_t) (old e x : Nat) :
    (replace_hdr h old e x).cache = (h x).cache ∧ (replace_hdr h old e x).table = (h x).table ∧
      (replace_hdr h old e x).empty = (h x).empty := by
  unfold replace_hdr
  cases hn : (h old).next <;> cases hp : (h old).prev <;>
    simp only [setHdr, Option.some.injEq] <;> (try split_ifs) <;>
    first | contradiction | (exfalso; omega) | (subst_vars; simp)

theorem swap_in_split (l r : List Nat) (old e : Nat) (hl : old ∉ l) (hr : old ∉ r) :
    swap_in old e (l ++ old :: r) = l ++ e :: r := by
  have h1 : ∀ xs : List Nat, old ∉ xs → xs.map (fun x => if x = old then e else x) = xs := by
    intro xs hxs
    induction xs with
    | nil => rfl
    | cons a xs ih =>
      have ha : a ≠ old := fun hh => hxs (by simp [hh])
      simp only [List.map_cons, if_neg ha]
      rw [ih (fun hh => hxs (List.mem_cons_of_mem _ hh))]
  simp only [swap_in, List.map_append, List.map_cons, if_true, h1 l hl, h1 r hr]

theorem swap_in_other (ys : List Nat) (old e : Nat) (h : old ∉ ys) : swap_in old e ys = ys := by
  induction ys with
  | nil => rfl
  | cons a xs ih =>
    have ha : a ≠ old := fun hh => h (by simp [hh])
    simp only [swap_in, List.map_cons, if_neg ha]
    exact congrArg _ (ih (fun hh => h (List.mem_cons_of_mem _ hh)))

theorem seg_replace (h : Nat → ecs_table_cache_hdr_t) (l r : List Nat) (old e : Nat)
    (hnd : (l ++ old :: r).Nodup) (he : e ∉ l ++ old :: r)
    (hs : Seg h none (l ++ old :: r) none) :
    Seg (replace_hdr h old e) none (l ++ e :: r) none := by
  obtain ⟨hl, hp, hn, hr⟩ := (seg_append h l (old :: r) none none).1 hs
  rw [lastOr_none] at hp
  rw [headOr_none] at hn
  obtain ⟨hlnd, hernd, hdisj⟩ := List.nodup_append.1 hnd
  obtain ⟨_, hrnd⟩ := List.nodup_cons.1 hernd
  have hlr : ∀ x, x ∈ l → x ∈ r → False := fun x hx hx2 =>
    hdisj hx (List.mem_cons_of_mem _ hx2)
  have hel : ∀ x, x ∈ l → x ≠ e := fun x hx hh => he (by simp [← hh, hx])
  have her : ∀ x, x ∈ r → x ≠ e := fun x hx hh => he (by simp [← hh, hx])
  refine (seg_append _ l (e :: r) none none).2 ⟨?_, ?_, ?_, ?_⟩
  · refine seg_retarget l none (some old) none (some e) hlnd hl ?_ ?_ ?_ ?_
    · intro x hx _
      rw [replace_hdr_prev, if_neg (hel x hx), if_neg]
      rw [hn]
      exact fun hh => hlr x hx (mem_of_head? hh)
    · intro x hx
      rw [replace_hdr_prev, if_neg (hel x (mem_of_head? hx)), if_neg]
      · exact seg_head_prev hl hx
      · rw [hn]
        exact fun hh => hlr x (mem_of_head? hx) (mem_of_head? hh)
    · intro x hx hlast
      rw [replace_hdr_next, if_neg (hel x hx), if_neg]
      rw [hp]
      exact hlast
    · intro x hx
      rw [replace_hdr_next, if_neg (hel x (List.mem_of_getLast?_eq_some hx)),
        if_pos (hp.trans hx)]
  · rw [replace_hdr_prev, if_pos rfl, hp, lastOr_none]
  · rw [replace_hdr_next, if_pos rfl, hn, headOr_none]
  · refine seg_retarget r (some old) none (some e) none hrnd hr ?_ ?_ ?_ ?_
    · intro x hx hhead
      rw [replace_hdr_prev, if_neg (her x hx), if_neg]
      rw [hn]
      exact hhead
    · intro x hx
      rw [replace_hdr_prev, if_neg (her x (mem_of_head? hx)), if_pos (hn.trans hx)]
    · intro x hx _
      rw [replace_hdr_next, if_neg (her x hx), if_neg]
      rw [hp]
      exact fun hh => hlr x (List.mem_of_getLast?_eq_some hh) hx
    · intro x hx
      rw [replace_hdr_next, if_neg (her x (List.mem_of_getLast?_eq_some hx)), if_neg]
      · exact seg_last_next r _ _ x hr hx
      · rw [hp]
        exact fun hh => hlr x (List.mem_of_getLast?_eq_some hh)
          (List.mem_of_getLast?_eq_some hx)

theorem seg_replace_other (h : Nat → ecs_table_cache_hdr_t) (ys : List Nat) (old e : Nat)
    (hy : ∀ x ∈ ys, x ≠ e ∧ (h old).next ≠ some x ∧ (h old).prev ≠ some x)
    (hs : Seg h none ys none) : Seg (replace_hdr h old e) none ys none := by
  refine seg_congr ys none none ?_ hs
  intro x hx
  obtain ⟨h1, h2, h3⟩ := hy x hx
  rw [replace_hdr_prev, replace_hdr_next, if_neg h1, if_neg h2, if_neg h1, if_neg h3]
  exact ⟨rfl, rfl⟩

theorem isPart_replace_mem (h : Nat → ecs_table_cache_hdr_t) (L : ecs_table_cache_list_t)
    (l r : List Nat) (old e : Nat) (hnd : (l ++ old :: r).Nodup) (he : e ∉ l ++ old :: r)
    (hp : IsPart h L (l ++ old :: r)) :
    IsPart (replace_hdr h old e) (replace_list L old e) (l ++ e :: r) := by
  obtain ⟨h1, h2, h3, h4⟩ := hp
  obtain ⟨_, hernd, _⟩ := List.nodup_append.1 hnd
  have hol : old ∉ l := fun hh => (List.nodup_append.1 hnd).2.2 hh (by simp)
  have hor : old ∉ r := (List.nodup_cons.1 hernd).1
  refine ⟨?_, ?_, ?_, seg_replace h l r old e hnd he h4⟩
  · have : (replace_list L old e).first = if L.first = some old then some e else L.first := by
      simp only [replace_list]
      split_ifs <;> rfl
    rw [this, h1]
    cases l with
    | nil => simp
    | cons a l =>
      have ha : a ≠ old := fun hh => hol (by simp [hh])
      simp [ha]
  · have : (replace_list L old e).last = if L.last = some old then some e else L.last := by
      simp only [replace_list]
      split_ifs <;> rfl
    rw [this, h2]
    cases r with
    | nil => simp
    | cons a r =>
      obtain ⟨z, hz⟩ : ∃ z, (a :: r).getLast? = some z :=
        ⟨(a :: r).getLast (by simp), List.getLast?_eq_getLast _ _⟩
      have hzo : z ≠ old := fun hh => hor (hh ▸ List.mem_of_getLast?_eq_some hz)
      simp [List.getLast?_append, List.getLast?_cons_cons, hz, hzo]
  · have : (replace_list L old e).count = L.count := by
      simp only [replace_list]
      split_ifs <;> rfl
    rw [this, h3]
    simp

theorem isPart_replace_other (h : Nat → ecs_table_cache_hdr_t) (L : ecs_table_cache_list_t)
    (ys : List Nat) (old e : Nat) (ho : old ∉ ys)
    (hy : ∀ x ∈ ys, x ≠ e ∧ (h old).next ≠ some x ∧ (h old).prev ≠ some x)
    (hp : IsPart h L ys) :
    IsPart (replace_hdr h old e) (replace_list L old e) ys := by
  obtain ⟨h1, h2, h3, h4⟩ := hp
  have hf : L.first ≠ some old := by
    rw [h1]
    exact fun hh => ho (mem_of_head? hh)
  have hl : L.last ≠ some old := by
    rw [h2]
    exact fun hh => ho (List.mem_of_getLast?_eq_some hh)
  have : replace_list L old e = L := by
    simp only [replace_list, if_neg hf, if_neg hl]
  rw [this]
  exact ⟨h1, h2, h3, seg_replace_other h ys old e hy h4⟩

theorem wf_prev_next (tid : Nat → Nat) (s : State) (ts es : List Nat) (hW : WF tid s ts es)
    (e : Nat) (he : e ∈ ts ++ es) :
    (∀ p, (s.hdr e).prev = some p → p ∈ ts ++ es ∧ (s.hdr p).next = some e) ∧
      (∀ n, (s.hdr e).next = some n → n ∈ ts ++ es ∧ (s.hdr n).prev = some e) := by
  obtain ⟨htnd, hend, _⟩ := List.nodup_append.1 hW.nodup
  have key : ∀ xs : List Nat, xs.Nodup → Seg s.hdr none xs none → e ∈ xs →
      (∀ p, (s.hdr e).prev = some p → p ∈ xs ∧ (s.hdr p).next = some e) ∧
        (∀ n, (s.hdr e).next = some n → n ∈ xs ∧ (s.hdr n).prev = some e) := by
    intro xs hnd hs hx
    refine ⟨?_, fun n hn => seg_next_prev xs none hs e hx n hn⟩
    intro p hp
    obtain ⟨l, r, rfl⟩ := List.append_of_mem hx
    obtain ⟨hpv, _, _⟩ := seg_unlink s.hdr l r e hnd hs
    obtain ⟨hl, _⟩ := (seg_append s.hdr l (e :: r) none none).1 hs
    rw [hp] at hpv
    exact ⟨List.mem_append_left _ (List.mem_of_getLast?_eq_some hpv.symm),
      seg_last_next l none _ p hl hpv.symm⟩
  rcases List.mem_append.1 he with h1 | h1
  · obtain ⟨k1, k2⟩ := key ts htnd hW.tables.2.2.2 h1
    exact ⟨fun p hp => ⟨List.mem_append_left _ (k1 p hp).1, (k1 p hp).2⟩,
      fun n hn => ⟨List.mem_append_left _ (k2 n hn).1, (k2 n hn).2⟩⟩
  · obtain ⟨k1, k2⟩ := key es hend hW.empties.2.2.2 h1
    exact ⟨fun p hp => ⟨List.mem_append_right _ (k1 p hp).1, (k1 p hp).2⟩,
      fun n hn => ⟨List.mem_append_right _ (k2 n hn).1, (k2 n hn).2⟩⟩

theorem setHdr_next_prev (h : Nat → ecs_table_cache_hdr_t) (p n : Nat) (v : Option Nat) :
    (setHdr h p { h p with next := v } n).prev = (h n).prev := by
  unfold setHdr
  split_ifs with hh
  · rw [hh]
  · rfl

/-- In a well-formed cache the assertions of `ecs_table_cache_replace` hold
for an indexed table and a non-null header, and the call returns the state
with the redirected links, list ends and index slot. -/
theorem replace_eq (tid : Nat → Nat) (s : State) (ts es : List Nat) (a e1 e2 : Nat)
    (hW : WF tid s ts es) (hget : ecs_map_get_ptr s.cache.index (tid a) = some e1) :
    ecs_table_cache_replace tid s (some a) (some e2) = some (replace_state tid s a e1 e2) := by
  obtain ⟨hp, hn⟩ := wf_prev_next tid s ts es hW e1 (hW.idx_sound _ _ hget).1
  unfold ecs_table_cache_replace replace_state
  simp only [hget]
  cases hpv : (s.hdr e1).prev with
  | none =>
    cases hnx : (s.hdr e1).next with
    | none => simp [replace_hdr, replace_list, hpv, hnx]
    | some n => simp [replace_hdr, replace_list, hpv, hnx, (hn n hnx).2]
  | some p =>
    cases hnx : (s.hdr e1).next with
    | none => simp [replace_hdr, replace_list, hpv, hnx, (hp p hpv).2]
    | some n =>
      simp [replace_hdr, replace_list, hpv, hnx, (hp p hpv).2, setHdr_next_prev, (hn n hnx).2]

theorem mem_swap_in (old e x : Nat) (xs : List Nat) :
    x ∈ swap_in old e xs ↔ (x ∈ xs ∧ x ≠ old) ∨ (x = e ∧ old ∈ xs) := by
  simp only [swap_in, List.mem_map]
  constructor
  · rintro ⟨y, hy, rfl⟩
    by_cases hyo : y = old
    · exact Or.inr ⟨by simp [hyo], hyo ▸ hy⟩
    · exact Or.inl ⟨by simpa [hyo] using hy, by simp [hyo]⟩
  · rintro (⟨h1, h2⟩ | ⟨h1, h2⟩)
    · exact ⟨x, h1, by simp [h2]⟩
    · exact ⟨old, h2, by simp [h1]⟩

theorem swap_in_nodup (old e : Nat) (xs : List Nat) (hnd : xs.Nodup) (he : e ∉ xs) :
    (swap_in old e xs).Nodup := by
  refine List.Nodup.map_on ?_ hnd
  intro x hx y hy hxy
  by_cases h1 : x = old <;> by_cases h2 : y = old
  · rw [h1, h2]
  · simp only [h1, h2, if_true, if_false] at hxy
    exact absurd (hxy ▸ hy) he
  · simp only [h1, h2, if_true, if_false] at hxy
    exact absurd (hxy ▸ hx) he
  · simpa [h1, h2] using hxy

/-- The two lists after a replace: `e2` stands where `e1` stood, the other
entries keep their order (whatever the other fields of `e2` hold). -/
theorem replace_isParts (tid : Nat → Nat) (s : State) (ts es : List Nat) (e1 e2 : Nat)
    (hW : WF tid s ts es) (he1 : e1 ∈ ts ++ es) (hnew : e2 ∉ ts ++ es) :
    IsPart (replace_hdr s.hdr e1 e2) (replace_list s.cache.tables e1 e2) (swap_in e1 e2 ts) ∧
      IsPart (replace_hdr s.hdr e1 e2) (replace_list s.cache.empty_tables e1 e2)
        (swap_in e1 e2 es) := by
  obtain ⟨htnd, hend, hdisj⟩ := List.nodup_append.1 hW.nodup
  rcases List.mem_append.1 he1 with h1 | h1
  · have hoe : e1 ∉ es := fun hh => hdisj h1 hh
    obtain ⟨l, r, rfl⟩ := List.append_of_mem h1
    have hol : e1 ∉ l := fun hh => (List.nodup_append.1 htnd).2.2 hh (by simp)
    have hor : e1 ∉ r := (List.nodup_cons.1 (List.nodup_append.1 htnd).2.1).1
    obtain ⟨hpv, hnx, _⟩ := seg_unlink s.hdr l r e1 htnd hW.tables.2.2.2
    rw [swap_in_split l r e1 e2 hol hor, swap_in_other es e1 e2 hoe]
    refine ⟨isPart_replace_mem s.hdr _ l r e1 e2 htnd
      (fun hh => hnew (List.mem_append_left _ hh)) hW.tables,
      isPart_replace_other s.hdr _ es e1 e2 hoe ?_ hW.empties⟩
    intro x hx
    rw [hnx, hpv]
    refine ⟨fun hh => hnew (List.mem_append_right _ (hh ▸ hx)), fun hh => hdisj ?_ hx,
      fun hh => hdisj ?_ hx⟩
    · exact List.mem_append_right _ (List.mem_cons_of_mem _ (mem_of_head? hh))
    · exact List.mem_append_left _ (List.mem_of_getLast?_eq_some hh)
  · have hot : e1 ∉ ts := fun hh => hdisj hh h1
    obtain ⟨l, r, rfl⟩ := List.append_of_mem h1
    have hol : e1 ∉ l := fun hh => (List.nodup_append.1 hend).2.2 hh (by simp)
    have hor : e1 ∉ r := (List.nodup_cons.1 (List.nodup_append.1 hend).2.1).1
    obtain ⟨hpv, hnx, _⟩ := seg_unlink s.hdr l r e1 hend hW.empties.2.2.2
    rw [swap_in_split l r e1 e2 hol hor, swap_in_other ts e1 e2 hot]
    refine ⟨isPart_replace_other s.hdr _ ts e1 e2 hot ?_ hW.tables,
      isPart_replace_mem s.hdr _ l r e1 e2 hend
        (fun hh => hnew (List.mem_append_right _ hh)) hW.empties⟩
    intro x hx
    rw [hnx, hpv]
    refine ⟨fun hh => hnew (List.mem_append_left _ (hh ▸ hx)), fun hh => hdisj hx ?_,
      fun hh => hdisj hx ?_⟩
    · exact List.mem_append_right _ (List.mem_cons_of_mem _ (mem_of_head? hh))
    · exact List.mem_append_left _ (List.mem_of_getLast?_eq_some hh)

/-- With the flag of `e1` copied to `e2`, the flags name the partitions after a
replace. -/
theorem replace_parts (tid : Nat → Nat) (s : State) (ts es : List Nat) (a e1 e2 : Nat)
    (hW : WF tid s ts es) (he1 : e1 ∈ ts ++ es) (hnew : e2 ∉ ts ++ es)
    (hflag : (s.hdr e2).empty = (s.hdr e1).empty) :
    Parts (replace_state tid s a e1 e2) (swap_in e1 e2 ts) (swap_in e1 e2 es) := by
  obtain ⟨h1, h2⟩ := replace_isParts tid s ts es e1 e2 hW he1 hnew
  have hnd : (swap_in e1 e2 ts ++ swap_in e1 e2 es).Nodup := by
    have := swap_in_nodup e1 e2 (ts ++ es) hW.nodup hnew
    simpa [swap_in] using this
  refine ⟨hnd, h1, h2, ?_, ?_⟩
  · intro x hx
    show (replace_hdr s.hdr e1 e2 x).empty = false
    rw [(replace_hdr_fields s.hdr e1 e2 x).2.2]
    rcases (mem_swap_in e1 e2 x ts).1 hx with ⟨h3, _⟩ | ⟨h3, h4⟩
    · exact hW.flag_t x h3
    · rw [h3, hflag]
      exact hW.flag_t e1 h4
  · intro x hx
    show (replace_hdr s.hdr e1 e2 x).empty = true
    rw [(replace_hdr_fields s.hdr e1 e2 x).2.2]
    rcases (mem_swap_in e1 e2 x es).1 hx with ⟨h3, _⟩ | ⟨h3, h4⟩
    · exact hW.flag_e x h3
    · rw [h3, hflag]
      exact hW.flag_e e1 h4

/-- With the flag, the back-reference and the table of `e1` copied to `e2`, a
replace leaves a well-formed cache. -/
theorem replace_wf (tid : Nat → Nat) (s : State) (ts es : List Nat) (a e1 e2 : Nat)
    (hW : WF tid s ts es) (hget : ecs_map_get_ptr s.cache.index (tid a) = some e1)
    (hnew : e2 ∉ ts ++ es) (hflag : (s.hdr e2).empty = (s.hdr e1).empty)
    (hcache : (s.hdr e2).cache = (s.hdr e1).cache)
    (htable : (s.hdr e2).table = (s.hdr e1).table) :
    WF tid (replace_state tid s a e1 e2) (swap_in e1 e2 ts) (swap_in e1 e2 es) := by
  obtain ⟨he1, t1, ht1, hk1⟩ := hW.idx_sound _ _ hget
  have hP := replace_parts tid s ts es a e1 e2 hW he1 hnew hflag
  have hf := replace_hdr_fields s.hdr e1 e2
  have hmem : ∀ x, x ∈ swap_in e1 e2 ts ++ swap_in e1 e2 es ↔
      (x ∈ ts ++ es ∧ x ≠ e1) ∨ x = e2 := by
    intro x
    have : swap_in e1 e2 ts ++ swap_in e1 e2 es = swap_in e1 e2 (ts ++ es) := by
      simp [swap_in]
    rw [this, mem_swap_in]
    constructor
    · rintro (h | ⟨h, _⟩)
      · exact Or.inl h
      · exact Or.inr h
    · rintro (h | h)
      · exact Or.inl h
      · exact Or.inr ⟨h, he1⟩
  have hidx : ∀ k, ecs_map_get_ptr (replace_state tid s a e1 e2).cache.index k =
      if k = tid a then some e2 else ecs_map_get_ptr s.cache.index k :=
    fun k => map_get_set s.cache.index (tid a) e2 k
  refine ⟨hP, hW.init, keys_set_nodup _ _ _ hW.keys, ?_, ?_, ?_, ?_⟩
  · intro x hx
    show (replace_hdr s.hdr e1 e2 x).cache = some s.self
    rw [(hf x).1]
    rcases (hmem x).1 hx with ⟨h3, _⟩ | h3
    · exact hW.owner x h3
    · rw [h3, hcache]
      exact hW.owner e1 he1
  · intro k v hkv
    rw [hidx] at hkv
    show _ ∧ ∃ t, (replace_hdr s.hdr e1 e2 v).table = some t ∧ tid t = k
    rw [(hf v).2.1]
    by_cases hk : k = tid a
    · rw [if_pos hk] at hkv
      have hv : v = e2 := (Option.some.inj hkv).symm
      exact ⟨(hmem v).2 (Or.inr hv), t1, by rw [hv, htable]; exact ht1, by rw [hk1, hk]⟩
    · rw [if_neg hk] at hkv
      obtain ⟨h3, t, h4, h5⟩ := hW.idx_sound k v hkv
      have hv : v ≠ e1 := by
        intro hv
        rw [hv, ht1] at h4
        exact hk (by rw [← h5, ← Option.some.inj h4, hk1])
      exact ⟨(hmem v).2 (Or.inl ⟨h3, hv⟩), t, h4, h5⟩
  · intro x hx t ht
    change (replace_hdr s.hdr e1 e2 x).table = some t at ht
    rw [(hf x).2.1] at ht
    rw [hidx]
    rcases (hmem x).1 hx with ⟨h3, h4⟩ | h3
    · have hold := hW.idx_complete x h3 t ht
      have hk : tid t ≠ tid a := by
        intro hk
        rw [hk, hget] at hold
        exact h4 (Option.some.inj hold).symm
      rw [if_neg hk]
      exact hold
    · rw [h3, htable, ht1] at ht
      rw [← Option.some.inj ht, hk1, if_pos rfl, h3]
  · intro x hx ht
    change (replace_hdr s.hdr e1 e2 x).table = none at ht
    rw [(hf x).2.1] at ht
    rcases (hmem x).1 hx with ⟨h3, h4⟩ | h3
    · obtain ⟨ys, hys⟩ := List.head?_eq_some_iff.1 (hW.sentinel x h3 ht)
      simp [hys, swap_in, h4]
    · rw [h3, htable, ht1] at ht
      exact absurd ht (by simp)

theorem wf_frame {tid : Nat → Nat} {s s2 : State} {ts es : List Nat} (hW : WF tid s ts es)
    (hself : s2.self = s.self) (hc : s2.cache = s.cache)
    (hh : ∀ x ∈ ts ++ es, s2.hdr x = s.hdr x) : WF tid s2 ts es := by
  refine ⟨parts_congr hW.toParts (by rw [hc]) (by rw [hc]) hh, by rw [hc]; exact hW.init,
    by rw [hc]; exact hW.keys, ?_, ?_, ?_, ?_⟩
  · intro x hx
    rw [hh x hx, hself]
    exact hW.owner x hx
  · intro k v hkv
    rw [hc] at hkv
    obtain ⟨h1, t, h2, h3⟩ := hW.idx_sound k v hkv
    exact ⟨h1, t, by rw [hh v h1]; exact h2, h3⟩
  · intro x hx t ht
    rw [hh x hx] at ht
    rw [hc]
    exact hW.idx_complete x hx t ht
  · intro x hx ht
    rw [hh x hx] at ht
    exact hW.sentinel x hx ht

theorem wf_threeCopy : WF id threeCopy [10] [20, 30] :=
  wf_frame wf_three rfl rfl (fun x hx => setHdr_ne _ _ (by simp at hx; omega))

theorem wf_staleFlag : WF id staleFlag [10] [] :=
  wf_frame wf_after1 rfl rfl (fun x hx => setHdr_ne _ _ (by simp at hx; omega))

/-! ### C6: replace swaps the entry in place -/

/-- C6: in a well-formed cache where table `a` is indexed to `e1`, for a new
header `e2` (not linked in the cache) `ecs_table_cache_replace(cache, a, e2)`
returns, `ecs_table_cache_get(cache, a)` then returns `e2`, `e2.prev` and
`e2.next` are what `e1.prev` and `e1.next` were, those neighbours link to `e2`,
every `first`/`last` that was `e1` is `e2`, and each partition holds its
previous sequence with `e2` in the place of `e1`. -/
theorem C6_replace_in_place (tid : Nat → Nat) (s : State) (ts es : List Nat) (a e1 e2 : Nat)
    (hW : WF tid s ts es) (hget : ecs_map_get_ptr s.cache.index (tid a) = some e1)
    (hnew : e2 ∉ ts ++ es) :
    ∃ s2, ecs_table_cache_replace tid s (some a) (some e2) = some s2 ∧
      ecs_table_cache_get tid s2 (some a) = some (some e2) ∧
      (s2.hdr e2).prev = (s.hdr e1).prev ∧ (s2.hdr e2).next = (s.hdr e1).next ∧
      (∀ p, (s.hdr e1).prev = some p → (s2.hdr p).next = some e2) ∧
      (∀ n, (s.hdr e1).next = some n → (s2.hdr n).prev = some e2) ∧
      (s.cache.tables.first = some e1 → s2.cache.tables.first = some e2) ∧
      (s.cache.tables.last = some e1 → s2.cache.tables.last = some e2) ∧
      (s.cache.empty_tables.first = some e1 → s2.cache.empty_tables.first = some e2) ∧
      (s.cache.empty_tables.last = some e1 → s2.cache.empty_tables.last = some e2) ∧
      IsPart s2.hdr s2.cache.tables (swap_in e1 e2 ts) ∧
      IsPart s2.hdr s2.cache.empty_tables (swap_in e1 e2 es) := by
  have he1 := (hW.idx_sound _ _ hget).1
  obtain ⟨hp, hn⟩ := wf_prev_next tid s ts es hW e1 he1
  obtain ⟨h1, h2⟩ := replace_isParts tid s ts es e1 e2 hW he1 hnew
  have hfirst : ∀ L : ecs_table_cache_list_t, L.first = some e1 →
      (replace_list L e1 e2).first = some e2 := by
    intro L hL
    simp only [replace_list, hL, if_true]
    split_ifs <;> rfl
  have hlast : ∀ L : ecs_table_cache_list_t, L.last = some e1 →
      (replace_list L e1 e2).last = some e2 := by
    intro L hL
    simp only [replace_list]
    split_ifs <;> simp_all
  refine ⟨replace_state tid s a e1 e2, replace_eq tid s ts es a e1 e2 hW hget, ?_, ?_, ?_, ?_, ?_,
    hfirst _, hlast _, hfirst _, hlast _, h1, h2⟩
  · simp only [ecs_table_cache_get, replace_state, map_get_set, if_true]
  · show (replace_hdr s.hdr e1 e2 e2).prev = _
    rw [replace_hdr_prev, if_pos rfl]
  · show (replace_hdr s.hdr e1 e2 e2).next = _
    rw [replace_hdr_next, if_pos rfl]
  · intro p hpv
    have hpe : p ≠ e2 := fun hh => hnew (hh ▸ (hp p hpv).1)
    show (replace_hdr s.hdr e1 e2 p).next = _
    rw [replace_hdr_next, if_neg hpe, if_pos hpv]
  · intro n hnx
    have hne : n ≠ e2 := fun hh => hnew (hh ▸ (hn n hnx).1)
    show (replace_hdr s.hdr e1 e2 n).prev = _
    rw [replace_hdr_prev, if_neg hne, if_pos hnx]

/-- C6 (witness): B (header 20, first of `empty_tables` before C) is replaced
by the new header 50. -/
theorem C6_replace_in_place_witness :
    WF id (after threeOps 3).1 [10] [20, 30] ∧
      ecs_map_get_ptr (after threeOps 3).1.cache.index (id 2) = some 20 ∧ 50 ∉ [10] ++ [20, 30] ∧
      ∃ s2, ecs_table_cache_replace id (after threeOps 3).1 (some 2) (some 50) = some s2 ∧
        ecs_table_cache_get id s2 (some 2) = some (some 50) ∧
        (s2.hdr 50).prev = ((after threeOps 3).1.hdr 20).prev ∧
        (s2.hdr 50).next = ((after threeOps 3).1.hdr 20).next ∧
        (∀ p, ((after threeOps 3).1.hdr 20).prev = some p → (s2.hdr p).next = some 50) ∧
        (∀ n, ((after threeOps 3).1.hdr 20).next = some n → (s2.hdr n).prev = some 50) ∧
        ((after threeOps 3).1.cache.tables.first = some 20 → s2.cache.tables.first = some 50) ∧
        ((after threeOps 3).1.cache.tables.last = some 20 → s2.cache.tables.last = some 50) ∧
        ((after threeOps 3).1.cache.empty_tables.first = some 20 →
          s2.cache.empty_tables.first = some 50) ∧
        ((after threeOps 3).1.cache.empty_tables.last = some 20 →
          s2.cache.empty_tables.last = some 50) ∧
        IsPart s2.hdr s2.cache.tables (swap_in 20 50 [10]) ∧
        IsPart s2.hdr s2.cache.empty_tables (swap_in 20 50 [20, 30]) :=
  ⟨wf_three, rfl, by decide,
    C6_replace_in_place id (after threeOps 3).1 [10] [20, 30] 2 20 50 wf_three rfl (by decide)⟩

/-! ### C7: replace and the partition flag -/

/-- C7 (counterexample): A is indexed to header 10 in `tables`; the new header
50 holds `empty = true` before the call. After
`ecs_table_cache_replace(cache, A, 50)` header 50 is the head of `tables`, the
counts are still (1, 0), but its flag still says `empty_tables`; a following
`ecs_table_cache_remove(cache, A, NULL)` then leaves the counts (1, -1). -/
theorem C7_replace_keeps_stale_flag :
    ecs_map_get_ptr staleFlag.cache.index (id 1) = some 10 ∧
      staleFlag.cache.tables.first = some 10 ∧ (staleFlag.hdr 10).empty = false ∧
      (staleFlag.hdr 50).empty = true ∧
      (ecs_table_cache_replace id staleFlag (some 1) (some 50)).map
          (fun s2 => (s2.cache.tables.first, counts s2, (s2.hdr 50).empty)) =
        some (some 50, (1, 0), true) ∧
      ((ecs_table_cache_replace id staleFlag (some 1) (some 50)).bind
          (fun s2 => ecs_table_cache_remove id s2 (some 1) none)).map
          (fun r => (counts r.1, r.2)) = some ((1, -1), some 50) := by
  decide

/-- C7 (amended): in a well-formed cache where table `a` is indexed to `e1`,
for a new header `e2` whose `empty` flag equals the flag of `e1` before the
call, after `ecs_table_cache_replace(cache, a, e2)` the entry `e2` is in the
partition `e1` was in, both counts are unchanged, and the flag of every linked
entry (of `e2` too) names the partition that holds it; when `e2` also holds
the `cache` and `table` of `e1` the cache is well formed again. -/
theorem C7_replace_keeps_partition (tid : Nat → Nat) (s : State) (ts es : List Nat)
    (a e1 e2 : Nat) (hW : WF tid s ts es)
    (hget : ecs_map_get_ptr s.cache.index (tid a) = some e1) (hnew : e2 ∉ ts ++ es)
    (hflag : (s.hdr e2).empty = (s.hdr e1).empty) :
    ∃ s2, ecs_table_cache_replace tid s (some a) (some e2) = some s2 ∧
      Parts s2 (swap_in e1 e2 ts) (swap_in e1 e2 es) ∧
      (e1 ∈ ts → e2 ∈ swap_in e1 e2 ts) ∧ (e1 ∈ es → e2 ∈ swap_in e1 e2 es) ∧
      s2.cache.tables.count = s.cache.tables.count ∧
      s2.cache.empty_tables.count = s.cache.empty_tables.count ∧
      (s2.hdr e2).empty = (s.hdr e1).empty ∧
      ((s.hdr e2).cache = (s.hdr e1).cache → (s.hdr e2).table = (s.hdr e1).table →
        WF tid s2 (swap_in e1 e2 ts) (swap_in e1 e2 es)) := by
  have he1 := (hW.idx_sound _ _ hget).1
  have hcount : ∀ L : ecs_table_cache_list_t, (replace_list L e1 e2).count = L.count := by
    intro L
    simp only [replace_list]
    split_ifs <;> rfl
  refine ⟨replace_state tid s a e1 e2, replace_eq tid s ts es a e1 e2 hW hget,
    replace_parts tid s ts es a e1 e2 hW he1 hnew hflag, ?_, ?_, hcount _, hcount _, ?_, ?_⟩
  · exact fun h => (mem_swap_in e1 e2 e2 ts).2 (Or.inr ⟨rfl, h⟩)
  · exact fun h => (mem_swap_in e1 e2 e2 es).2 (Or.inr ⟨rfl, h⟩)
  · show (replace_hdr s.hdr e1 e2 e2).empty = _
    rw [(replace_hdr_fields s.hdr e1 e2 e2).2.2, hflag]
  · exact fun hc ht => replace_wf tid s ts es a e1 e2 hW hget hnew hflag hc ht

/-- C7 (witness): the header of B (20) was copied to the new record 50, which
then replaces it. -/
theorem C7_replace_keeps_partition_witness :
    WF id threeCopy [10] [20, 30] ∧
      ecs_map_get_ptr threeCopy.cache.index (id 2) = some 20 ∧ 50 ∉ [10] ++ [20, 30] ∧
      (threeCopy.hdr 50).empty = (threeCopy.hdr 20).empty ∧
      ∃ s2, ecs_table_cache_replace id threeCopy (some 2) (some 50) = some s2 ∧
        Parts s2 (swap_in 20 50 [10]) (swap_in 20 50 [20, 30]) ∧
        (20 ∈ [10] → 50 ∈ swap_in 20 50 [10]) ∧
        (20 ∈ [20, 30] → 50 ∈ swap_in 20 50 [20, 30]) ∧
        s2.cache.tables.count = threeCopy.cache.tables.count ∧
        s2.cache.empty_tables.count = threeCopy.cache.empty_tables.count ∧
        (s2.hdr 50).empty = (threeCopy.hdr 20).empty ∧
        ((threeCopy.hdr 50).cache = (threeCopy.hdr 20).cache →
          (threeCopy.hdr 50).table = (threeCopy.hdr 20).table →
          WF id s2 (swap_in 20 50 [10]) (swap_in 20 50 [20, 30])) :=
  ⟨wf_threeCopy, rfl, by decide, rfl,
    C7_replace_keeps_partition id threeCopy [10] [20, 30] 2 20 50 wf_threeCopy rfl (by decide)
      rfl⟩

/-! ### C8: `ecs_table_cache_set_empty` without effect -/

/-- C8: for a real table `a` and a flag `b`, when `a` has no indexed entry, or
the `empty` flag of its entry is already `b`, then
`ecs_table_cache_set_empty(cache, a, b)` returns false and the state (lists,
counts, headers, index) is the state before the call; in particular in a
well-formed cache for an entry of the `empty_tables` partition and `b = true`. -/
theorem C8_set_empty_noop (tid : Nat → Nat) (s : State) (a : Nat) (b : Bool)
    (h : ecs_map_get_ptr s.cache.index (tid a) = none ∨
      ∃ e, ecs_map_get_ptr s.cache.index (tid a) = some e ∧ (s.hdr e).empty = b) :
    ecs_table_cache_set_empty tid s (some a) b = some (s, false) ∧
      ∀ ts es e, WF tid s ts es → ecs_map_get_ptr s.cache.index (tid a) = some e → e ∈ es →
        ecs_table_cache_set_empty tid s (some a) true = some (s, false) :=
  ⟨set_empty_noop tid s a b h,
    fun _ _ e hW hget he => set_empty_noop tid s a true (Or.inr ⟨e, hget, hW.flag_e e he⟩)⟩

/-- C8 (witness): B (header 20) is in `empty_tables` already. -/
theorem C8_set_empty_noop_witness :
    (ecs_map_get_ptr (after threeOps 3).1.cache.index (id 2) = none ∨
        ∃ e, ecs_map_get_ptr (after threeOps 3).1.cache.index (id 2) = some e ∧
          ((after threeOps 3).1.hdr e).empty = true) ∧
      ecs_table_cache_set_empty id (after threeOps 3).1 (some 2) true =
        some ((after threeOps 3).1, false) ∧
      ∀ ts es e, WF id (after threeOps 3).1 ts es →
        ecs_map_get_ptr (after threeOps 3).1.cache.index (id 2) = some e → e ∈ es →
        ecs_table_cache_set_empty id (after threeOps 3).1 (some 2) true =
          some ((after threeOps 3).1, false) :=
  ⟨Or.inr ⟨20, rfl, rfl⟩,
    C8_set_empty_noop id (after threeOps 3).1 2 true (Or.inr ⟨20, rfl, rfl⟩)⟩

/-! ### C9: `ecs_table_cache_set_empty` moves the entry -/

/-- C10: in a well-formed cache whose partitions hold `ts` and `es`, for a
table reference `t` for which `ecs_table_cache_get` returns `NULL` and a header
`e` that is not linked in the cache, `ecs_table_cache_insert(cache, t, e)`
returns; `e.empty` is true exactly when `t` is a real table with row count 0;
the partition chosen by the flag holds its previous sequence followed by `e`,
its count has grown by one and its `first` is `e` iff it was empty before; the
other partition (list object and sequence) is unchanged; the index maps the id
of a real `t` to `e` and is otherwise unchanged, and is unchanged for the "no
table" reference. -/
theorem C10_insert_classifies_and_appends (tid : Nat → Nat) (rows : Nat → Int) (s : State)
    (ts es : List Nat) (t : Option Nat) (e : Nat) (hW : WF tid s ts es)
    (hget : ecs_table_cache_get tid s t = some none) (hnew : e ∉ ts ++ es) :
    ∃ s2, ecs_table_cache_insert tid rows s t (some e) = some s2 ∧
      ((s2.hdr e).empty = true ↔ ∃ a, t = some a ∧ rows a = 0) ∧
      WF tid s2 (if (s2.hdr e).empty then ts else ts ++ [e])
        (if (s2.hdr e).empty then es ++ [e] else es) ∧
      (if (s2.hdr e).empty then
        s2.cache.tables = s.cache.tables ∧
          s2.cache.empty_tables.count = s.cache.empty_tables.count + 1 ∧
          s2.cache.empty_tables.last = some e ∧
          (s2.cache.empty_tables.first = some e ↔ s.cache.empty_tables.count = 0)
      else
        s2.cache.empty_tables = s.cache.empty_tables ∧
          s2.cache.tables.count = s.cache.tables.count + 1 ∧
          s2.cache.tables.last = some e ∧
          (s2.cache.tables.first = some e ↔ s.cache.tables.count = 0)) ∧
      (∀ a, t = some a → ∀ k, ecs_map_get_ptr s2.cache.index k =
        if k = tid a then some e else ecs_map_get_ptr s.cache.index k) ∧
      (t = none → s2.cache.index = s.cache.index) := by
  have hW2 := insert_wf tid rows s ts es t e hW hget hnew
  obtain ⟨hh, _, htab, hemp⟩ := insert_index_hdr tid
    (table_cache_list_insert (insert_stamp s t e (classify rows t)) e) t e
  have hflag : ((insert_index tid
      (table_cache_list_insert (insert_stamp s t e (classify rows t)) e) t e).hdr e).empty =
      classify rows t := by
    rw [hh, (insert_fields s t e (classify rows t) e).2.2, if_pos rfl]
  have hc : ((insert_stamp s t e (classify rows t)).hdr e).empty = classify rows t := by
    simp [insert_stamp]
  have hfirst : ∀ (L : ecs_table_cache_list_t) (xs : List Nat), IsPart s.hdr L xs → e ∉ xs →
      (list_push L e).count = L.count + 1 ∧ (list_push L e).last = some e ∧
        ((list_push L e).first = some e ↔ L.count = 0) := by
    intro L xs hp hxs
    have hne : L.first ≠ some e := by
      rw [hp.1]
      exact fun hh2 => hxs (mem_of_head? hh2)
    simp only [list_push]
    split_ifs with h1
    · exact ⟨rfl, rfl, by simp; omega⟩
    · exact ⟨rfl, rfl, ⟨fun h2 => absurd h2 hne, fun h2 => absurd (by rw [h2]; rfl) h1⟩⟩
  refine ⟨_, insert_ok tid rows s ts es t e hW hget hnew, ?_, ?_, ?_, ?_, ?_⟩
  · rw [hflag]
    cases t with
    | none => simp [classify]
    | some a => simp [classify]
  · rw [hflag]
    exact hW2
  · rw [hflag, htab, hemp, list_insert_tables, list_insert_empty_tables, hc]
    cases classify rows t
    · simp only [Bool.false_eq_true, if_false]
      exact ⟨rfl, hfirst _ ts hW.tables (fun hh2 => hnew (List.mem_append_left _ hh2))⟩
    · simp only [if_true]
      exact ⟨rfl, hfirst _ es hW.empties (fun hh2 => hnew (List.mem_append_right _ hh2))⟩
  · intro a ht k
    subst ht
    rw [insert_index_get]
    simp only []
    rw [list_insert_index]
    rfl
  · intro ht
    subst ht
    exact list_insert_index _ e

/-- C10 (witness): table 4 (no rows, not tracked) is inserted with the new
header 40 into the cache holding A, B and C. -/
theorem C10_insert_classifies_and_appends_witness :
    WF id (after threeOps 3).1 [10] [20, 30] ∧
      ecs_table_cache_get id (after threeOps 3).1 (some 4) = some none ∧ 40 ∉ [10] ++ [20, 30] ∧
      ∃ s2, ecs_table_cache_insert id scenarioRows (after threeOps 3).1 (some 4) (some 40) =
          some s2 ∧
        ((s2.hdr 40).empty = true ↔ ∃ a, some 4 = some a ∧ scenarioRows a = 0) ∧
        WF id s2 (if (s2.hdr 40).empty then [10] else [10] ++ [40])
          (if (s2.hdr 40).empty then [20, 30] ++ [40] else [20, 30]) ∧
        (if (s2.hdr 40).empty then
          s2.cache.tables = (after threeOps 3).1.cache.tables ∧
            s2.cache.empty_tables.count = (after threeOps 3).1.cache.empty_tables.count + 1 ∧
            s2.cache.empty_tables.last = some 40 ∧
            (s2.cache.empty_tables.first = some 40 ↔
              (after threeOps 3).1.cache.empty_tables.count = 0)
        else
          s2.cache.empty_tables = (after threeOps 3).1.cache.empty_tables ∧
            s2.cache.tables.count = (after threeOps 3).1.cache.tables.count + 1 ∧
            s2.cache.tables.last = some 40 ∧
            (s2.cache.tables.first = some 40 ↔ (after threeOps 3).1.cache.tables.count = 0)) ∧
        (∀ a, (some 4 : Option Nat) = some a → ∀ k, ecs_map_get_ptr s2.cache.index k =
          if k = id a then some 40 else ecs_map_get_ptr (after threeOps 3).1.cache.index k) ∧
        ((some 4 : Option Nat) = none → s2.cache.index = (after threeOps 3).1.cache.index) :=
  ⟨wf_three, rfl, by decide,
    C10_insert_classifies_and_appends id scenarioRows (after threeOps 3).1 [10] [20, 30] (some 4)
      40 wf_three rfl (by decide)⟩

/-! ### C11: remove does nothing or unlinks one entry -/

theorem list_remove_other (s : State) (ts es : List Nat) (e : Nat) (hP : Parts s ts es) :
    (e ∈ ts →
        (table_cache_list_remove s e).cache.empty_tables = s.cache.empty_tables ∧
        (table_cache_list_remove s e).cache.tables.count = s.cache.tables.count - 1 ∧
        (table_cache_list_remove s e).cache.tables.first =
          (if s.cache.tables.first = some e then (s.hdr e).next else s.cache.tables.first) ∧
        (table_cache_list_remove s e).cache.tables.last =
          (if s.cache.tables.last = some e then (s.hdr e).prev else s.cache.tables.last)) ∧
      (e ∈ es →
        (table_cache_list_remove s e).cache.tables = s.cache.tables ∧
        (table_cache_list_remove s e).cache.empty_tables.count =
          s.cache.empty_tables.count - 1 ∧
        (table_cache_list_remove s e).cache.empty_tables.first =
          (if s.cache.empty_tables.first = some e then (s.hdr e).next
            else s.cache.empty_tables.first) ∧
        (table_cache_list_remove s e).cache.empty_tables.last =
          (if s.cache.empty_tables.last = some e then (s.hdr e).prev
            else s.cache.empty_tables.last)) := by
  obtain ⟨_, _, hdisj⟩ := List.nodup_append.1 hP.nodup
  constructor
  · intro he
    have hee : e ∉ es := fun hh => hdisj he hh
    have hemp : (s.hdr e).empty = false := hP.flag_t e he
    have hf : s.cache.empty_tables.first ≠ some e := by
      rw [hP.empties.1]
      exact fun hh => hee (mem_of_head? hh)
    have hl : s.cache.empty_tables.last ≠ some e := by
      rw [hP.empties.2.1]
      exact fun hh => hee (List.mem_of_getLast?_eq_some hh)
    rw [list_remove_empty_tables, list_remove_tables]
    simp only [if_neg hf, if_neg hl, hemp, Bool.false_eq_true, if_false, sub_zero, and_self,
      and_true]
  · intro he
    have het : e ∉ ts := fun hh => hdisj hh he
    have hemp : (s.hdr e).empty = true := hP.flag_e e he
    have hf : s.cache.tables.first ≠ some e := by
      rw [hP.tables.1]
      exact fun hh => het (mem_of_head? hh)
    have hl : s.cache.tables.last ≠ some e := by
      rw [hP.tables.2.1]
      exact fun hh => het (List.mem_of_getLast?_eq_some hh)
    rw [list_remove_empty_tables, list_remove_tables]
    simp only [if_neg hf, if_neg hl, hemp, if_true, sub_zero, ite_self, and_self, and_true]

/-- C11: in a well-formed cache and for a real table `a` (table ids identify
tables), `ecs_table_cache_remove(cache, a, NULL)` returns `NULL` and the
unchanged state when `a` has no indexed entry; otherwise it returns the entry
`e` indexed for `a`, the partition that held `e` holds its previous sequence
with `e` erased (count one less, `first`/`last` moved to the neighbour when `e`
was the head or the tail), the other partition (sequence and list object) is
unchanged, `a` is no longer in the index, and the cache is well formed. -/
theorem C11_remove_unlinks_one (tid : Nat → Nat) (s : State) (ts es : List Nat) (a : Nat)
    (htid : Function.Injective tid) (hW : WF tid s ts es) :
    (ecs_map_get_ptr s.cache.index (tid a) = none →
        ecs_table_cache_remove tid s (some a) none = some (s, none)) ∧
      ∀ e, ecs_map_get_ptr s.cache.index (tid a) = some e →
        ∃ s2, ecs_table_cache_remove tid s (some a) none = some (s2, some e) ∧
          WF tid s2 (ts.erase e) (es.erase e) ∧ (e ∈ ts ∨ e ∈ es) ∧
          (e ∈ ts → es.erase e = es ∧
            s2.cache.empty_tables = s.cache.empty_tables ∧
            s2.cache.tables.count = s.cache.tables.count - 1 ∧
            s2.cache.tables.first =
              (if s.cache.tables.first = some e then (s.hdr e).next
                else s.cache.tables.first) ∧
            s2.cache.tables.last =
              (if s.cache.tables.last = some e then (s.hdr e).prev
                else s.cache.tables.last)) ∧
          (e ∈ es → ts.erase e = ts ∧
            s2.cache.tables = s.cache.tables ∧
            s2.cache.empty_tables.count = s.cache.empty_tables.count - 1 ∧
            s2.cache.empty_tables.first =
              (if s.cache.empty_tables.first = some e then (s.hdr e).next
                else s.cache.empty_tables.first) ∧
            s2.cache.empty_tables.last =
              (if s.cache.empty_tables.last = some e then (s.hdr e).prev
                else s.cache.empty_tables.last)) ∧
          ecs_table_cache_get tid s2 (some a) = some none := by
  obtain ⟨_, _, hdisj⟩ := List.nodup_append.1 hW.nodup
  refine ⟨remove_absent tid s a, ?_⟩
  intro e hget
  obtain ⟨he, t, ht, hk⟩ := hW.idx_sound _ _ hget
  have hta : t = a := htid hk
  subst hta
  have hrm : ecs_map_get_ptr (remove_index tid (table_cache_list_remove s e) t).cache.index
      (tid t) = none := by
    simp only [remove_index, list_remove_index, map_get_remove, if_true]
  have hlo := list_remove_other s ts es e hW.toParts
  refine ⟨_, remove_eq tid s t none e hW.init (Or.inr ⟨rfl, hget⟩) (hW.owner e he) ht,
    remove_wf tid s ts es t e hW he ht, List.mem_append.1 he, ?_, ?_, ?_⟩
  · intro h1
    exact ⟨List.erase_of_not_mem (fun hh => hdisj h1 hh), hlo.1 h1⟩
  · intro h1
    exact ⟨List.erase_of_not_mem (fun hh => hdisj hh h1), hlo.2 h1⟩
  · simp only [ecs_table_cache_get, hrm]

/-- C11 (witness): in the cache holding A in `tables` and B, C in
`empty_tables`, B (header 20, the head of `empty_tables`) is removed. -/
theorem C11_remove_unlinks_one_witness :
    Function.Injective (id : Nat → Nat) ∧ WF id (after threeOps 3).1 [10] [20, 30] ∧
      ∃ s2, ecs_table_cache_remove id (after threeOps 3).1 (some 2) none = some (s2, some 20) ∧
        WF id s2 ([10].erase 20) ([20, 30].erase 20) ∧ (20 ∈ [10] ∨ 20 ∈ [20, 30]) ∧
        (20 ∈ [10] → [20, 30].erase 20 = [20, 30] ∧
          s2.cache.empty_tables = (after threeOps 3).1.cache.empty_tables ∧
          s2.cache.tables.count = (after threeOps 3).1.cache.tables.count - 1 ∧
          s2.cache.tables.first =
            (if (after threeOps 3).1.cache.tables.first = some 20 then
              ((after threeOps 3).1.hdr 20).next
              else (after threeOps 3).1.cache.tables.first) ∧
          s2.cache.tables.last =
            (if (after threeOps 3).1.cache.tables.last = some 20 then
              ((after threeOps 3).1.hdr 20).prev
              else (after threeOps 3).1.cache.tables.last)) ∧
        (20 ∈ [20, 30] → [10].erase 20 = [10] ∧
          s2.cache.tables = (after threeOps 3).1.cache.tables ∧
          s2.cache.empty_tables.count = (after threeOps 3).1.cache.empty_tables.count - 1 ∧
          s2.cache.empty_tables.first =
            (if (after threeOps 3).1.cache.empty_tables.first = some 20 then
              ((after threeOps 3).1.hdr 20).next
              else (after threeOps 3).1.cache.empty_tables.first) ∧
          s2.cache.empty_tables.last =
            (if (after threeOps 3).1.cache.empty_tables.last = some 20 then
              ((after threeOps 3).1.hdr 20).prev
              else (after threeOps 3).1.cache.empty_tables.last)) ∧
        ecs_table_cache_get id s2 (some 2) = some none :=
  ⟨Function.injective_id, wf_three,
    (C11_remove_unlinks_one id (after threeOps 3).1 [10] [20, 30] 2 Function.injective_id
      wf_three).2 20 rfl⟩

/-! ### C12: traversal without mutation -/

theorem take_next_exhausted (s : State) :
    ∀ (k : Nat) (it : ecs_table_cache_iter_t), it.next = none →
      (take_next s k it).1 = List.replicate k none
  | 0, _, _ => rfl
  | k + 1, it, h => by
    have ih := take_next_exhausted s k it h
    simp only [take_next, _flecs_table_cache_next, h, List.replicate_succ, ih]

theorem take_next_seg (s : State) (k : Nat) :
    ∀ (rem : List Nat) (p : Option Nat) (it : ecs_table_cache_iter_t),
      Seg s.hdr p rem none → it.next = rem.head? →
      (take_next s (rem.length + k) it).1 = rem.map some ++ List.replicate k none
  | [], _, it, _, hit => by
    simpa using take_next_exhausted s k it hit
  | x :: rem, _, it, hs, hit => by
    have hnx : (s.hdr x).next = rem.head? := by
      rw [hs.2.1, headOr_none]
    have ih := take_next_seg s k rem (some x) { cur := some x, next := (s.hdr x).next }
      hs.2.2 hnx
    simp only [List.head?_cons] at hit
    have hlen : (x :: rem).length + k = (rem.length + k) + 1 := by
      simp only [List.length_cons]
      omega
    rw [hlen]
    simp only [take_next, _flecs_table_cache_next, hit, ih, List.map_cons, List.cons_append]

theorem isPart_isSome_iff (h : Nat → ecs_table_cache_hdr_t) (L : ecs_table_cache_list_t)
    (xs : List Nat) (hp : IsPart h L xs) : L.first.isSome = true ↔ 0 < L.count := by
  rw [hp.1, hp.2.2.1]
  cases xs with
  | nil => simp
  | cons a xs =>
    simp only [List.head?_cons, Option.isSome_some, List.length_cons, true_iff]
    push_cast
    omega

/-- C12: in a well-formed cache whose partitions hold `ts` and `es`,
`flecs_table_cache_iter` (resp. `flecs_table_cache_empty_iter`) returns true
iff the count of `tables` (resp. `empty_tables`) is positive and sets `cur` to
`NULL`; the following calls of `_flecs_table_cache_next` return the entries of
the partition from head to tail, as many as its count, and every further call
returns `NULL`. -/
theorem C12_cursor_traversal (tid : Nat → Nat) (s : State) (ts es : List Nat)
    (hW : WF tid s ts es) :
    (((flecs_table_cache_iter s).2 = true ↔ 0 < s.cache.tables.count) ∧
        (flecs_table_cache_iter s).1.cur = none ∧
        s.cache.tables.count = (ts.length : Int) ∧
        ∀ k, (take_next s (ts.length + k) (flecs_table_cache_iter s).1).1 =
          ts.map some ++ List.replicate k none) ∧
      (((flecs_table_cache_empty_iter s).2 = true ↔ 0 < s.cache.empty_tables.count) ∧
        (flecs_table_cache_empty_iter s).1.cur = none ∧
        s.cache.empty_tables.count = (es.length : Int) ∧
        ∀ k, (take_next s (es.length + k) (flecs_table_cache_empty_iter s).1).1 =
          es.map some ++ List.replicate k none) :=
  ⟨⟨isPart_isSome_iff _ _ _ hW.tables, rfl, hW.tables.2.2.1,
      fun k => take_next_seg s k ts none _ hW.tables.2.2.2 hW.tables.1⟩,
    ⟨isPart_isSome_iff _ _ _ hW.empties, rfl, hW.empties.2.2.1,
      fun k => take_next_seg s k es none _ hW.empties.2.2.2 hW.empties.1⟩⟩

/-- C12 (witness): the cache holding A in `tables` and B, C in `empty_tables`;
five calls on the cursor of `empty_tables` give B, C and then `NULL` three
times. -/
theorem C12_cursor_traversal_witness :
    WF id (after threeOps 3).1 [10] [20, 30] ∧
      (take_next (after threeOps 3).1 5 (flecs_table_cache_empty_iter (after threeOps 3).1).1).1 =
        [some 20, some 30, none, none, none] ∧
      (((flecs_table_cache_iter (after threeOps 3).1).2 = true ↔
          0 < (after threeOps 3).1.cache.tables.count) ∧
        (flecs_table_cache_iter (after threeOps 3).1).1.cur = none ∧
        (after threeOps 3).1.cache.tables.count = (([10] : List Nat).length : Int) ∧
        ∀ k, (take_next (after threeOps 3).1 (([10] : List Nat).length + k)
            (flecs_table_cache_iter (after threeOps 3).1).1).1 =
          ([10] : List Nat).map some ++ List.replicate k none) ∧
      (((flecs_table_cache_empty_iter (after threeOps 3).1).2 = true ↔
          0 < (after threeOps 3).1.cache.empty_tables.count) ∧
        (flecs_table_cache_empty_iter (after threeOps 3).1).1.cur = none ∧
        (after threeOps 3).1.cache.empty_tables.count = (([20, 30] : List Nat).length : Int) ∧
        ∀ k, (take_next (after threeOps 3).1 (([20, 30] : List Nat).length + k)
            (flecs_table_cache_empty_iter (after threeOps 3).1).1).1 =
          ([20, 30] : List Nat).map some ++ List.replicate k none) :=
  ⟨wf_three, by decide, C12_cursor_traversal id (after threeOps 3).1 [10] [20, 30] wf_three⟩

/-! ## Theorems: poly lifecycle and accessors -/

theorem magic_ne_zero : (0 : Int) ≠ ECS_OBJECT_MAGIC := by decide

theorem poly_init_eq (m : PolyMem) (p : Nat) (t size : Int) (mixins : Option ecs_mixins_t)
    (hsize : 0 ≤ size) :
    _ecs_poly_init m (some p) t size mixins =
      .ok ({ ecs_os_memset m p size.toNat with
              hdr := fun a =>
                if a = p then { magic := ECS_OBJECT_MAGIC, type := t, mixins := mixins }
                else (ecs_os_memset m p size.toNat).hdr a }, some p) := by
  simp [_ecs_poly_init, not_lt.2 hsize]

/-! ### C13: init then is -/

/-- C13: for a non-null block at `p`, a type tag `t`, a size `size ≥ 0` and a
descriptor reference, `_ecs_poly_init` returns `p`; afterwards `_ecs_poly_is(p, u)`
passes its magic check and returns true when `u = t` and false otherwise; the
header holds `ECS_OBJECT_MAGIC`, `t` and the descriptor reference; every other
header, pointer and byte of the block is zero, and memory outside the block is
unchanged. -/
theorem C13_init_then_is (m : PolyMem) (p : Nat) (t size : Int)
    (mixins : Option ecs_mixins_t) (hsize : 0 ≤ size) :
    ∃ m2, _ecs_poly_init m (some p) t size mixins = .ok (m2, some p) ∧
      (∀ u, _ecs_poly_is m2 (some p) u = .ok (decide (t = u))) ∧
      (m2.hdr p).magic = ECS_OBJECT_MAGIC ∧ (m2.hdr p).type = t ∧ (m2.hdr p).mixins = mixins ∧
      (∀ a, p ≤ a → a < p + size.toNat →
        m2.byte a = 0 ∧ m2.ptr a = none ∧ (a ≠ p → m2.hdr a = zeroHeader)) ∧
      (∀ a, ¬(p ≤ a ∧ a < p + size.toNat) →
        m2.byte a = m.byte a ∧ m2.ptr a = m.ptr a ∧ (a ≠ p → m2.hdr a = m.hdr a)) := by
  refine ⟨_, poly_init_eq m p t size mixins hsize, ?_, ?_, ?_, ?_, ?_, ?_⟩
  · intro u
    simp [_ecs_poly_is]
  · simp
  · simp
  · simp
  · intro a h1 h2
    refine ⟨by simp [ecs_os_memset, h1, h2], by simp [ecs_os_memset, h1, h2], fun hne => ?_⟩
    simp [ecs_os_memset, h1, h2, hne]
  · intro a h1
    refine ⟨by simp [ecs_os_memset, h1], by simp [ecs_os_memset, h1], fun hne => ?_⟩
    simp [ecs_os_memset, h1, hne]

/-- C13 (witness): a block of 64 bytes at address 1000 is initialised with the
type tag 2 and the stage descriptor. -/
theorem C13_init_then_is_witness :
    (0 : Int) ≤ 64 ∧
      ∃ m2, _ecs_poly_init stageWorldMem (some 1000) 2 64 (some (ecs_stage_t_mixins 24)) =
          .ok (m2, some 1000) ∧
        (∀ u, _ecs_poly_is m2 (some 1000) u = .ok (decide ((2 : Int) = u))) ∧
        (m2.hdr 1000).magic = ECS_OBJECT_MAGIC ∧ (m2.hdr 1000).type = 2 ∧
        (m2.hdr 1000).mixins = some (ecs_stage_t_mixins 24) ∧
        (∀ a, 1000 ≤ a → a < 1000 + (64 : Int).toNat →
          m2.byte a = 0 ∧ m2.ptr a = none ∧ (a ≠ 1000 → m2.hdr a = zeroHeader)) ∧
        (∀ a, ¬(1000 ≤ a ∧ a < 1000 + (64 : Int).toNat) →
          m2.byte a = stageWorldMem.byte a ∧ m2.ptr a = stageWorldMem.ptr a ∧
            (a ≠ 1000 → m2.hdr a = stageWorldMem.hdr a)) :=
  ⟨by decide, C13_init_then_is stageWorldMem 1000 2 64 (some (ecs_stage_t_mixins 24)) (by decide)⟩

/-! ### C14: fini -/

theorem poly_fini_error_iff (m : PolyMem) (poly : Option Nat) (t : Int) :
    _ecs_poly_fini m poly t = .error .assertion ↔
      poly = none ∨
        ∃ p, poly = some p ∧ ((m.hdr p).magic ≠ ECS_OBJECT_MAGIC ∨ (m.hdr p).type ≠ t) := by
  cases poly with
  | none => simp [_ecs_poly_fini]
  | some p =>
    simp only [_ecs_poly_fini, reduceCtorEq, Option.some.injEq, exists_eq_left', false_or]
    split_ifs with h1 h2
    · simp [h1]
    · simp [h2]
    · simp only [reduceCtorEq, false_iff, not_or, not_not]
      exact ⟨not_not.1 h1, not_not.1 h2⟩

theorem poly_fini_ok (m : PolyMem) (p : Nat) (t : Int)
    (hmagic : (m.hdr p).magic = ECS_OBJECT_MAGIC) (htype : (m.hdr p).type = t) :
    _ecs_poly_fini m (some p) t =
      .ok { m with hdr := fun a => if a = p then { m.hdr p with magic := 0 } else m.hdr a } := by
  simp [_ecs_poly_fini, hmagic, htype]

theorem get_mixin_dead (m : PolyMem) (fuel p : Nat) (kind : ecs_mixin_kind_t)
    (hmagic : (m.hdr p).magic ≠ ECS_OBJECT_MAGIC) :
    get_mixin m (fuel + 1) (some p) kind = .error .assertion := by
  simp only [get_mixin]
  split_ifs <;> rfl

theorem poly_is_dead (m : PolyMem) (p : Nat) (u : Int)
    (hmagic : (m.hdr p).magic ≠ ECS_OBJECT_MAGIC) :
    _ecs_poly_is m (some p) u = .error .assertion := by
  simp only [_ecs_poly_is]
  rw [if_pos hmagic]

/-- C14: `_ecs_poly_fini(poly, t)` fails its assertions iff `poly` is null, or
the magic of the header is not `ECS_OBJECT_MAGIC`, or the stored type is not
`t`; otherwise it stores 0 in `magic` and changes nothing else, after which a
second `_ecs_poly_fini`, every `_ecs_poly_is` and every `get_mixin` on the
instance fail their assertion. On an instance made by `_ecs_poly_init` with
type `t`, `_ecs_poly_fini` with another type fails and with `t` succeeds. -/
theorem C14_fini_violations (m : PolyMem) (poly : Option Nat) (t : Int) :
    (_ecs_poly_fini m poly t = .error .assertion ↔
        poly = none ∨
          ∃ p, poly = some p ∧ ((m.hdr p).magic ≠ ECS_OBJECT_MAGIC ∨ (m.hdr p).type ≠ t)) ∧
      (∀ p, poly = some p → (m.hdr p).magic = ECS_OBJECT_MAGIC → (m.hdr p).type = t →
        ∃ m2, _ecs_poly_fini m poly t = .ok m2 ∧
          (m2.hdr p).magic = 0 ∧ (m2.hdr p).type = (m.hdr p).type ∧
          (m2.hdr p).mixins = (m.hdr p).mixins ∧ (∀ a, a ≠ p → m2.hdr a = m.hdr a) ∧
          m2.ptr = m.ptr ∧ m2.byte = m.byte ∧
          _ecs_poly_fini m2 poly t = .error .assertion ∧
          (∀ u, _ecs_poly_is m2 poly u = .error .assertion) ∧
          (∀ fuel kind, get_mixin m2 (fuel + 1) poly kind = .error .assertion)) ∧
      (∀ p size mixins, poly = some p → 0 ≤ size →
        ∃ m1, _ecs_poly_init m poly t size mixins = .ok (m1, poly) ∧
          (∀ u, u ≠ t → _ecs_poly_fini m1 poly u = .error .assertion) ∧
          ∃ m2, _ecs_poly_fini m1 poly t = .ok m2 ∧
            _ecs_poly_fini m2 poly t = .error .assertion ∧
            (∀ u, _ecs_poly_is m2 poly u = .error .assertion) ∧
            (∀ fuel kind, get_mixin m2 (fuel + 1) poly kind = .error .assertion)) := by
  have hdead : ∀ (m1 : PolyMem) (p : Nat),
      (let m2 : PolyMem :=
        { m1 with hdr := fun a => if a = p then { m1.hdr p with magic := 0 } else m1.hdr a }
       _ecs_poly_fini m2 (some p) t = .error .assertion ∧
        (∀ u, _ecs_poly_is m2 (some p) u = .error .assertion) ∧
        (∀ fuel kind, get_mixin m2 (fuel + 1) (some p) kind = .error .assertion)) := by
    intro m1 p
    have hm : ((fun a => if a = p then { m1.hdr p with magic := 0 } else m1.hdr a) p).magic ≠
        ECS_OBJECT_MAGIC := by
      simp only [if_true]
      exact magic_ne_zero
    refine ⟨?_, ?_, ?_⟩
    · exact (poly_fini_error_iff _ _ _).2 (Or.inr ⟨p, rfl, Or.inl hm⟩)
    · intro u
      exact poly_is_dead _ p u hm
    · intro fuel kind
      exact get_mixin_dead _ fuel p kind hm
  refine ⟨poly_fini_error_iff m poly t, ?_, ?_⟩
  · intro p hp hmagic htype
    subst hp
    refine ⟨_, poly_fini_ok m p t hmagic htype, by simp, by simp, by simp, ?_, rfl, rfl,
      hdead m p⟩
    intro a ha
    simp [ha]
  · intro p size mixins hp hsize
    subst hp
    refine ⟨_, poly_init_eq m p t size mixins hsize, ?_, ?_⟩
    · intro u hu
      refine (poly_fini_error_iff _ _ _).2 (Or.inr ⟨p, rfl, Or.inr ?_⟩)
      simpa using fun hh => hu hh.symm
    · exact ⟨_, poly_fini_ok _ p t (by simp) (by simp), hdead _ p⟩

/-- C14 (witness): the stage instance at address 1000 (type tag 2) is
finalised with its type; the second finalisation and a later `_ecs_poly_is`
fail. -/
theorem C14_fini_violations_witness :
    ∃ m2, _ecs_poly_fini stageWorldMem (some 1000) 2 = .ok m2 ∧
      (m2.hdr 1000).magic = 0 ∧ (m2.hdr 1000).type = (stageWorldMem.hdr 1000).type ∧
      (m2.hdr 1000).mixins = (stageWorldMem.hdr 1000).mixins ∧
      (∀ a, a ≠ 1000 → m2.hdr a = stageWorldMem.hdr a) ∧
      m2.ptr = stageWorldMem.ptr ∧ m2.byte = stageWorldMem.byte ∧
      _ecs_poly_fini m2 (some 1000) 2 = .error .assertion ∧
      (∀ u, _ecs_poly_is m2 (some 1000) u = .error .assertion) ∧
      (∀ fuel kind, get_mixin m2 (fuel + 1) (some 1000) kind = .error .assertion) :=
  (C14_fini_violations stageWorldMem (some 1000) 2).2.1 1000 rfl rfl rfl

/-! ### C15: no local offset and no base -/

/-- C15: for a valid instance (non-null, magic `ECS_OBJECT_MAGIC`) and a kind
below `EcsMixinMax`, when the descriptor of the instance has offset 0 for the
kind and offset 0 for `EcsMixinBase`, `get_mixin` returns `NULL`. -/
theorem C15_resolve_absent_without_base (m : PolyMem) (fuel p : Nat) (kind : ecs_mixin_kind_t)
    (hk : kind ≠ EcsMixinMax) (hmagic : (m.hdr p).magic = ECS_OBJECT_MAGIC)
    (hoff : ∀ mixins, (m.hdr p).mixins = some mixins →
      mixins.elems kind = 0 ∧ mixins.elems EcsMixinBase = 0) :
    get_mixin m (fuel + 1) (some p) kind = .ok none := by
  cases hmix : (m.hdr p).mixins with
  | none => simp [get_mixin, hk, hmagic, hmix]
  | some mixins => simp [get_mixin, hk, hmagic, hmix, (hoff mixins hmix).1]

/-- C15 (witness): the filter instance at address 3000 (descriptor
`ecs_filter_t_mixins`, only `Iterable`) has no `World`, `Entity`, `Observable`
or `Dtor`. -/
theorem C15_resolve_absent_without_base_witness :
    (filterMem.hdr 3000).magic = ECS_OBJECT_MAGIC ∧
      get_mixin filterMem 3 (some 3000) EcsMixinWorld = .ok none ∧
      get_mixin filterMem 3 (some 3000) EcsMixinEntity = .ok none ∧
      get_mixin filterMem 3 (some 3000) EcsMixinObservable = .ok none ∧
      get_mixin filterMem 3 (some 3000) EcsMixinDtor = .ok none ∧
      get_mixin filterMem 3 (some 3000) EcsMixinIterable = .ok (some 3032) :=
  ⟨rfl,
    C15_resolve_absent_without_base filterMem 2 3000 EcsMixinWorld (by decide) rfl
      (fun mixins h => by
        have h2 : mixins = ecs_filter_t_mixins 32 := (Option.some.inj h).symm
        subst h2
        exact ⟨rfl, rfl⟩),
    C15_resolve_absent_without_base filterMem 2 3000 EcsMixinEntity (by decide) rfl
      (fun mixins h => by
        have h2 : mixins = ecs_filter_t_mixins 32 := (Option.some.inj h).symm
        subst h2
        exact ⟨rfl, rfl⟩),
    C15_resolve_absent_without_base filterMem 2 3000 EcsMixinObservable (by decide) rfl
      (fun mixins h => by
        have h2 : mixins = ecs_filter_t_mixins 32 := (Option.some.inj h).symm
        subst h2
        exact ⟨rfl, rfl⟩),
    C15_resolve_absent_without_base filterMem 2 3000 EcsMixinDtor (by decide) rfl
      (fun mixins h => by
        have h2 : mixins = ecs_filter_t_mixins 32 := (Option.some.inj h).symm
        subst h2
        exact ⟨rfl, rfl⟩),
    rfl⟩

/-! ### C16: the local capability -/

/-- C16: for a valid instance and a kind below `EcsMixinMax` for which the
descriptor of the instance has a non-zero offset, `get_mixin` returns the
address of the instance plus that offset, whatever the memory holds elsewhere
(a `Base` offset, a base instance and its descriptor). -/
theorem C16_resolve_local (m : PolyMem) (fuel p : Nat) (kind : ecs_mixin_kind_t)
    (mixins : ecs_mixins_t) (hk : kind ≠ EcsMixinMax)
    (hmagic : (m.hdr p).magic = ECS_OBJECT_MAGIC) (hmix : (m.hdr p).mixins = some mixins)
    (hoff : mixins.elems kind ≠ 0) :
    get_mixin m (fuel + 1) (some p) kind = .ok (some (ECS_OFFSET p (mixins.elems kind))) := by
  simp [get_mixin, hk, hmagic, hmix, hoff]

/-- C16 (witness): the stage at address 1000 defines `World` locally at offset
24 and also has a `Base`; the world at 2000 defines `World` at offset 16. -/
theorem C16_resolve_local_witness :
    (ecs_stage_t_mixins 24).elems EcsMixinWorld ≠ 0 ∧
      (ecs_stage_t_mixins 24).elems EcsMixinBase ≠ 0 ∧
      get_mixin stageWorldMem 3 (some 2000) EcsMixinWorld = .ok (some 2016) ∧
      get_mixin stageWorldMem 3 (some 1000) EcsMixinWorld =
        .ok (some (ECS_OFFSET 1000 ((ecs_stage_t_mixins 24).elems EcsMixinWorld))) ∧
      ECS_OFFSET 1000 ((ecs_stage_t_mixins 24).elems EcsMixinWorld) = 1024 :=
  ⟨by decide, by decide, rfl,
    C16_resolve_local stageWorldMem 2 1000 EcsMixinWorld (ecs_stage_t_mixins 24) (by decide) rfl
      rfl (by decide),
    by decide⟩

/-! ### C17: require -/

theorem get_mixin_valid (m : PolyMem) (fuel p : Nat) (kind : ecs_mixin_kind_t)
    (hk : kind ≠ EcsMixinMax) (hmagic : (m.hdr p).magic = ECS_OBJECT_MAGIC) :
    ∃ r, get_mixin m (fuel + 1) (some p) kind = .ok r := by
  cases hmix : (m.hdr p).mixins with
  | none => exact ⟨none, by simp [get_mixin, hk, hmagic, hmix]⟩
  | some mixins =>
    by_cases hoff : mixins.elems kind = 0
    · exact ⟨none, by simp [get_mixin, hk, hmagic, hmix, hoff]⟩
    · exact ⟨some (ECS_OFFSET p (mixins.elems kind)),
        by simp [get_mixin, hk, hmagic, hmix, hoff]⟩

/-- C17: for a valid instance and a kind below `EcsMixinMax`, `get_mixin`
returns (a pointer or `NULL`); `assert_mixin` calls `ecs_os_abort` exactly when
`get_mixin` returns `NULL`, and otherwise returns the address `get_mixin`
returns; `ecs_get_iterable`, `ecs_get_observable` and `ecs_get_dtor` are
`assert_mixin` for their kind, and `ecs_get_world` aborts when `get_mixin`
returns `NULL` for `World` and otherwise returns the pointer stored at the
address `get_mixin` returns. -/
theorem C17_require_aborts_iff_absent (m : PolyMem) (fuel p : Nat) (kind : ecs_mixin_kind_t)
    (hk : kind ≠ EcsMixinMax) (hmagic : (m.hdr p).magic = ECS_OBJECT_MAGIC) :
    (∃ r, get_mixin m (fuel + 1) (some p) kind = .ok r) ∧
      (assert_mixin m (fuel + 1) (some p) kind = .error .abort ↔
        get_mixin m (fuel + 1) (some p) kind = .ok none) ∧
      (∀ a, get_mixin m (fuel + 1) (some p) kind = .ok (some a) →
        assert_mixin m (fuel + 1) (some p) kind = .ok (some a)) ∧
      ecs_get_iterable m (fuel + 1) (some p) =
        assert_mixin m (fuel + 1) (some p) EcsMixinIterable ∧
      ecs_get_observable m (fuel + 1) (some p) =
        assert_mixin m (fuel + 1) (some p) EcsMixinObservable ∧
      ecs_get_dtor m (fuel + 1) (some p) = assert_mixin m (fuel + 1) (some p) EcsMixinDtor ∧
      (ecs_get_world m (fuel + 1) (some p) = .error .abort ↔
        get_mixin m (fuel + 1) (some p) EcsMixinWorld = .ok none) ∧
      (∀ a, get_mixin m (fuel + 1) (some p) EcsMixinWorld = .ok (some a) →
        ecs_get_world m (fuel + 1) (some p) = .ok (m.ptr a)) := by
  have habort : ∀ k : ecs_mixin_kind_t, k ≠ EcsMixinMax →
      (assert_mixin m (fuel + 1) (some p) k = .error .abort ↔
        get_mixin m (fuel + 1) (some p) k = .ok none) := by
    intro k hk2
    obtain ⟨r, hr⟩ := get_mixin_valid m fuel p k hk2 hmagic
    cases r with
    | none => simp [assert_mixin, hr]
    | some a => simp [assert_mixin, hr]
  have hret : ∀ (k : ecs_mixin_kind_t) (a : Nat),
      get_mixin m (fuel + 1) (some p) k = .ok (some a) →
      assert_mixin m (fuel + 1) (some p) k = .ok (some a) := by
    intro k a hr
    simp [assert_mixin, hr]
  refine ⟨get_mixin_valid m fuel p kind hk hmagic, habort kind hk, hret kind, rfl, rfl, rfl,
    ?_, ?_⟩
  · obtain ⟨r, hr⟩ := get_mixin_valid m fuel p EcsMixinWorld (by decide) hmagic
    cases r with
    | none => simp [ecs_get_world, assert_mixin, hr]
    | some a => simp [ecs_get_world, assert_mixin, hr]
  · intro a hr
    simp [ecs_get_world, assert_mixin, hr]

/-- C17 (witness): the filter at 3000 has an iterable and no observable; the
stage at 1000 has a world reference stored at address 1024. -/
theorem C17_require_aborts_iff_absent_witness :
    (filterMem.hdr 3000).magic = ECS_OBJECT_MAGIC ∧
      (stageWorldMem.hdr 1000).magic = ECS_OBJECT_MAGIC ∧
      assert_mixin filterMem 3 (some 3000) EcsMixinObservable = .error .abort ∧
      assert_mixin filterMem 3 (some 3000) EcsMixinIterable = .ok (some 3032) ∧
      ecs_get_world stageWorldMem 3 (some 1000) = .ok (stageWorldMem.ptr 1024) ∧
      stageWorldMem.ptr 1024 = some 2000 :=
  ⟨rfl, rfl,
    (C17_require_aborts_iff_absent filterMem 2 3000 EcsMixinObservable (by decide) rfl).2.1.2 rfl,
    (C17_require_aborts_iff_absent filterMem 2 3000 EcsMixinIterable (by decide) rfl).2.2.1 3032
      rfl,
    (C17_require_aborts_iff_absent stageWorldMem 2 1000 EcsMixinWorld (by decide) rfl).2.2.2.2.2.2.2
      1024 rfl,
    by decide⟩

/-! ### C18: `_ecs_poly_assert` after an init without descriptor -/

/-- After `_ecs_poly_init` with a null descriptor, `_ecs_poly_assert` reads
`hdr->mixins->type_name` through the null `mixins` before any check: the
behaviour is undefined whatever type is asked for. -/
theorem poly_assert_null_descriptor (m : PolyMem) (p : Nat) (t size u : Int) (hsize : 0 ≤ size) :
    ∃ m2, _ecs_poly_init m (some p) t size none = .ok (m2, some p) ∧
      _ecs_poly_assert m2 (some p) u = .error .undefined ∧
      _ecs_poly_is m2 (some p) t = .ok true := by
  refine ⟨_, poly_init_eq m p t size none hsize, ?_, ?_⟩
  · simp [_ecs_poly_assert]
  · simp [_ecs_poly_is]

/-- With a descriptor, `_ecs_poly_assert` is the aborting form of
`_ecs_poly_is`. -/
theorem poly_assert_with_descriptor (m : PolyMem) (p : Nat) (t size u : Int)
    (mixins : ecs_mixins_t) (hsize : 0 ≤ size) :
    ∃ m2, _ecs_poly_init m (some p) t size (some mixins) = .ok (m2, some p) ∧
      _ecs_poly_assert m2 (some p) u = if t = u then .ok (some p) else .error .assertion := by
  refine ⟨_, poly_init_eq m p t size (some mixins) hsize, ?_⟩
  simp only [_ecs_poly_assert, if_true, ne_eq, not_true_eq_false, if_false]
  split_ifs <;> simp_all

/-- C18 (evaluation of the code at the failing input): a block of 64 bytes at
address 1000 of zeroed memory is initialised with the type tag 7 and a null
descriptor; `_ecs_poly_is(poly, 7)` returns true, yet `_ecs_poly_assert(poly, 7)`
does not return the instance: its first step reads through the null
descriptor. -/
theorem C18_poly_assert_reads_null_descriptor :
    (_ecs_poly_init zeroMem (some 1000) 7 64 none).map (fun r => r.2) = .ok (some 1000) ∧
      (_ecs_poly_init zeroMem (some 1000) 7 64 none).bind
          (fun r => _ecs_poly_is r.1 (some 1000) 7) = .ok true ∧
      (_ecs_poly_init zeroMem (some 1000) 7 64 none).bind
          (fun r => _ecs_poly_assert r.1 (some 1000) 7) = .error .undefined := by
  refine ⟨rfl, rfl, rfl⟩

/-! ### C19: the "no table" entry -/

/-- C19 (counterexample): after the single call `insert(A, header 10)` on a
fresh cache (every assertion holds) no "no table" entry is tracked, the head of
`tables` is the entry of A, and `ecs_table_cache_get(cache, NULL)` does not
return `NULL`: its assertion on the head of `tables` fails. And when the same
header 10 is inserted for the empty table B and then, while still linked, with
the "no table" reference, every assertion holds, header 10 is the "no table"
entry at the head of `tables`, and `set_empty(B, true)` returns true and moves
it to `empty_tables`. And when a header that has already been removed is
removed a second time, in `insert(NULL, 10)`, `insert(A, 11)`,
`remove(A, NULL)`, `remove(A, 11)`, `insert(B, 12)`, `remove(B, NULL)`,
`insert(NULL, 13)` with non-empty tables A and B, every assertion holds and no
header is inserted twice, yet two entries with `table = NULL` are in the cache
(headers 10 and 13, linked to each other), the head of `tables` is header 13
and not header 10, and the count of `tables` is 1. -/
theorem C19_get_null_asserts_without_entry :
    run id (fresh 1 zeroHdr, []) [Op.insert scenarioRows (some 1) 10] =
        some (after scenarioOps 1) ∧
      noTableCount (after scenarioOps 1).1 (after scenarioOps 1).2 = 0 ∧
      (after scenarioOps 1).1.cache.tables.first = some 10 ∧
      ((after scenarioOps 1).1.hdr 10).table = some 1 ∧
      ecs_table_cache_get id (after scenarioOps 1).1 none = none ∧
      ecs_table_cache_get id (after scenarioOps 1).1 none ≠ some none ∧
      (((ecs_table_cache_insert id scenarioRows (fresh 1 zeroHdr) (some 2) (some 10)).bind
          (fun s1 => ecs_table_cache_insert id scenarioRows s1 none (some 10))).map
          (fun s2 => (s2.cache.tables.first, (s2.hdr 10).table, (s2.hdr 10).empty)) =
        some (some 10, none, false)) ∧
      ((((ecs_table_cache_insert id scenarioRows (fresh 1 zeroHdr) (some 2) (some 10)).bind
          (fun s1 => ecs_table_cache_insert id scenarioRows s1 none (some 10))).bind
          (fun s2 => ecs_table_cache_set_empty id s2 (some 2) true)).map
          (fun r => (r.2, (r.1.hdr 10).table, (r.1.hdr 10).empty,
            r.1.cache.empty_tables.last)) =
        some (true, none, true, some 10)) ∧
      ((((((((ecs_table_cache_insert id (fun _ => 1) (fresh 1 zeroHdr) none (some 10)).bind
          (fun s1 => ecs_table_cache_insert id (fun _ => 1) s1 (some 1) (some 11))).bind
          (fun s2 => ecs_table_cache_remove id s2 (some 1) none)).bind
          (fun r3 => ecs_table_cache_remove id r3.1 (some 1) (some 11))).bind
          (fun r4 => ecs_table_cache_insert id (fun _ => 1) r4.1 (some 2) (some 12))).bind
          (fun s5 => ecs_table_cache_remove id s5 (some 2) none)).bind
          (fun r6 => ecs_table_cache_insert id (fun _ => 1) r6.1 none (some 13))).map
          (fun s7 => (noTableCount s7 [13, 10], s7.cache.tables.first, s7.cache.tables.count,
            (s7.hdr 13).table, (s7.hdr 13).prev, (s7.hdr 10).table, (s7.hdr 10).next)) =
        some (2, some 13, 1, none, some 10, none, some 13)) := by
  refine ⟨rfl, by decide, by decide, by decide, by decide, by decide, by decide, by decide,
    rfl⟩

theorem step_keeps_no_table (tid : Nat → Nat) (s s2 : State) (tr tr2 : List Nat) (op : Op)
    (hI : ∃ ts es, WF tid s ts es ∧ tr.Nodup ∧ ∀ x, x ∈ tr ↔ x ∈ ts ++ es)
    (h : step tid (s, tr) op = some (s2, tr2)) (x : Nat) (hx : x ∈ tr)
    (hnt : (s.hdr x).table = none) : x ∈ tr2 ∧ (s2.hdr x).table = none := by
  obtain ⟨ts, es, hW, _, hmem⟩ := hI
  cases op with
  | insert rows t e =>
    simp only [step] at h
    split_ifs at h with he
    cases hi : ecs_table_cache_insert tid rows s t (some e) with
    | none =>
      rw [hi] at h
      exact absurd h (by simp)
    | some s3 =>
      rw [hi] at h
      simp only [Option.some.injEq, Prod.mk.injEq] at h
      obtain ⟨_, hs3⟩ := insert_some hi
      have hxe : x ≠ e := fun hh => he (hh ▸ hx)
      refine ⟨by rw [← h.2]; exact List.mem_cons_of_mem _ hx, ?_⟩
      rw [← h.1, hs3, (insert_index_hdr tid _ t e).1,
        (insert_fields s t e (classify rows t) x).2.1, if_neg hxe]
      exact hnt
  | remove t elem =>
    simp only [step] at h
    split_ifs at h with hg
    cases t with
    | none => simp [ecs_table_cache_remove] at h
    | some a =>
      cases hr : ecs_table_cache_remove tid s (some a) elem with
      | none =>
        rw [hr] at h
        exact absurd h (by simp)
      | some res =>
        obtain ⟨s3, r⟩ := res
        rw [hr] at h
        rcases remove_cases hW.init hr with ⟨h1, h2, _, _⟩ | ⟨e, h1, _, _, h4, h5⟩
        · subst h1
          simp only [Option.some.injEq, Prod.mk.injEq] at h
          exact ⟨by rw [← h.2]; exact hx, by rw [← h.1, h2]; exact hnt⟩
        · subst h1
          simp only [Option.some.injEq, Prod.mk.injEq] at h
          have hxe : x ≠ e := by
            intro hh
            rw [hh, h4] at hnt
            exact absurd hnt (by simp)
          refine ⟨by rw [← h.2]; exact (List.mem_erase_of_ne hxe).2 hx, ?_⟩
          rw [← h.1, h5, remove_index_table]
          exact hnt
  | set_empty t b =>
    simp only [step] at h
    cases t with
    | none => simp [ecs_table_cache_set_empty] at h
    | some a =>
      cases hr : ecs_table_cache_set_empty tid s (some a) b with
      | none =>
        rw [hr] at h
        exact absurd h (by simp)
      | some res =>
        obtain ⟨s3, r⟩ := res
        rw [hr] at h
        simp only [Option.some.injEq, Prod.mk.injEq] at h
        rcases set_empty_cases hr with ⟨_, h2⟩ | ⟨e, _, _, _, h4⟩
        · exact ⟨by rw [← h.2]; exact hx, by rw [← h.1, h2]; exact hnt⟩
        · refine ⟨by rw [← h.2]; exact hx, ?_⟩
          rw [← h.1, h4, (set_empty_fields s e b x).2.1]
          exact hnt

theorem wf_no_table_first (tid : Nat → Nat) (s : State) (ts es tr : List Nat)
    (hW : WF tid s ts es) (hmem : ∀ x, x ∈ tr ↔ x ∈ ts ++ es) (x : Nat) (hx : x ∈ tr)
    (hnt : (s.hdr x).table = none) : s.cache.tables.first = some x := by
  rw [hW.tables.1]
  exact hW.sentinel x ((hmem x).1 hx) hnt

/-- C19 (amended): in every state reached from an initialised cache by insert,
remove and set_empty calls with their preconditions met (the assertions hold,
no header is inserted while it is still tracked, and a remove that is given a
header is given a tracked one; tracked means inserted and not yet removed), at
most one tracked entry has `table = NULL`, and if one exists it is
`tables.first`;
`ecs_table_cache_get(cache, NULL)` returns that entry when it exists; when none
exists it returns `NULL` iff `tables` is empty, and fails its assertion when
`tables` is not empty; an insert with the "no table" reference is accepted only
while `tables` is empty; and after any further call a "no table" entry is still
tracked, still has `table = NULL` and is still `tables.first`. -/
theorem C19_no_table_convention (tid : Nat → Nat) (self : Nat)
    (hdr : Nat → ecs_table_cache_hdr_t) (ops : List Op) (s : State) (tr : List Nat)
    (h : run tid (fresh self hdr, []) ops = some (s, tr)) :
    (noTableCount s tr ≤ 1 ∧
        ∀ x ∈ tr, (s.hdr x).table = none → s.cache.tables.first = some x) ∧
      ((∀ x ∈ tr, (s.hdr x).table = none →
          ecs_table_cache_get tid s none = some (some x)) ∧
        ((∀ x ∈ tr, (s.hdr x).table ≠ none) →
          (ecs_table_cache_get tid s none = some none ↔ s.cache.tables.count = 0) ∧
          (s.cache.tables.count ≠ 0 → ecs_table_cache_get tid s none = none))) ∧
      (∀ rows e s2, ecs_table_cache_insert tid rows s none (some e) = some s2 →
        s.cache.tables.count = 0) ∧
      (∀ op s2 tr2, step tid (s, tr) op = some (s2, tr2) →
        ∀ x ∈ tr, (s.hdr x).table = none →
          x ∈ tr2 ∧ (s2.hdr x).table = none ∧ s2.cache.tables.first = some x) := by
  have hI := run_fresh_inv tid self hdr ops s tr h
  obtain ⟨ts, es, hW, hnd, hmem⟩ := hI
  have hperm : List.Perm tr (ts ++ es) := (List.perm_ext_iff_of_nodup hnd hW.nodup).2 hmem
  have hnt : noTableCount s tr = noTableCount s (ts ++ es) := (hperm.filter _).length_eq
  have hcount : s.cache.tables.count = 0 ↔ ts = [] := by
    rw [hW.tables.2.2.1]
    cases ts with
    | nil => simp
    | cons a l =>
      simp only [List.length_cons, reduceCtorEq, iff_false]
      push_cast
      omega
  refine ⟨⟨hnt ▸ (wf_index_count tid s ts es hW).2,
    fun x hx hx2 => wf_no_table_first tid s ts es tr hW hmem x hx hx2⟩, ⟨?_, ?_⟩, ?_, ?_⟩
  · intro x hx hx2
    have hf := wf_no_table_first tid s ts es tr hW hmem x hx hx2
    simp only [ecs_table_cache_get, hf, hx2, if_true]
  · intro hall
    cases hts : ts with
    | nil =>
      have hf : s.cache.tables.first = none := by
        rw [hW.tables.1, hts]
        rfl
      have hc : s.cache.tables.count = 0 := hcount.2 hts
      exact ⟨⟨fun _ => hc, fun _ => (get_none_iff tid s).2 hf⟩, fun hne => absurd hc hne⟩
    | cons y l =>
      have hf : s.cache.tables.first = some y := by
        rw [hW.tables.1, hts]
        rfl
      have hy : (s.hdr y).table ≠ none :=
        hall y ((hmem y).2 (by simp [hts]))
      have hg : ecs_table_cache_get tid s none = none := by
        simp only [ecs_table_cache_get, hf, if_neg hy]
      have hc : s.cache.tables.count ≠ 0 := fun hh => by
        have := hcount.1 hh
        rw [hts] at this
        exact absurd this (by simp)
      exact ⟨⟨fun hh => absurd (hg ▸ hh) (by simp), fun hh => absurd hh hc⟩, fun _ => hg⟩
  · intro rows e s2 hins
    obtain ⟨hget, _⟩ := insert_some hins
    have hf := (get_none_iff tid s).1 hget
    rw [hW.tables.1] at hf
    exact hcount.2 (List.head?_eq_none_iff.1 hf)
  · intro op s2 tr2 hstep x hx hx2
    obtain ⟨h1, h2⟩ := step_keeps_no_table tid s s2 tr tr2 op ⟨ts, es, hW, hnd, hmem⟩ hstep x hx hx2
    obtain ⟨ts2, es2, hW2, _, hmem2⟩ := step_inv tid s s2 tr tr2 op ⟨ts, es, hW, hnd, hmem⟩ hstep
    exact ⟨h1, h2, wf_no_table_first tid s2 ts2 es2 tr2 hW2 hmem2 x h1 h2⟩

/-- C19 (witness): a "no table" entry (header 10) is inserted first, then A and
B; `get(NULL)` returns header 10, and `set_empty(A, true)` leaves it where it
is. -/
theorem C19_no_table_convention_witness :
    run id (fresh 1 zeroHdr, []) sentinelOps = some (after sentinelOps 3) ∧
      noTableCount (after sentinelOps 3).1 (after sentinelOps 3).2 ≤ 1 ∧
      (after sentinelOps 3).1.cache.tables.first = some 10 ∧
      ecs_table_cache_get id (after sentinelOps 3).1 none = some (some 10) ∧
      (∀ rows e s2,
        ecs_table_cache_insert id rows (after sentinelOps 3).1 none (some e) = some s2 →
        (after sentinelOps 3).1.cache.tables.count = 0) ∧
      (∀ s2 tr2, step id (after sentinelOps 3) (Op.set_empty (some 1) true) = some (s2, tr2) →
        10 ∈ tr2 ∧ (s2.hdr 10).table = none ∧ s2.cache.tables.first = some 10) :=
  ⟨rfl,
    (C19_no_table_convention id 1 zeroHdr sentinelOps (after sentinelOps 3).1
      (after sentinelOps 3).2 rfl).1.1,
    (C19_no_table_convention id 1 zeroHdr sentinelOps (after sentinelOps 3).1
      (after sentinelOps 3).2 rfl).1.2 10 (by decide) rfl,
    (C19_no_table_convention id 1 zeroHdr sentinelOps (after sentinelOps 3).1
      (after sentinelOps 3).2 rfl).2.1.1 10 (by decide) rfl,
    (C19_no_table_convention id 1 zeroHdr sentinelOps (after sentinelOps 3).1
      (after sentinelOps 3).2 rfl).2.2.1,
    fun s2 tr2 hs =>
      (C19_no_table_convention id 1 zeroHdr sentinelOps (after sentinelOps 3).1
        (after sentinelOps 3).2 rfl).2.2.2 (Op.set_empty (some 1) true) s2 tr2 hs 10
        (by decide) rfl⟩

/-! ### C20: traversal with a move of the yielded entry -/

/-- Traversal of the rest `rem` of the `tables` partition; the yielded entries
chosen by `tog` are moved behind the entries `es` of `empty_tables`. -/
theorem toggle_tables (tid : Nat → Nat) (tog : Nat → Bool) :
    ∀ (rem kept es : List Nat) (s : State) (it : ecs_table_cache_iter_t) (fuel : Nat),
      WF tid s (kept ++ rem) es → it.next = rem.head? →
      (∀ x ∈ rem, tog x = true → (s.hdr x).table ≠ none) → rem.length < fuel →
      ∃ s2 it2, traverse_toggling tid tog fuel s it = some (rem, s2, it2) ∧
        it2.next = none ∧
        WF tid s2 (kept ++ rem.filter (fun x => !tog x)) (es ++ rem.filter tog)
  | [], kept, es, s, it, fuel, hW, hit, _, hfuel => by
    obtain ⟨n, rfl⟩ : ∃ n, fuel = n + 1 := ⟨fuel - 1, by omega⟩
    refine ⟨s, it, ?_, hit, by simpa using hW⟩
    simp only [List.head?_nil] at hit
    simp [traverse_toggling, _flecs_table_cache_next, hit]
  | x :: rem, kept, es, s, it, fuel, hW, hit, htog, hfuel => by
    obtain ⟨n, rfl⟩ : ∃ n, fuel = n + 1 := ⟨fuel - 1, by omega⟩
    have hn : rem.length < n := by
      simp only [List.length_cons] at hfuel
      omega
    obtain ⟨htnd, hend, hdisj⟩ := List.nodup_append.1 hW.nodup
    obtain ⟨_, hnx, _⟩ := seg_unlink s.hdr kept rem x htnd hW.tables.2.2.2
    have hx : x ∈ (kept ++ x :: rem) ++ es := by simp
    have hxk : x ∉ kept := fun hh => (List.nodup_append.1 htnd).2.2 hh (by simp)
    have hxe : x ∉ es := fun hh => hdisj (by simp) hh
    have hflag : (s.hdr x).empty = false := hW.flag_t x (by simp)
    simp only [List.head?_cons] at hit
    by_cases hd : tog x = true
    · obtain ⟨a, ha⟩ := Option.ne_none_iff_exists.1 (htog x (by simp) hd)
      have hget := hW.idx_complete x hx a ha.symm
      have hmove := set_empty_eq tid s a x true hget (by simp [hflag])
      have hW2 := set_empty_wf tid s (kept ++ x :: rem) es a x true hW hget
      simp only [if_true] at hW2
      rw [List.erase_append_right _ hxk, List.erase_cons_head, List.erase_of_not_mem hxe] at hW2
      obtain ⟨s2, it2, h1, h2, h3⟩ := toggle_tables tid tog rem kept (es ++ [x])
        (table_cache_list_insert (set_flag (table_cache_list_remove s x) x true) x)
        { cur := some x, next := (s.hdr x).next } n hW2 hnx
        (fun y hy hdy => by
          rw [(set_empty_fields s x true y).2.1]
          exact htog y (List.mem_cons_of_mem _ hy) hdy) hn
      refine ⟨s2, it2, ?_, h2, by simpa [List.filter_cons, hd] using h3⟩
      simp [traverse_toggling, _flecs_table_cache_next, hit, hd, ← ha, hflag, hmove, h1]
    · have hW2 : WF tid s ((kept ++ [x]) ++ rem) es := by simpa using hW
      obtain ⟨s2, it2, h1, h2, h3⟩ := toggle_tables tid tog rem (kept ++ [x]) es s
        { cur := some x, next := (s.hdr x).next } n hW2 hnx
        (fun y hy hdy => htog y (List.mem_cons_of_mem _ hy) hdy) hn
      refine ⟨s2, it2, ?_, h2, by simpa [List.filter_cons, hd] using h3⟩
      simp [traverse_toggling, _flecs_table_cache_next, hit, hd, h1]

/-- Traversal of the rest `rem` of the `empty_tables` partition; the yielded
entries chosen by `tog` are moved behind the entries `ts` of `tables`. -/
theorem toggle_empty_tables (tid : Nat → Nat) (tog : Nat → Bool) :
    ∀ (rem kept ts : List Nat) (s : State) (it : ecs_table_cache_iter_t) (fuel : Nat),
      WF tid s ts (kept ++ rem) → it.next = rem.head? →
      (∀ x ∈ rem, tog x = true → (s.hdr x).table ≠ none) → rem.length < fuel →
      ∃ s2 it2, traverse_toggling tid tog fuel s it = some (rem, s2, it2) ∧
        it2.next = none ∧
        WF tid s2 (ts ++ rem.filter tog) (kept ++ rem.filter (fun x => !tog x))
  | [], kept, ts, s, it, fuel, hW, hit, _, hfuel => by
    obtain ⟨n, rfl⟩ : ∃ n, fuel = n + 1 := ⟨fuel - 1, by omega⟩
    refine ⟨s, it, ?_, hit, by simpa using hW⟩
    simp only [List.head?_nil] at hit
    simp [traverse_toggling, _flecs_table_cache_next, hit]
  | x :: rem, kept, ts, s, it, fuel, hW, hit, htog, hfuel => by
    obtain ⟨n, rfl⟩ : ∃ n, fuel = n + 1 := ⟨fuel - 1, by omega⟩
    have hn : rem.length < n := by
      simp only [List.length_cons] at hfuel
      omega
    obtain ⟨htnd, hend, hdisj⟩ := List.nodup_append.1 hW.nodup
    obtain ⟨_, hnx, _⟩ := seg_unlink s.hdr kept rem x hend hW.empties.2.2.2
    have hx : x ∈ ts ++ (kept ++ x :: rem) := by simp
    have hxk : x ∉ kept := fun hh => (List.nodup_append.1 hend).2.2 hh (by simp)
    have hxt : x ∉ ts := fun hh => hdisj hh (by simp)
    have hflag : (s.hdr x).empty = true := hW.flag_e x (by simp)
    simp only [List.head?_cons] at hit
    by_cases hd : tog x = true
    · obtain ⟨a, ha⟩ := Option.ne_none_iff_exists.1 (htog x (by simp) hd)
      have hget := hW.idx_complete x hx a ha.symm
      have hmove := set_empty_eq tid s a x false hget (by simp [hflag])
      have hW2 := set_empty_wf tid s ts (kept ++ x :: rem) a x false hW hget
      simp only [Bool.false_eq_true, if_false] at hW2
      rw [List.erase_append_right _ hxk, List.erase_cons_head, List.erase_of_not_mem hxt] at hW2
      obtain ⟨s2, it2, h1, h2, h3⟩ := toggle_empty_tables tid tog rem kept (ts ++ [x])
        (table_cache_list_insert (set_flag (table_cache_list_remove s x) x false) x)
        { cur := some x, next := (s.hdr x).next } n hW2 hnx
        (fun y hy hdy => by
          rw [(set_empty_fields s x false y).2.1]
          exact htog y (List.mem_cons_of_mem _ hy) hdy) hn
      refine ⟨s2, it2, ?_, h2, by simpa [List.filter_cons, hd] using h3⟩
      simp [traverse_toggling, _flecs_table_cache_next, hit, hd, ← ha, hflag, hmove, h1]
    · have hW2 : WF tid s ts ((kept ++ [x]) ++ rem) := by simpa using hW
      obtain ⟨s2, it2, h1, h2, h3⟩ := toggle_empty_tables tid tog rem (kept ++ [x]) ts s
        { cur := some x, next := (s.hdr x).next } n hW2 hnx
        (fun y hy hdy => htog y (List.mem_cons_of_mem _ hy) hdy) hn
      refine ⟨s2, it2, ?_, h2, by simpa [List.filter_cons, hd] using h3⟩
      simp [traverse_toggling, _flecs_table_cache_next, hit, hd, h1]

/-- C20: in a well-formed cache whose `tables` partition holds `ts` and whose
`empty_tables` partition holds `es`, a traversal started with
`flecs_table_cache_iter` (resp. `flecs_table_cache_empty_iter`) in which the
caller moves any of the just-yielded entries to the other partition with
`ecs_table_cache_set_empty` (those chosen by `tog`; a "no table" entry cannot
be passed to it) yields exactly `ts` (resp. `es`) in list order, each entry
once, and then `_flecs_table_cache_next` reports exhaustion; the moved entries
stand behind the previous entries of the other partition in the order in which
they were yielded, and the cache is well formed. `fuel` only has to exceed the
number of entries. -/
theorem C20_toggle_safe_iteration (tid : Nat → Nat) (tog : Nat → Bool) (s : State)
    (ts es : List Nat) (fuel : Nat) (hW : WF tid s ts es)
    (htog : ∀ x ∈ ts ++ es, tog x = true → (s.hdr x).table ≠ none) :
    (ts.length < fuel →
        ∃ s2 it2,
          traverse_toggling tid tog fuel s (flecs_table_cache_iter s).1 = some (ts, s2, it2) ∧
          (_flecs_table_cache_next s2 it2).1 = none ∧
          WF tid s2 (ts.filter (fun x => !tog x)) (es ++ ts.filter tog)) ∧
      (es.length < fuel →
        ∃ s2 it2,
          traverse_toggling tid tog fuel s (flecs_table_cache_empty_iter s).1 =
            some (es, s2, it2) ∧
          (_flecs_table_cache_next s2 it2).1 = none ∧
          WF tid s2 (ts ++ es.filter tog) (es.filter (fun x => !tog x))) := by
  constructor
  · intro hfuel
    obtain ⟨s2, it2, h1, h2, h3⟩ := toggle_tables tid tog ts [] es s
      (flecs_table_cache_iter s).1 fuel (by simpa using hW) hW.tables.1
      (fun x hx => htog x (List.mem_append_left _ hx)) hfuel
    exact ⟨s2, it2, h1, by simp [_flecs_table_cache_next, h2], by simpa using h3⟩
  · intro hfuel
    obtain ⟨s2, it2, h1, h2, h3⟩ := toggle_empty_tables tid tog es [] ts s
      (flecs_table_cache_empty_iter s).1 fuel (by simpa using hW) hW.empties.1
      (fun x hx => htog x (List.mem_append_right _ hx)) hfuel
    exact ⟨s2, it2, h1, by simp [_flecs_table_cache_next, h2], by simpa using h3⟩

/-- C20 (witness): the cache with A in `tables` and B, C in `empty_tables`;
the caller moves every entry it is given. -/
theorem C20_toggle_safe_iteration_witness :
    WF id (after threeOps 3).1 [10] [20, 30] ∧
      (∀ x ∈ [10] ++ [20, 30], (fun _ : Nat => true) x = true →
        ((after threeOps 3).1.hdr x).table ≠ none) ∧
      (∃ s2 it2,
          traverse_toggling id (fun _ => true) 5 (after threeOps 3).1
            (flecs_table_cache_iter (after threeOps 3).1).1 = some ([10], s2, it2) ∧
          (_flecs_table_cache_next s2 it2).1 = none ∧
          WF id s2 ([10].filter (fun x => !(fun _ : Nat => true) x))
            ([20, 30] ++ [10].filter (fun _ : Nat => true))) ∧
      (∃ s2 it2,
          traverse_toggling id (fun _ => true) 5 (after threeOps 3).1
            (flecs_table_cache_empty_iter (after threeOps 3).1).1 = some ([20, 30], s2, it2) ∧
          (_flecs_table_cache_next s2 it2).1 = none ∧
          WF id s2 ([10] ++ [20, 30].filter (fun _ : Nat => true))
            ([20, 30].filter (fun x => !(fun _ : Nat => true) x))) :=
  ⟨wf_three, by decide,
    (C20_toggle_safe_iteration id (fun _ => true) (after threeOps 3).1 [10] [20, 30] 5
      wf_three (by decide)).1 (by decide),
    (C20_toggle_safe_iteration id (fun _ => true) (after threeOps 3).1 [10] [20, 30] 5
      wf_three (by decide)).2 (by decide)⟩

end Flecs
